import Mathlib

/-!
# Verification of `public/js/fastdiff.js`

A shallow embedding of the diffing engine (`fastDiff`, `diff`, `diffToChanges`
and their helpers) together with the properties proved about it.

Modelling conventions
* A JavaScript array is a `List (Option α)`: a slot holding `none` is the value
  `undefined`, a slot holding `some v` is any other value.  A string is the
  array of its characters (this is what `Array.prototype.slice.call` produces).
* Reading `arr[i]` outside the array yields `undefined`, see `jsGet`.
* Numbers that may become `-1` in the source are `Int`.
* The comparator is an explicit argument; `defaultCmp` is the function that
  `cmp = cmp || function (a, b) { return a === b; }` installs when the caller
  passes none.
-/

namespace FastDiff

/-! ## Data model -/

/-- An atomic operation of an edit script: `'equal'`, `'insert'` or `'delete'`. -/
inductive Tag where
  | equal
  | insert
  | delete
  deriving DecidableEq, Repr

/-- A grouped change: `{type: 'insert', index, values}` or
`{type: 'delete', index, howMany}`. -/
inductive Change (α : Type) where
  | insert (index : Int) (values : List (Option α))
  | delete (index : Int) (howMany : Int)
  deriving DecidableEq, Repr

/-- The object `{ firstIndex, lastIndexOld, lastIndexNew }`. -/
structure ChangeIndexes where
  firstIndex : Int
  lastIndexOld : Int
  lastIndexNew : Int
  deriving DecidableEq, Repr

/-- The comparator used when the caller supplies none: `a === b`. -/
def defaultCmp {α : Type} [DecidableEq α] (a b : Option α) : Bool :=
  decide (a = b)

/-- The expression `arr[i]`: `undefined` (that is `none`) outside the array. -/
def jsGet {α : Type} (arr : List (Option α)) (i : Int) : Option α :=
  if i < 0 then none else (arr.get? i.toNat).join

/-- Clamping of a relative index as done by `Array.prototype.slice`. -/
def jsClamp (len : Nat) (i : Int) : Nat :=
  if i < 0 then (len + i).toNat else min i.toNat len

/-- The call `arr.slice(start, stop)`. -/
def jsSlice {α : Type} (arr : List (Option α)) (start stop : Int) : List (Option α) :=
  (arr.drop (jsClamp arr.length start)).take
    (jsClamp arr.length stop - jsClamp arr.length start)

/-- The call `arr.slice(start)`. -/
def jsSliceFrom {α : Type} (arr : List (Option α)) (start : Int) : List (Option α) :=
  jsSlice arr start arr.length

/-! ## The boundary finder -/

/-- The `for` loop of `findFirstDifferenceIndex`, started at index `i` with
`fuel = max(arr1.length, arr2.length) - i` iterations left. -/
def findFirstDifferenceIndexLoop {α : Type} (arr1 arr2 : List (Option α))
    (cmp : Option α → Option α → Bool) : Nat → Nat → Int
  | 0, _ => -1
  | fuel + 1, i =>
    if (jsGet arr1 i).isNone || (jsGet arr2 i).isNone
        || !cmp (jsGet arr1 i) (jsGet arr2 i) then
      (i : Int)
    else
      findFirstDifferenceIndexLoop arr1 arr2 cmp fuel (i + 1)

/-- Source function `findFirstDifferenceIndex(arr1, arr2, cmp)`. -/
def findFirstDifferenceIndex {α : Type} (arr1 arr2 : List (Option α))
    (cmp : Option α → Option α → Bool) : Int :=
  findFirstDifferenceIndexLoop arr1 arr2 cmp (max arr1.length arr2.length) 0

/-- Source function `cutAndReverse(arr, howMany)`. -/
def cutAndReverse {α : Type} (arr : List (Option α)) (howMany : Int) : List (Option α) :=
  (jsSliceFrom arr howMany).reverse

/-- Source function `findChangeBoundaryIndexes(arr1, arr2, cmp)`. -/
def findChangeBoundaryIndexes {α : Type} (arr1 arr2 : List (Option α))
    (cmp : Option α → Option α → Bool) : ChangeIndexes :=
  let firstIndex := findFirstDifferenceIndex arr1 arr2 cmp
  if firstIndex = -1 then
    { firstIndex := -1, lastIndexOld := -1, lastIndexNew := -1 }
  else
    let oldArrayReversed := cutAndReverse arr1 firstIndex
    let newArrayReversed := cutAndReverse arr2 firstIndex
    let lastIndex := findFirstDifferenceIndex oldArrayReversed newArrayReversed cmp
    let lastIndexOld := (arr1.length : Int) - lastIndex
    let lastIndexNew := (arr2.length : Int) - lastIndex
    { firstIndex := firstIndex, lastIndexOld := lastIndexOld, lastIndexNew := lastIndexNew }

/-! ## The change materializer -/

/-- Source function `changeIndexesToChanges(newArray, changeIndexes)`. -/
def changeIndexesToChanges {α : Type} (newArray : List (Option α))
    (changeIndexes : ChangeIndexes) : List (Change α) :=
  let firstIndex := changeIndexes.firstIndex
  let lastIndexOld := changeIndexes.lastIndexOld
  let lastIndexNew := changeIndexes.lastIndexNew
  let result : List (Change α) := []
  let result :=
    if lastIndexNew - firstIndex > 0 then
      result ++ [Change.insert firstIndex (jsSlice newArray firstIndex lastIndexNew)]
    else result
  let result :=
    if lastIndexOld - firstIndex > 0 then
      result ++ [Change.delete (firstIndex + (lastIndexNew - firstIndex))
        (lastIndexOld - firstIndex)]
    else result
  result

/-- The expression `Array(n).fill(t)`. -/
def jsFill (n : Int) (t : Tag) : List Tag :=
  List.replicate n.toNat t

/-- Source function `changeIndexesToAtomicChanges(changeIndexes, newLength)`. -/
def changeIndexesToAtomicChanges (changeIndexes : ChangeIndexes) (newLength : Nat) :
    List Tag :=
  let firstIndex := changeIndexes.firstIndex
  let lastIndexOld := changeIndexes.lastIndexOld
  let lastIndexNew := changeIndexes.lastIndexNew
  if firstIndex = -1 then
    jsFill newLength Tag.equal
  else
    let result : List Tag := []
    let result := if firstIndex > 0 then result ++ jsFill firstIndex Tag.equal else result
    let result :=
      if lastIndexNew - firstIndex > 0 then
        result ++ jsFill (lastIndexNew - firstIndex) Tag.insert
      else result
    let result :=
      if lastIndexOld - firstIndex > 0 then
        result ++ jsFill (lastIndexOld - firstIndex) Tag.delete
      else result
    let result :=
      if lastIndexNew < (newLength : Int) then
        result ++ jsFill ((newLength : Int) - lastIndexNew) Tag.equal
      else result
    result

/-- The type of the value returned by `fastDiff`, which depends on the flag
`atomicChanges`: a tag list when it is set, a change list otherwise. -/
abbrev FastDiffResult (α : Type) : Bool → Type
  | true => List Tag
  | false => List (Change α)

/-- Source function `fastDiff(a, b, cmp, atomicChanges)`. -/
def fastDiff {α : Type} (a b : List (Option α)) (cmp : Option α → Option α → Bool) :
    (atomicChanges : Bool) → FastDiffResult α atomicChanges
  | true => changeIndexesToAtomicChanges (findChangeBoundaryIndexes a b cmp) b.length
  | false => changeIndexesToChanges b (findChangeBoundaryIndexes a b cmp)

/-! ## The opcode grouper -/

/-- The field `type` of a change object. -/
def Change.type {α : Type} : Change α → Tag
  | Change.insert _ _ => Tag.insert
  | Change.delete _ _ => Tag.delete

/-- The local variables of `diffToChanges`: `changes`, `index`, `lastOperation`. -/
structure GroupState (α : Type) where
  changes : List (Change α)
  index : Int
  lastOperation : Option (Change α)

/-- Inner function `pushLast()` of `diffToChanges`. -/
def pushLast {α : Type} (st : GroupState α) : GroupState α :=
  match st.lastOperation with
  | some op => { st with changes := st.changes ++ [op], lastOperation := none }
  | none => st

/-- Inner function `isContinuationOf(expected)` of `diffToChanges`. -/
def isContinuationOf {α : Type} (st : GroupState α) (expected : Tag) : Bool :=
  match st.lastOperation with
  | some op => decide (op.type = expected)
  | none => false

/-- The body of the `forEach` callback of `diffToChanges` for one tag. -/
def groupStep {α : Type} (output : List (Option α)) (st : GroupState α) (change : Tag) :
    GroupState α :=
  match change with
  | Tag.equal =>
    let st := pushLast st
    { st with index := st.index + 1 }
  | Tag.insert =>
    let st :=
      if isContinuationOf st Tag.insert then
        match st.lastOperation with
        | some (Change.insert i values) =>
          { st with lastOperation := some (Change.insert i (values ++ [jsGet output st.index])) }
        | _ => st
      else
        let st := pushLast st
        { st with lastOperation := some (Change.insert st.index [jsGet output st.index]) }
    { st with index := st.index + 1 }
  | Tag.delete =>
    if isContinuationOf st Tag.delete then
      match st.lastOperation with
      | some (Change.delete i howMany) =>
        { st with lastOperation := some (Change.delete i (howMany + 1)) }
      | _ => st
    else
      let st := pushLast st
      { st with lastOperation := some (Change.delete st.index 1) }

/-- Source function `diffToChanges(diff, output)`. -/
def diffToChanges {α : Type} (diff : List Tag) (output : List (Option α)) :
    List (Change α) :=
  (pushLast (diff.foldl (groupStep output)
    { changes := [], index := 0, lastOperation := none })).changes

/-! ## The optimal diff engine -/

/-- The two objects `es` (edit scripts) and `fp` (furthest points) of `diff`,
keyed by diagonal; `none` is a missing key. -/
structure MyersState where
  es : Int → Option (List Tag)
  fp : Int → Option Int

/-- The assignment `obj[k] = v`. -/
def setKey {β : Type} (obj : Int → Option β) (k : Int) (v : β) : Int → Option β :=
  fun j => if j = k then some v else obj j

/-- The expression `fp[k] !== undefined ? fp[k] : -1`. -/
def fpOr (fp : Int → Option Int) (k : Int) : Int :=
  match fp k with
  | some v => v
  | none => -1

/-- The `while` loop of `snake`: follows the diagonal from `(x, y)` while the
values match, pushing `'equal'`; `fuel` is the number `n - y` of iterations the
condition `y < n` can still allow.  Returns the final `y` and the script. -/
def snakeWhile {α : Type} (a b : List (Option α)) (cmp : Option α → Option α → Bool)
    (m n : Int) : Nat → Int → Int → List Tag → Int × List Tag
  | 0, _, y, s => (y, s)
  | fuel + 1, x, y, s =>
    if x < m && y < n && cmp (jsGet a x) (jsGet b y) then
      snakeWhile a b cmp m n fuel (x + 1) (y + 1) (s ++ [Tag.equal])
    else (y, s)

/-- The statement `fp[k] = snake(k)` of `diff`; `tInsert` and `tDelete` are
the variables `_insert` and `_delete`. -/
def snakeStep {α : Type} (a b : List (Option α)) (cmp : Option α → Option α → Bool)
    (tInsert tDelete : Tag) (st : MyersState) (k : Int) : MyersState :=
  let m : Int := a.length
  let n : Int := b.length
  let y1 : Int := fpOr st.fp (k - 1) + 1
  let y2 : Int := fpOr st.fp (k + 1)
  let dir : Int := if y1 > y2 then -1 else 1
  let es := match st.es (k + dir) with
    | some s => setKey st.es k s
    | none => st.es
  let es := match es k with
    | some _ => es
    | none => setKey es k []
  let action : Tag := if y1 > y2 then tInsert else tDelete
  let s0 : List Tag := (match es k with | some s => s | none => []) ++ [action]
  let y := max y1 y2
  let x := y - k
  let r := snakeWhile a b cmp m n (n - y).toNat x y s0
  { es := setKey es k r.2, fp := setKey st.fp k r.1 }

/-- The diagonals visited by `for (k = -p; k < delta; k++)`, in order. -/
def diagonalsBelow (p : Nat) (delta : Int) : List Int :=
  (List.range (delta + p).toNat).map (fun i : Nat => -(p : Int) + (i : Int))

/-- The diagonals visited by `for (k = delta + p; k > delta; k--)`, in order. -/
def diagonalsAbove (p : Nat) (delta : Int) : List Int :=
  (List.range p).map (fun i : Nat => delta + (p : Int) - (i : Int))

/-- One pass through the body of the `do ... while` loop of `diff`
(without the increment of `p`). -/
def diffRound {α : Type} (a b : List (Option α)) (cmp : Option α → Option α → Bool)
    (tInsert tDelete : Tag) (p : Nat) (st : MyersState) : MyersState :=
  let delta : Int := (b.length : Int) - a.length
  let st := (diagonalsBelow p delta).foldl (snakeStep a b cmp tInsert tDelete) st
  let st := (diagonalsAbove p delta).foldl (snakeStep a b cmp tInsert tDelete) st
  snakeStep a b cmp tInsert tDelete st delta

/-- The `do ... while (fp[delta] !== n)` loop of `diff`, run for at most `fuel`
rounds starting with the given `p`; `none` when the loop has not exited by then. -/
def diffLoop {α : Type} (a b : List (Option α)) (cmp : Option α → Option α → Bool)
    (tInsert tDelete : Tag) : Nat → Nat → MyersState → Option MyersState
  | 0, _, _ => none
  | fuel + 1, p, st =>
    let st := diffRound a b cmp tInsert tDelete p st
    if st.fp ((b.length : Int) - a.length) ≠ some (b.length : Int) then
      diffLoop a b cmp tInsert tDelete fuel (p + 1) st
    else some st

/-- The part of `diff` after the size test (lines 128-216), with `a` and `b`
already put in order (`a` the shorter one); `none` when the loop has not
exited after `fuel` rounds or when `es[delta]` is missing at the end. -/
def myersCore {α : Type} (fuel : Nat) (a b : List (Option α))
    (cmp : Option α → Option α → Bool) (tInsert tDelete : Tag) : Option (List Tag) :=
  match diffLoop a b cmp tInsert tDelete fuel 0 { es := fun _ => none, fp := fun _ => none } with
  | none => none
  | some st =>
    match st.es ((b.length : Int) - a.length) with
    | some s => some (s.drop 1)
    | none => none

/-- The size test of `diff`: `aLength > 200 || bLength > 200 || aLength + bLength > 300`. -/
def useFastDiff (aLength bLength : Nat) : Bool :=
  decide (aLength > 200) || decide (bLength > 200) || decide (aLength + bLength > 300)

/-- Source function `diff(a, b, cmp)` with the `do ... while` loop bounded by
`fuel` rounds; the result is the returned tag list, `none` when the loop has
not exited after `fuel` rounds. -/
def diffFuel {α : Type} (fuel : Nat) (a b : List (Option α))
    (cmp : Option α → Option α → Bool) : Option (List Tag) :=
  if useFastDiff a.length b.length then
    some (fastDiff a b cmp true)
  else if b.length < a.length then
    myersCore fuel b a cmp Tag.delete Tag.insert
  else
    myersCore fuel a b cmp Tag.insert Tag.delete

/-- Source function `diff(a, b, cmp)`.  The loop is given `a.length + b.length + 1`
rounds, which is never exhausted: the loop exits within `min(m, n) + 1` rounds
(see `diffLoop_spec`). -/
def diff {α : Type} (a b : List (Option α)) (cmp : Option α → Option α → Bool) :
    Option (List Tag) :=
  diffFuel (a.length + b.length + 1) a b cmp

/-! ## Patch semantics used by the specification -/

/-- Applying one change to a sequence: an insert puts `values` at `index`, a
delete removes `howMany` elements at `index`. -/
def applyChange {α : Type} (s : List (Option α)) : Change α → List (Option α)
  | Change.insert index values => s.take index.toNat ++ values ++ s.drop index.toNat
  | Change.delete index howMany =>
    s.take index.toNat ++ s.drop (index.toNat + howMany.toNat)

/-- Applying a change list left to right. -/
def applyChanges {α : Type} (s : List (Option α)) (cs : List (Change α)) :
    List (Option α) :=
  cs.foldl applyChange s

/-- A string as the array of its characters. -/
def chars (s : String) : List (Option Char) :=
  s.toList.map some

/-! ## Auxiliary predicates used in the proofs -/

/-- Position `j` is inside both arrays, holds a defined value in both, and the
comparator accepts the pair: the loop of `findFirstDifferenceIndex` goes on. -/
def Agree {α : Type} (arr1 arr2 : List (Option α)) (cmp : Option α → Option α → Bool)
    (j : Nat) : Prop :=
  ((jsGet arr1 j).isNone || (jsGet arr2 j).isNone
    || !cmp (jsGet arr1 j) (jsGet arr2 j)) = false

/-- A valid edit script from `old` to `new` under the default equality: read
from left to right, `equal` consumes one element of each sequence, which must
be the same, `insert` consumes one element of `new`, `delete` one element of
`old`, and both sequences are used up at the end. -/
def isEditScript {α : Type} [DecidableEq α] :
    List Tag → List (Option α) → List (Option α) → Bool
  | [], old, new => old.isEmpty && new.isEmpty
  | Tag.equal :: t, x :: old, y :: new => decide (x = y) && isEditScript t old new
  | Tag.equal :: _, _, _ => false
  | Tag.insert :: t, old, _ :: new => isEditScript t old new
  | Tag.insert :: _, _, [] => false
  | Tag.delete :: t, _ :: old, new => isEditScript t old new
  | Tag.delete :: _, [], _ => false

/-- The number of `insert` and `delete` tags of a script. -/
def editCount (t : List Tag) : Nat :=
  t.count Tag.insert + t.count Tag.delete

/-- Invariant of the loop of `diffToChanges` while it walks an edit script
from `old` to `new`: `newDone` is the part of `new` already produced,
`oldRest` the part of `old` not yet consumed, and the pending operation, if
any, is what separates the sequence patched so far from `newDone ++ oldRest`. -/
def GroupInv {α : Type} (old : List (Option α)) (st : GroupState α)
    (newDone oldRest : List (Option α)) : Prop :=
  st.index = (newDone.length : Int) ∧
  match st.lastOperation with
  | none => applyChanges old st.changes = newDone ++ oldRest
  | some (Change.insert i vals) =>
    ∃ front : List (Option α), newDone = front ++ vals ∧ i = (front.length : Int) ∧
      applyChanges old st.changes = front ++ oldRest
  | some (Change.delete i c) =>
    ∃ gone : List (Option α), i = (newDone.length : Int) ∧ c = (gone.length : Int) ∧
      applyChanges old st.changes = newDone ++ gone ++ oldRest

/-- The script `s` describes a walk in the edit graph of `a` and `b` from
`(0, 0)` to `(x, y)` with `d` steps of kind `tDelete`: a step `tInsert` moves
one down (`y + 1`), a step `tDelete` one right (`x + 1`), and a step `equal`
moves along the diagonal over a pair accepted by `cmp`. -/
inductive Reach {α : Type} (a b : List (Option α)) (cmp : Option α → Option α → Bool)
    (tInsert tDelete : Tag) : List Tag → Nat → Nat → Nat → Prop
  | nil : Reach a b cmp tInsert tDelete [] 0 0 0
  | ins {s : List Tag} {x y d : Nat} : Reach a b cmp tInsert tDelete s x y d →
      Reach a b cmp tInsert tDelete (s ++ [tInsert]) x (y + 1) d
  | del {s : List Tag} {x y d : Nat} : Reach a b cmp tInsert tDelete s x y d →
      Reach a b cmp tInsert tDelete (s ++ [tDelete]) (x + 1) y (d + 1)
  | eq {s : List Tag} {x y d : Nat} : Reach a b cmp tInsert tDelete s x y d →
      x < a.length → y < b.length → cmp (jsGet a x) (jsGet b y) = true →
      Reach a b cmp tInsert tDelete (s ++ [Tag.equal]) (x + 1) (y + 1) d

/-- The condition of the `while` loop of `snake` at the point `(x, y)`. -/
def CanStep {α : Type} (a b : List (Option α)) (cmp : Option α → Option α → Bool)
    (x y : Int) : Prop :=
  x < (a.length : Int) ∧ y < (b.length : Int) ∧ cmp (jsGet a x) (jsGet b y) = true

/-- The `while` loop of `snake` started at `(x, y)` makes exactly `c` steps. -/
def SnakeRun {α : Type} (a b : List (Option α)) (cmp : Option α → Option α → Bool)
    (x y : Int) (c : Nat) : Prop :=
  (∀ i : Nat, i < c → CanStep a b cmp (x + i) (y + i)) ∧ ¬ CanStep a b cmp (x + c) (y + c)

/-- Diagonal `k` of the state is filled: its furthest point is `y`, reached
at `(x, y)` with `x = y - k` by the script stored in `es[k]` (after the
leading tag pushed by the very first call of `snake`) with `d` steps of kind
`tDelete`, and the snake cannot be followed any further from there. -/
def Diag {α : Type} (a b : List (Option α)) (cmp : Option α → Option α → Bool)
    (tInsert tDelete : Tag) (st : MyersState) (k : Int) (x y d : Nat) : Prop :=
  st.fp k = some (y : Int) ∧ (y : Int) - k = (x : Int) ∧ ¬ CanStep a b cmp x y ∧
  ∃ s : List Tag, st.es k = some (tInsert :: s) ∧ Reach a b cmp tInsert tDelete s x y d

/-- Bounds on a filled diagonal `k` in round `P` for sequences of lengths
`m ≤ n`: the point is inside the edit graph, the walk has used at most the
budget of the round, and it has advanced at least as far as the round number. -/
def Bound (m n : Nat) (P : Int) (k : Int) (x y d : Nat) : Prop :=
  x ≤ m ∧ y ≤ n ∧
  (k ≤ (n : Int) - m → (d : Int) ≤ P ∧ P ≤ (x : Int)) ∧
  ((n : Int) - m ≤ k → (d : Int) + (k - ((n : Int) - m)) ≤ P ∧ (n : Int) - m + P ≤ (y : Int))

/-- State of `diff` when round `p` starts: exactly the diagonals
`-(p-1) .. delta+(p-1)` are filled, each strictly inside the edit graph. -/
def StartInv {α : Type} (a b : List (Option α)) (cmp : Option α → Option α → Bool)
    (tInsert tDelete : Tag) (p : Nat) (st : MyersState) : Prop :=
  (∀ k : Int, ¬ (1 ≤ p ∧ -(p : Int) + 1 ≤ k ∧ k ≤ (b.length : Int) - a.length + p - 1) →
    st.fp k = none ∧ st.es k = none) ∧
  (∀ k : Int, 1 ≤ p → -(p : Int) + 1 ≤ k → k ≤ (b.length : Int) - a.length + p - 1 →
    ∃ x y d : Nat, Diag a b cmp tInsert tDelete st k x y d ∧
      Bound a.length b.length ((p : Int) - 1) k x y d ∧ x < a.length ∧ y < b.length)

/-- State of `diff` when round `p` is over: exactly the diagonals
`-p .. delta+p` are filled, and the furthest points increase towards the
diagonal `delta` from both sides. -/
def EndInv {α : Type} (a b : List (Option α)) (cmp : Option α → Option α → Bool)
    (tInsert tDelete : Tag) (p : Nat) (st : MyersState) : Prop :=
  (∀ k : Int, ¬ (-(p : Int) ≤ k ∧ k ≤ (b.length : Int) - a.length + p) →
    st.fp k = none ∧ st.es k = none) ∧
  (∀ k : Int, -(p : Int) ≤ k → k ≤ (b.length : Int) - a.length + p →
    ∃ x y d : Nat, Diag a b cmp tInsert tDelete st k x y d ∧
      Bound a.length b.length (p : Int) k x y d) ∧
  (∀ (k y y' : Int), k < (b.length : Int) - a.length → st.fp k = some y →
    st.fp (k + 1) = some y' → y + 1 ≤ y') ∧
  (∀ (k y y' : Int), (b.length : Int) - a.length ≤ k → st.fp k = some y →
    st.fp (k + 1) = some y' → y' ≤ y)

/-- How the furthest points of a round dominate those of the round before. -/
def RoundRel (delta : Int) (st0 st : MyersState) : Prop :=
  (∀ (k y : Int), k < delta → st0.fp (k + 1) = some y →
    ∃ y' : Int, st.fp k = some y' ∧ y ≤ y') ∧
  (∀ (k y : Int), delta < k → st0.fp (k - 1) = some y →
    ∃ y' : Int, st.fp k = some y' ∧ y + 1 ≤ y')

/-- State inside the first `for` loop of round `p`, when the diagonals
`-p .. k-1` have been updated and `k` comes next; `st0` is the state at the
start of the round. -/
def Mid1 {α : Type} (a b : List (Option α)) (cmp : Option α → Option α → Bool)
    (tInsert tDelete : Tag) (p : Nat) (st0 : MyersState) (k : Int) (st : MyersState) : Prop :=
  (∀ j : Int, (j < -(p : Int) ∨ k ≤ j) → st.fp j = st0.fp j ∧ st.es j = st0.es j) ∧
  (∀ j : Int, -(p : Int) ≤ j → j < k →
    ∃ x y d : Nat, Diag a b cmp tInsert tDelete st j x y d ∧
      Bound a.length b.length (p : Int) j x y d) ∧
  (∀ (j y y' : Int), j + 1 < k → st.fp j = some y → st.fp (j + 1) = some y' → y + 1 ≤ y') ∧
  (∀ (j y : Int), -(p : Int) ≤ j → j < k → st0.fp (j + 1) = some y →
    ∃ y' : Int, st.fp j = some y' ∧ y ≤ y')

/-- State inside the second `for` loop of round `p`, when the diagonals
`k+1 .. delta+p` have been updated and `k` comes next; `st0` is the state at
the start of the round and `st1` the state after the first loop. -/
def Mid2 {α : Type} (a b : List (Option α)) (cmp : Option α → Option α → Bool)
    (tInsert tDelete : Tag) (p : Nat) (st0 st1 : MyersState) (k : Int) (st : MyersState) :
    Prop :=
  (∀ j : Int, (j ≤ k ∨ (b.length : Int) - a.length + p < j) →
    st.fp j = st1.fp j ∧ st.es j = st1.es j) ∧
  (∀ j : Int, k < j → j ≤ (b.length : Int) - a.length + p →
    ∃ x y d : Nat, Diag a b cmp tInsert tDelete st j x y d ∧
      Bound a.length b.length (p : Int) j x y d) ∧
  (∀ (j y y' : Int), k < j → st.fp j = some y → st.fp (j + 1) = some y' → y' ≤ y) ∧
  (∀ (j y : Int), k < j → j ≤ (b.length : Int) - a.length + p → st0.fp (j - 1) = some y →
    ∃ y' : Int, st.fp j = some y' ∧ y + 1 ≤ y')

/-- What a call `snake(k)` achieves on the state `st`: diagonal `k` of the new
state `st'` is filled with a point at least as far as both candidates, and it
was obtained either by the very first call, or by a step `tInsert` from a
point of diagonal `k - 1` satisfying `QL`, or by a step `tDelete` from a point
of diagonal `k + 1` satisfying `QR`. -/
def SnakeOutcome {α : Type} (a b : List (Option α)) (cmp : Option α → Option α → Bool)
    (tInsert tDelete : Tag) (QL QR : Nat → Nat → Nat → Prop) (st st' : MyersState)
    (k : Int) : Prop :=
  ∃ x y d : Nat,
    Diag a b cmp tInsert tDelete st' k x y d ∧
    (∀ yl : Int, st.fp (k - 1) = some yl → yl + 1 ≤ (y : Int)) ∧
    (∀ yr : Int, st.fp (k + 1) = some yr → yr ≤ (y : Int)) ∧
    ((k = 0 ∧ st.fp (k - 1) = none ∧ st.fp (k + 1) = none ∧ d = 0 ∧
        x ≤ a.length ∧ y ≤ b.length) ∨
     (∃ xl yl : Nat, QL xl yl d ∧ (yl : Int) - (k - 1) = (xl : Int) ∧ xl ≤ x ∧ yl + 1 ≤ y ∧
        ((x = xl ∧ y = yl + 1) ∨ (x ≤ a.length ∧ y ≤ b.length))) ∨
     (∃ xr yr dr : Nat, QR xr yr dr ∧ (yr : Int) - (k + 1) = (xr : Int) ∧ d = dr + 1 ∧
        xr + 1 ≤ x ∧ yr ≤ y ∧
        ((x = xr + 1 ∧ y = yr) ∨ (x ≤ a.length ∧ y ≤ b.length))))

/-- A walk with `d` steps of kind `tDelete` ending on diagonal `k` fits in the
budget `P` of a round: below the diagonal `delta` the deletions are counted,
above it the insertions in excess of `delta`. -/
def WithinBudget (delta P k : Int) (d : Nat) : Prop :=
  (k ≤ delta → (d : Int) ≤ P) ∧ (delta ≤ k → (d : Int) + (k - delta) ≤ P)

/-- The furthest points of the state dominate every walk that fits in the
budget `P`. -/
def Furthest {α : Type} (a b : List (Option α)) (cmp : Option α → Option α → Bool)
    (tInsert tDelete : Tag) (P : Int) (st : MyersState) : Prop :=
  ∀ (s : List Tag) (x y d : Nat), Reach a b cmp tInsert tDelete s x y d →
    WithinBudget ((b.length : Int) - a.length) P ((y : Int) - x) d →
    ∃ y' : Int, st.fp ((y : Int) - x) = some y' ∧ (y : Int) ≤ y'

/-- Exchanging the tags `insert` and `delete`. -/
def swapTag : Tag → Tag
  | Tag.equal => Tag.equal
  | Tag.insert => Tag.delete
  | Tag.delete => Tag.insert

/-- The sequence `c` is a longest common subsequence of `old` and `new`: its
length is what the specification calls `LCS(old, new)`. -/
def IsLongestCommonSubsequence {α : Type} (c old new : List (Option α)) : Prop :=
  c.Sublist old ∧ c.Sublist new ∧
  ∀ c' : List (Option α), c'.Sublist old → c'.Sublist new → c'.length ≤ c.length

/-- A change operation is well formed when an insert carries at least one
value and a delete removes at least one element. -/
def Change.WellFormed {α : Type} : Change α → Prop
  | Change.insert _ values => values ≠ []
  | Change.delete _ howMany => howMany > 0

/-- Specification side: the length of the longest common head of two
sequences under `eq`. -/
def commonHeadLength {α : Type} (eq : Option α → Option α → Bool) :
    List (Option α) → List (Option α) → Nat
  | x :: xs, y :: ys => if eq x y then commonHeadLength eq xs ys + 1 else 0
  | _, _ => 0

/-- Specification side: the length of the longest common tail of two
sequences under `eq`. -/
def commonTailLength {α : Type} (eq : Option α → Option α → Bool)
    (a b : List (Option α)) : Nat :=
  commonHeadLength eq a.reverse b.reverse

/-- Specification side: the grouped change list described in terms of the
longest common head `p` of `old` and `new` and the longest common tail `s` of
what follows it: an insert at `p` of `new[p : len(new) - s]` when that range is
not empty, then a delete at `len(new) - s` of `len(old) - s - p` elements when
that number is positive. -/
def groupedShape {α : Type} (eq : Option α → Option α → Bool)
    (old new : List (Option α)) : List (Change α) :=
  let p := commonHeadLength eq old new
  let s := commonTailLength eq (old.drop p) (new.drop p)
  (if new.length - s > p then
    [Change.insert (p : Int) ((new.drop p).take (new.length - s - p))]
   else [])
  ++ (if old.length - s > p then
    [Change.delete ((new.length - s : Nat) : Int) ((old.length - s - p : Nat) : Int)]
   else [])

/-- Specification side: at position `i` one of the two sequences is exhausted
or `eq` rejects the pair of elements found there. -/
def Differs {α : Type} (eq : Option α → Option α → Bool) (old new : List (Option α))
    (i : Nat) : Prop :=
  old.length ≤ i ∨ new.length ≤ i ∨ eq (jsGet old i) (jsGet new i) = false

/-- The state of `diff("a", "b")` with the default equality just before the
last call of `snake` (round `p = 1`, diagonal `0`): round `0` and the two
`for` loops of round `1` have run. -/
def tieState : MyersState :=
  (diagonalsAbove 1 0).foldl (snakeStep (chars "a") (chars "b") defaultCmp Tag.insert Tag.delete)
    ((diagonalsBelow 1 0).foldl
      (snakeStep (chars "a") (chars "b") defaultCmp Tag.insert Tag.delete)
      (diffRound (chars "a") (chars "b") defaultCmp Tag.insert Tag.delete 0
        { es := fun _ => none, fp := fun _ => none }))

/-- Two states of `diff` that differ only by an exchange of the tags `insert`
and `delete` in every script. -/
def SwapRel (st st' : MyersState) : Prop :=
  (∀ k : Int, st'.fp k = st.fp k) ∧
  (∀ k : Int, st'.es k = (st.es k).map (List.map swapTag))

/-- The point `(x, y)` from which `snake(k)` starts to follow the diagonal:
`y = Math.max(y1, y2)` and `x = y - k`. -/
def snakeStart (st : MyersState) (k : Int) : Int × Int :=
  (max (fpOr st.fp (k - 1) + 1) (fpOr st.fp (k + 1)) - k,
    max (fpOr st.fp (k - 1) + 1) (fpOr st.fp (k + 1)))

/-- The points `(x, y)` at which the `while` loop of `snake`, started at
`(x, y)`, evaluates `cmp(a[x], b[y])`: the comparator is called only after
`x < m && y < n` has been found true, and the loop goes on while it accepts. -/
def snakeCalls {α : Type} (a b : List (Option α)) (cmp : Option α → Option α → Bool)
    (m n : Int) : Nat → Int → Int → List (Int × Int)
  | 0, _, _ => []
  | fuel + 1, x, y =>
    if x < m && y < n then
      (x, y) :: (if cmp (jsGet a x) (jsGet b y) then
        snakeCalls a b cmp m n fuel (x + 1) (y + 1) else [])
    else []

/-- The diagonals on which one round of `diff` calls `snake`, in order. -/
def roundDiagonals (p : Nat) (delta : Int) : List Int :=
  diagonalsBelow p delta ++ diagonalsAbove p delta ++ [delta]

/-- The state of `diff` when round `p` starts, if the loop gets that far. -/
def stateAtRound {α : Type} (a b : List (Option α)) (cmp : Option α → Option α → Bool)
    (tInsert tDelete : Tag) : Nat → MyersState
  | 0 => { es := fun _ => none, fp := fun _ => none }
  | p + 1 => diffRound a b cmp tInsert tDelete p (stateAtRound a b cmp tInsert tDelete p)

/-- The state of `diff` just before the `i`-th call of `snake` in round `p`. -/
def stateBeforeCall {α : Type} (a b : List (Option α)) (cmp : Option α → Option α → Bool)
    (tInsert tDelete : Tag) (p i : Nat) : MyersState :=
  ((roundDiagonals p ((b.length : Int) - a.length)).take i).foldl
    (snakeStep a b cmp tInsert tDelete) (stateAtRound a b cmp tInsert tDelete p)

/-- The field `index` of a change object. -/
def Change.index {α : Type} : Change α → Int
  | Change.insert index _ => index
  | Change.delete index _ => index

/-! ## Facts about the boundary finder -/

theorem jsGet_natCast {α : Type} (arr : List (Option α)) (j : Nat) :
    jsGet arr (j : Int) = (arr[j]?).join := by
  simp [jsGet]

theorem Agree.lt_left {α : Type} {arr1 arr2 : List (Option α)}
    {cmp : Option α → Option α → Bool} {j : Nat} (h : Agree arr1 arr2 cmp j) :
    j < arr1.length := by
  unfold Agree at h
  by_contra hc
  have : arr1[j]? = none := List.getElem?_eq_none (by omega)
  simp [jsGet_natCast, this] at h

theorem Agree.lt_right {α : Type} {arr1 arr2 : List (Option α)}
    {cmp : Option α → Option α → Bool} {j : Nat} (h : Agree arr1 arr2 cmp j) :
    j < arr2.length := by
  unfold Agree at h
  by_contra hc
  have : arr2[j]? = none := List.getElem?_eq_none (by omega)
  simp [jsGet_natCast, this] at h

theorem Agree.cmp_eq {α : Type} {arr1 arr2 : List (Option α)}
    {cmp : Option α → Option α → Bool} {j : Nat} (h : Agree arr1 arr2 cmp j) :
    cmp (jsGet arr1 j) (jsGet arr2 j) = true := by
  unfold Agree at h
  simp at h
  exact h.2

/-- What the loop of `findFirstDifferenceIndex` computes. -/
theorem findFirstDifferenceIndexLoop_spec {α : Type} (arr1 arr2 : List (Option α))
    (cmp : Option α → Option α → Bool) (fuel i : Nat) :
    (findFirstDifferenceIndexLoop arr1 arr2 cmp fuel i = -1 ∧
        ∀ j, i ≤ j → j < i + fuel → Agree arr1 arr2 cmp j) ∨
    (∃ q : Nat, findFirstDifferenceIndexLoop arr1 arr2 cmp fuel i = (q : Int) ∧
        i ≤ q ∧ q < i + fuel ∧ ¬ Agree arr1 arr2 cmp q ∧
        ∀ j, i ≤ j → j < q → Agree arr1 arr2 cmp j) := by
  induction fuel generalizing i with
  | zero =>
    left
    refine ⟨rfl, ?_⟩
    intro j h1 h2
    omega
  | succ fuel ih =>
    unfold findFirstDifferenceIndexLoop
    by_cases hc : ((jsGet arr1 i).isNone || (jsGet arr2 i).isNone
        || !cmp (jsGet arr1 i) (jsGet arr2 i)) = true
    · right
      refine ⟨i, by simp only [hc, if_true], le_refl _, by omega, ?_, ?_⟩
      · unfold Agree
        simp only [hc]
        decide
      · intro j h1 h2
        omega
    · have hA : Agree arr1 arr2 cmp i := by
        unfold Agree
        exact Bool.eq_false_iff.mpr hc
      simp only [hc, if_false]
      rcases ih (i + 1) with ⟨h1, h2⟩ | ⟨q, h1, h2, h3, h4, h5⟩
      · left
        refine ⟨h1, ?_⟩
        intro j hj1 hj2
        by_cases hji : j = i
        · subst hji
          exact hA
        · exact h2 j (by omega) (by omega)
      · right
        refine ⟨q, h1, by omega, by omega, h4, ?_⟩
        intro j hj1 hj2
        by_cases hji : j = i
        · subst hji
          exact hA
        · exact h5 j (by omega) hj2

/-- When `findFirstDifferenceIndex` returns `-1`, the arrays have the same
length and agree everywhere. -/
theorem findFirstDifferenceIndex_neg {α : Type} (arr1 arr2 : List (Option α))
    (cmp : Option α → Option α → Bool)
    (h : findFirstDifferenceIndex arr1 arr2 cmp = -1) :
    arr1.length = arr2.length ∧ ∀ j, j < arr1.length → Agree arr1 arr2 cmp j := by
  unfold findFirstDifferenceIndex at h
  rcases findFirstDifferenceIndexLoop_spec arr1 arr2 cmp
      (max arr1.length arr2.length) 0 with ⟨_, h2⟩ | ⟨q, h1, _⟩
  · have hlen : arr1.length = arr2.length := by
      by_contra hne
      rcases Nat.lt_or_gt_of_ne hne with hlt | hgt
      · have := (h2 arr1.length (Nat.zero_le _) (by omega)).lt_left
        omega
      · have := (h2 arr2.length (Nat.zero_le _) (by omega)).lt_right
        omega
    refine ⟨hlen, ?_⟩
    intro j hj
    exact h2 j (Nat.zero_le _) (by omega)
  · rw [h] at h1
    omega

/-- When `findFirstDifferenceIndex` does not return `-1`, it returns the first
position at which the arrays do not agree; this position is inside or at the
end of both arrays. -/
theorem findFirstDifferenceIndex_nonneg {α : Type} (arr1 arr2 : List (Option α))
    (cmp : Option α → Option α → Bool)
    (h : findFirstDifferenceIndex arr1 arr2 cmp ≠ -1) :
    ∃ q : Nat, findFirstDifferenceIndex arr1 arr2 cmp = (q : Int) ∧
      q ≤ arr1.length ∧ q ≤ arr2.length ∧ q < max arr1.length arr2.length ∧
      ¬ Agree arr1 arr2 cmp q ∧ ∀ j, j < q → Agree arr1 arr2 cmp j := by
  unfold findFirstDifferenceIndex at h ⊢
  rcases findFirstDifferenceIndexLoop_spec arr1 arr2 cmp
      (max arr1.length arr2.length) 0 with ⟨h1, _⟩ | ⟨q, h1, _, h3, h4, h5⟩
  · exact absurd h1 h
  · refine ⟨q, h1, ?_, ?_, by omega, h4, fun j hj => h5 j (Nat.zero_le _) hj⟩
    · by_contra hc
      have := (h5 arr1.length (Nat.zero_le _) (by omega)).lt_left
      omega
    · by_contra hc
      have := (h5 arr2.length (Nat.zero_le _) (by omega)).lt_right
      omega

theorem Agree.of_jsGet_eq {α : Type} {a b a' b' : List (Option α)}
    {cmp : Option α → Option α → Bool} {j j' : Nat}
    (h1 : jsGet a j = jsGet a' j') (h2 : jsGet b j = jsGet b' j') :
    Agree a b cmp j ↔ Agree a' b' cmp j' := by
  unfold Agree
  rw [h1, h2]

theorem jsSliceFrom_eq_drop {α : Type} (arr : List (Option α)) (f : Nat)
    (hf : f ≤ arr.length) : jsSliceFrom arr (f : Int) = arr.drop f := by
  unfold jsSliceFrom jsSlice jsClamp
  have h1 : ¬ ((f : Int) < 0) := by omega
  have h2 : ¬ ((arr.length : Int) < 0) := by omega
  simp only [h1, h2, if_false, Int.toNat_ofNat, Nat.min_self, Nat.min_eq_left hf]
  apply List.take_of_length_le
  simp

theorem cutAndReverse_eq {α : Type} (arr : List (Option α)) (f : Nat)
    (hf : f ≤ arr.length) : cutAndReverse arr (f : Int) = (arr.drop f).reverse := by
  unfold cutAndReverse
  rw [jsSliceFrom_eq_drop arr f hf]

/-- Reading the reversed tail at position `j` reads the array at `len - 1 - j`. -/
theorem jsGet_reverse_drop {α : Type} (arr : List (Option α)) (f j : Nat)
    (hj : f + j < arr.length) :
    jsGet (arr.drop f).reverse (j : Int) = jsGet arr ((arr.length - 1 - j : Nat) : Int) := by
  rw [jsGet_natCast, jsGet_natCast, List.getElem?_reverse (by simp; omega),
    List.getElem?_drop]
  congr 2
  simp
  omega

/-- The two possible outcomes of `findChangeBoundaryIndexes`: the sentinel when
the arrays agree everywhere, and otherwise a first index `f` and a count `l`
of trailing positions, which never overlaps the part before `f`. -/
theorem findChangeBoundaryIndexes_cases {α : Type} (a b : List (Option α))
    (cmp : Option α → Option α → Bool) :
    (findFirstDifferenceIndex a b cmp = -1 ∧
      findChangeBoundaryIndexes a b cmp
        = { firstIndex := -1, lastIndexOld := -1, lastIndexNew := -1 } ∧
      a.length = b.length ∧ ∀ j, j < a.length → Agree a b cmp j) ∨
    (∃ f l : Nat,
      findFirstDifferenceIndex a b cmp = (f : Int) ∧
      findChangeBoundaryIndexes a b cmp
        = { firstIndex := (f : Int), lastIndexOld := (a.length : Int) - l,
            lastIndexNew := (b.length : Int) - l } ∧
      f + l ≤ a.length ∧ f + l ≤ b.length ∧ f < max a.length b.length ∧
      ¬ Agree a b cmp f ∧ (∀ j, j < f → Agree a b cmp j) ∧
      ¬ Agree (a.drop f).reverse (b.drop f).reverse cmp l ∧
      (∀ j, j < l → Agree (a.drop f).reverse (b.drop f).reverse cmp j)) := by
  by_cases h : findFirstDifferenceIndex a b cmp = -1
  · left
    obtain ⟨h1, h2⟩ := findFirstDifferenceIndex_neg a b cmp h
    refine ⟨h, ?_, h1, h2⟩
    unfold findChangeBoundaryIndexes
    simp only [h, if_true]
  · right
    obtain ⟨f, hf, hfa, hfb, hfm, hnA, hA⟩ := findFirstDifferenceIndex_nonneg a b cmp h
    have hl : findFirstDifferenceIndex (a.drop f).reverse (b.drop f).reverse cmp ≠ -1 := by
      intro hneg
      obtain ⟨hlen, hall⟩ := findFirstDifferenceIndex_neg _ _ cmp hneg
      simp only [List.length_reverse, List.length_drop] at hlen hall
      have hfa' : f < a.length := by omega
      have hfb' : f < b.length := by omega
      have hAg := hall (a.length - f - 1) (by omega)
      apply hnA
      refine (Agree.of_jsGet_eq ?_ ?_).mp hAg
      · rw [jsGet_reverse_drop a f _ (by omega)]
        congr 2
        omega
      · rw [jsGet_reverse_drop b f _ (by omega)]
        congr 2
        omega
    obtain ⟨l, hl1, hla, hlb, _, hnAl, hAl⟩ := findFirstDifferenceIndex_nonneg _ _ cmp hl
    simp only [List.length_reverse, List.length_drop] at hla hlb
    refine ⟨f, l, hf, ?_, by omega, by omega, hfm, hnA, hA, hnAl, hAl⟩
    have hf1 : ¬ ((f : Int) = -1) := by omega
    unfold findChangeBoundaryIndexes
    simp only [hf, cutAndReverse_eq a f hfa, cutAndReverse_eq b f hfb, hl1, hf1, if_false]

/-- The default comparator accepts exactly equal values. -/
theorem defaultCmp_eq_true {α : Type} [DecidableEq α] (x y : Option α) :
    defaultCmp x y = true ↔ x = y := by
  simp [defaultCmp]

/-- Under the default comparator, arrays that agree at every position below
`q` have the same first `q` elements. -/
theorem take_eq_of_agree {α : Type} [DecidableEq α] (a b : List (Option α)) (q : Nat)
    (h : ∀ j, j < q → Agree a b defaultCmp j) : a.take q = b.take q := by
  apply List.ext_getElem?
  intro n
  rw [List.getElem?_take, List.getElem?_take]
  by_cases hn : n < q
  · simp only [hn, if_true]
    have hA := h n hn
    have h1 := hA.lt_left
    have h2 := hA.lt_right
    have h3 := (defaultCmp_eq_true _ _).mp hA.cmp_eq
    rw [jsGet_natCast, jsGet_natCast, List.getElem?_eq_getElem h1,
      List.getElem?_eq_getElem h2] at h3
    rw [List.getElem?_eq_getElem h1, List.getElem?_eq_getElem h2]
    simpa using h3
  · simp only [hn, if_false]

/-- Applying the grouped changes of a boundary that splits `old = P ++ X ++ S`
and `new = P ++ Y ++ S` replaces `X` by `Y`. -/
theorem applyChanges_changeIndexesToChanges {α : Type} (P X Y S : List (Option α)) :
    applyChanges (P ++ X ++ S)
      (changeIndexesToChanges (P ++ Y ++ S)
        { firstIndex := (P.length : Int),
          lastIndexOld := (P.length : Int) + X.length,
          lastIndexNew := (P.length : Int) + Y.length }) = P ++ Y ++ S := by
  have hslice : jsSlice (P ++ Y ++ S) (P.length : Int) ((P.length : Int) + Y.length) = Y := by
    unfold jsSlice jsClamp
    have h1 : ¬ ((P.length : Int) < 0) := by omega
    have h2 : ¬ ((P.length : Int) + (Y.length : Int) < 0) := by omega
    have h3 : ((P.length : Int) + (Y.length : Int)).toNat = P.length + Y.length := by omega
    simp only [h1, h2, if_false, Int.toNat_ofNat, h3, List.length_append]
    have h4 : min P.length (P.length + Y.length + S.length) = P.length := by omega
    have h5 : min (P.length + Y.length) (P.length + Y.length + S.length)
        = P.length + Y.length := by omega
    rw [h4, h5, List.append_assoc, List.drop_left]
    have h6 : P.length + Y.length - P.length = Y.length := by omega
    rw [h6, List.take_left]
  unfold changeIndexesToChanges applyChanges
  simp only [hslice, List.nil_append]
  have e1 : (P.length : Int) + (Y.length : Int) - (P.length : Int) = (Y.length : Int) := by omega
  have e2 : (P.length : Int) + (X.length : Int) - (P.length : Int) = (X.length : Int) := by omega
  rw [e1, e2]
  have hins : applyChange (P ++ X ++ S) (Change.insert (P.length : Int) Y)
      = P ++ Y ++ X ++ S := by
    simp only [applyChange, Int.toNat_ofNat, List.append_assoc, List.take_left,
      List.drop_left]
  have hdel : ∀ Z : List (Option α),
      applyChange (P ++ Z ++ X ++ S)
        (Change.delete ((P.length : Int) + (Z.length : Int)) (X.length : Int))
      = P ++ Z ++ S := by
    intro Z
    have h3 : ((P.length : Int) + (Z.length : Int)).toNat = (P ++ Z).length := by
      simp only [List.length_append]
      omega
    have h4 : (P ++ Z).length + X.length = (P ++ Z ++ X).length := by
      simp only [List.length_append]
    simp only [applyChange, h3, Int.toNat_ofNat]
    rw [h4, List.drop_left, List.append_assoc (P ++ Z), List.take_left]
  by_cases hY : (Y.length : Int) > 0 <;> by_cases hX : (X.length : Int) > 0
  · simp only [hY, hX, if_true, List.foldl_cons, List.foldl_nil, List.cons_append,
      List.nil_append, hins]
    exact hdel Y
  · have hX0 : X = [] := List.length_eq_zero.mp (by omega)
    subst hX0
    simp only [hY, hX, if_true, if_false, List.foldl_cons, List.foldl_nil]
    simpa using hins
  · have hY0 : Y = [] := List.length_eq_zero.mp (by omega)
    subst hY0
    simp only [hY, hX, if_true, if_false, List.foldl_cons, List.foldl_nil,
      List.nil_append]
    have := hdel []
    simpa using this
  · have hX0 : X = [] := List.length_eq_zero.mp (by omega)
    have hY0 : Y = [] := List.length_eq_zero.mp (by omega)
    subst hX0 hY0
    simp only [hY, hX, if_false, List.foldl_nil]

/-- Under the default comparator the boundary splits both arrays around a
common head `P` and a common tail `S`. -/
theorem findChangeBoundaryIndexes_split {α : Type} [DecidableEq α]
    (a b : List (Option α)) (h : findFirstDifferenceIndex a b defaultCmp ≠ -1) :
    ∃ P X Y S : List (Option α), a = P ++ X ++ S ∧ b = P ++ Y ++ S ∧
      findChangeBoundaryIndexes a b defaultCmp
        = { firstIndex := (P.length : Int),
            lastIndexOld := (P.length : Int) + X.length,
            lastIndexNew := (P.length : Int) + Y.length } := by
  rcases findChangeBoundaryIndexes_cases a b defaultCmp with ⟨h1, _⟩ | ⟨f, l, _, hci, hla, hlb, _, _, hA, _, hAl⟩
  · exact absurd h1 h
  · have hP : a.take f = b.take f := take_eq_of_agree a b f hA
    have hS0 := take_eq_of_agree _ _ l hAl
    rw [List.take_reverse, List.take_reverse, List.reverse_inj, List.drop_drop,
      List.drop_drop, List.length_drop, List.length_drop] at hS0
    have ea : f + (a.length - f - l) = a.length - l := by omega
    have eb : f + (b.length - f - l) = b.length - l := by omega
    rw [ea, eb] at hS0
    refine ⟨a.take f, (a.drop f).take (a.length - l - f), (b.drop f).take (b.length - l - f),
      a.drop (a.length - l), ?_, ?_, ?_⟩
    · have h1 : a.drop (a.length - l) = (a.drop f).drop (a.length - l - f) := by
        rw [List.drop_drop]
        congr 1
        omega
      rw [h1, List.append_assoc, List.take_append_drop, List.take_append_drop]
    · have h1 : b.drop (b.length - l) = (b.drop f).drop (b.length - l - f) := by
        rw [List.drop_drop]
        congr 1
        omega
      rw [hS0, hP, h1, List.append_assoc, List.take_append_drop, List.take_append_drop]
    · rw [hci]
      simp only [List.length_take, List.length_drop]
      congr 1 <;> omega

/-! ## Patch correctness of `fastDiff` -/

/-- **C1** Patch correctness of `fastDiff` in grouped mode: with the default
equality, applying the change list `fastDiff(old, new)` to `old` from left to
right yields exactly `new`. -/
theorem fastDiff_patch_correct {α : Type} [DecidableEq α] (old new : List (Option α)) :
    applyChanges old (fastDiff old new defaultCmp false) = new := by
  show applyChanges old (changeIndexesToChanges new
    (findChangeBoundaryIndexes old new defaultCmp)) = new
  by_cases h : findFirstDifferenceIndex old new defaultCmp = -1
  · obtain ⟨hlen, hall⟩ := findFirstDifferenceIndex_neg old new defaultCmp h
    have ht := take_eq_of_agree old new old.length hall
    rw [List.take_of_length_le (le_refl _), List.take_of_length_le (by omega)] at ht
    have hci : findChangeBoundaryIndexes old new defaultCmp
        = { firstIndex := -1, lastIndexOld := -1, lastIndexNew := -1 } := by
      unfold findChangeBoundaryIndexes
      simp only [h, if_true]
    rw [hci]
    simp [changeIndexesToChanges, applyChanges, ht]
  · obtain ⟨P, X, Y, S, ha, hb, hci⟩ := findChangeBoundaryIndexes_split old new h
    rw [hci]
    conv_lhs => rw [ha, hb]
    rw [applyChanges_changeIndexesToChanges, hb]

/-! ## The opcode grouper applied to an edit script -/

theorem jsGet_append_length {α : Type} (l r : List (Option α)) (y : Option α) :
    jsGet (l ++ y :: r) (l.length : Int) = y := by
  rw [jsGet_natCast, List.getElem?_append_right (le_refl _)]
  simp

theorem applyChanges_append {α : Type} (s : List (Option α)) (cs : List (Change α))
    (c : Change α) : applyChanges s (cs ++ [c]) = applyChange (applyChanges s cs) c := by
  simp [applyChanges, List.foldl_append]

theorem applyChange_insert_split {α : Type} (front vals rest : List (Option α)) :
    applyChange (front ++ rest) (Change.insert (front.length : Int) vals)
      = front ++ vals ++ rest := by
  simp [applyChange]

theorem applyChange_delete_split {α : Type} (front gone rest : List (Option α)) :
    applyChange (front ++ gone ++ rest)
      (Change.delete (front.length : Int) (gone.length : Int)) = front ++ rest := by
  simp only [applyChange, Int.toNat_ofNat, List.append_assoc, List.take_left]
  rw [← List.length_append, ← List.append_assoc, List.drop_left]

/-- Flushing the pending operation of a state that satisfies the invariant
gives a change list that turns `old` into `newDone ++ oldRest`. -/
theorem GroupInv.pushLast {α : Type} {old : List (Option α)} {st : GroupState α}
    {newDone oldRest : List (Option α)} (h : GroupInv old st newDone oldRest) :
    (FastDiff.pushLast st).index = (newDone.length : Int) ∧
    (FastDiff.pushLast st).lastOperation = none ∧
    applyChanges old (FastDiff.pushLast st).changes = newDone ++ oldRest := by
  obtain ⟨changes, index, lastOp⟩ := st
  obtain ⟨hidx, hop⟩ := h
  cases lastOp with
  | none => exact ⟨hidx, rfl, hop⟩
  | some op =>
    cases op with
    | insert i vals =>
      obtain ⟨front, h1, h2, h3⟩ := hop
      refine ⟨hidx, rfl, ?_⟩
      show applyChanges old (changes ++ [Change.insert i vals]) = newDone ++ oldRest
      simp only at h3
      rw [applyChanges_append, h3, h2, applyChange_insert_split, h1]
    | delete i c =>
      obtain ⟨gone, h1, h2, h3⟩ := hop
      refine ⟨hidx, rfl, ?_⟩
      show applyChanges old (changes ++ [Change.delete i c]) = newDone ++ oldRest
      simp only at h3
      rw [applyChanges_append, h3, h1, h2, applyChange_delete_split]

theorem groupStep_equal {α : Type} {old new : List (Option α)} {st : GroupState α}
    {newDone oldRest : List (Option α)} (x : Option α)
    (h : GroupInv old st newDone (x :: oldRest)) :
    GroupInv old (groupStep new st Tag.equal) (newDone ++ [x]) oldRest := by
  obtain ⟨h1, h2, h3⟩ := h.pushLast
  refine ⟨?_, ?_⟩
  · show (FastDiff.pushLast st).index + 1 = _
    rw [h1]
    simp
  · show match (FastDiff.pushLast st).lastOperation with
      | none => applyChanges old (FastDiff.pushLast st).changes = (newDone ++ [x]) ++ oldRest
      | some (Change.insert i vals) => _
      | some (Change.delete i c) => _
    rw [h2]
    simp only [h3, List.append_assoc, List.singleton_append]

theorem groupStep_insert {α : Type} {old new : List (Option α)} {st : GroupState α}
    {newDone oldRest newRest : List (Option α)} (y : Option α)
    (hnew : new = newDone ++ y :: newRest)
    (h : GroupInv old st newDone oldRest) :
    GroupInv old (groupStep new st Tag.insert) (newDone ++ [y]) oldRest := by
  have hpl := h.pushLast
  obtain ⟨changes, index, lastOp⟩ := st
  obtain ⟨hidx, hop⟩ := h
  simp only at hidx
  have hget : jsGet new index = y := by
    rw [hidx, hnew, jsGet_append_length]
  cases lastOp with
  | none =>
    simp only at hop
    refine ⟨?_, ?_⟩
    · simp [groupStep, isContinuationOf, FastDiff.pushLast, hidx]
    · simp only [groupStep, isContinuationOf, FastDiff.pushLast, hget]
      exact ⟨newDone, rfl, hidx, hop⟩
  | some op =>
    cases op with
    | insert i vals =>
      obtain ⟨front, h1, h2, h3⟩ := hop
      refine ⟨?_, ?_⟩
      · simp [groupStep, isContinuationOf, Change.type, hidx]
      · simp only [groupStep, isContinuationOf, Change.type, hget, decide_True, if_true]
        exact ⟨front, by rw [h1, List.append_assoc], h2, h3⟩
    | delete i c =>
      obtain ⟨_, _, h3⟩ := hpl
      refine ⟨?_, ?_⟩
      · simp [groupStep, isContinuationOf, Change.type, FastDiff.pushLast, hidx]
      · simp only [groupStep, isContinuationOf, Change.type, FastDiff.pushLast, hget]
        exact ⟨newDone, rfl, hidx, h3⟩

theorem groupStep_delete {α : Type} {old new : List (Option α)} {st : GroupState α}
    {newDone oldRest : List (Option α)} (x : Option α)
    (h : GroupInv old st newDone (x :: oldRest)) :
    GroupInv old (groupStep new st Tag.delete) newDone oldRest := by
  have hpl := h.pushLast
  obtain ⟨changes, index, lastOp⟩ := st
  obtain ⟨hidx, hop⟩ := h
  simp only at hidx
  cases lastOp with
  | none =>
    simp only at hop
    refine ⟨?_, ?_⟩
    · simp [groupStep, isContinuationOf, FastDiff.pushLast, hidx]
    · simp only [groupStep, isContinuationOf, FastDiff.pushLast]
      exact ⟨[x], hidx, rfl, by simpa using hop⟩
  | some op =>
    cases op with
    | insert i vals =>
      obtain ⟨_, _, h3⟩ := hpl
      refine ⟨?_, ?_⟩
      · simp [groupStep, isContinuationOf, Change.type, FastDiff.pushLast, hidx]
      · simp only [groupStep, isContinuationOf, Change.type, FastDiff.pushLast]
        exact ⟨[x], hidx, rfl, by simpa using h3⟩
    | delete i c =>
      obtain ⟨gone, h1, h2, h3⟩ := hop
      refine ⟨?_, ?_⟩
      · simp [groupStep, isContinuationOf, Change.type, hidx]
      · simp only [groupStep, isContinuationOf, Change.type, decide_True, if_true]
        refine ⟨gone ++ [x], h1, ?_, ?_⟩
        · rw [h2]
          simp
        · simpa using h3

/-- Grouping a valid edit script from `old` to `new` gives a change list that
turns `old` into `new`. -/
theorem diffToChanges_foldl_correct {α : Type} [DecidableEq α] (old new : List (Option α)) :
    ∀ (t : List Tag) (st : GroupState α) (newDone oldRest newRest : List (Option α)),
      new = newDone ++ newRest → isEditScript t oldRest newRest = true →
      GroupInv old st newDone oldRest →
      applyChanges old (pushLast (t.foldl (groupStep new) st)).changes = new := by
  intro t
  induction t with
  | nil =>
    intro st newDone oldRest newRest hnew hs hinv
    cases oldRest <;> cases newRest <;> simp [isEditScript] at hs
    obtain ⟨_, _, h3⟩ := hinv.pushLast
    simpa [hnew] using h3
  | cons tag t ih =>
    intro st newDone oldRest newRest hnew hs hinv
    rw [List.foldl_cons]
    cases tag with
    | equal =>
      cases oldRest with
      | nil => simp [isEditScript] at hs
      | cons x oldRest =>
        cases newRest with
        | nil => simp [isEditScript] at hs
        | cons y newRest =>
          simp only [isEditScript, Bool.and_eq_true, decide_eq_true_eq] at hs
          obtain ⟨hxy, hs⟩ := hs
          subst hxy
          exact ih _ (newDone ++ [x]) oldRest newRest (by simp [hnew]) hs
            (groupStep_equal x hinv)
    | insert =>
      cases newRest with
      | nil => cases oldRest <;> simp [isEditScript] at hs
      | cons y newRest =>
        have hs' : isEditScript t oldRest newRest = true := by
          cases oldRest <;> simpa [isEditScript] using hs
        exact ih _ (newDone ++ [y]) oldRest newRest (by simp [hnew]) hs'
          (groupStep_insert y hnew hinv)
    | delete =>
      cases oldRest with
      | nil => cases newRest <;> simp [isEditScript] at hs
      | cons x oldRest =>
        have hs' : isEditScript t oldRest newRest = true := by
          cases newRest <;> simpa [isEditScript] using hs
        exact ih _ newDone oldRest newRest hnew hs' (groupStep_delete x hinv)

/-- Grouping a valid edit script from `old` to `new` and applying the result
to `old` yields `new`. -/
theorem diffToChanges_correct {α : Type} [DecidableEq α] (old new : List (Option α))
    (t : List Tag) (h : isEditScript t old new = true) :
    applyChanges old (diffToChanges t new) = new := by
  unfold diffToChanges
  refine diffToChanges_foldl_correct old new t _ [] old new rfl h ?_
  exact ⟨rfl, rfl⟩

/-! ## The optimal diff engine: one call of `snake` -/

theorem canStep_iff {α : Type} (a b : List (Option α)) (cmp : Option α → Option α → Bool)
    (x y : Int) :
    (decide (x < (a.length : Int)) && decide (y < (b.length : Int))
      && cmp (jsGet a x) (jsGet b y)) = true ↔ CanStep a b cmp x y := by
  simp [CanStep, and_assoc]

/-- The `while` loop of `snake` stops after some number `c` of diagonal steps,
having pushed `c` tags `equal`. -/
theorem snakeWhile_spec {α : Type} (a b : List (Option α)) (cmp : Option α → Option α → Bool)
    (fuel : Nat) : ∀ (x y : Int) (s : List Tag), ((b.length : Int) - y).toNat ≤ fuel →
    ∃ c : Nat, snakeWhile a b cmp a.length b.length fuel x y s
        = (y + c, s ++ List.replicate c Tag.equal) ∧ SnakeRun a b cmp x y c := by
  induction fuel with
  | zero =>
    intro x y s hf
    refine ⟨0, by simp [snakeWhile], ?_, ?_⟩
    · intro i hi
      omega
    · intro hc
      have := hc.2.1
      omega
  | succ fuel ih =>
    intro x y s hf
    unfold snakeWhile
    by_cases hc : CanStep a b cmp x y
    · have hc' := (canStep_iff a b cmp x y).mpr hc
      simp only [hc', if_true]
      obtain ⟨c, h1, h2, h3⟩ := ih (x + 1) (y + 1) (s ++ [Tag.equal]) (by omega)
      refine ⟨c + 1, ?_, ?_, ?_⟩
      · rw [h1]
        simp only [List.append_assoc, List.singleton_append, List.replicate_succ,
          Prod.mk.injEq, and_true]
        push_cast
        omega
      · intro i hi
        cases i with
        | zero => simpa using hc
        | succ i =>
          have := h2 i (by omega)
          have e1 : x + ((i + 1 : Nat) : Int) = x + 1 + (i : Int) := by push_cast; omega
          have e2 : y + ((i + 1 : Nat) : Int) = y + 1 + (i : Int) := by push_cast; omega
          rw [e1, e2]
          exact this
      · have e1 : x + ((c + 1 : Nat) : Int) = x + 1 + (c : Int) := by push_cast; omega
        have e2 : y + ((c + 1 : Nat) : Int) = y + 1 + (c : Int) := by push_cast; omega
        rw [e1, e2]
        exact h3
    · have hc' : ¬ ((decide (x < (a.length : Int)) && decide (y < (b.length : Int))
          && cmp (jsGet a x) (jsGet b y)) = true) :=
        fun h => hc ((canStep_iff a b cmp x y).mp h)
      simp only [hc', if_false]
      refine ⟨0, by simp, ?_, ?_⟩
      · intro i hi
        omega
      · simpa using hc

/-- Following a snake of `c` steps extends a walk by `c` tags `equal`. -/
theorem Reach.snake {α : Type} {a b : List (Option α)} {cmp : Option α → Option α → Bool}
    {tInsert tDelete : Tag} {s : List Tag} {x y d : Nat}
    (h : Reach a b cmp tInsert tDelete s x y d) (c : Nat)
    (hc : ∀ i : Nat, i < c → CanStep a b cmp ((x : Int) + i) ((y : Int) + i)) :
    Reach a b cmp tInsert tDelete (s ++ List.replicate c Tag.equal) (x + c) (y + c) d := by
  induction c with
  | zero => simpa using h
  | succ c ih =>
    have h1 := ih (fun i hi => hc i (by omega))
    obtain ⟨h2, h3, h4⟩ := hc c (by omega)
    have h5 := Reach.eq h1 (by omega) (by omega) (by
      have e1 : ((x + c : Nat) : Int) = (x : Int) + c := by push_cast; rfl
      have e2 : ((y + c : Nat) : Int) = (y : Int) + c := by push_cast; rfl
      rw [e1, e2]
      exact h4)
    have e : s ++ List.replicate (c + 1) Tag.equal
        = s ++ List.replicate c Tag.equal ++ [Tag.equal] := by
      rw [List.replicate_succ', List.append_assoc]
    rw [e]
    exact h5

theorem snakeStep_fp_ne {α : Type} (a b : List (Option α)) (cmp : Option α → Option α → Bool)
    (tInsert tDelete : Tag) (st : MyersState) (k j : Int) (h : j ≠ k) :
    (snakeStep a b cmp tInsert tDelete st k).fp j = st.fp j := by
  simp [snakeStep, setKey, h]

theorem snakeStep_es_ne {α : Type} (a b : List (Option α)) (cmp : Option α → Option α → Bool)
    (tInsert tDelete : Tag) (st : MyersState) (k j : Int) (h : j ≠ k) :
    (snakeStep a b cmp tInsert tDelete st k).es j = st.es j := by
  simp only [snakeStep, setKey, h, if_false]
  split <;> split <;> simp_all [setKey]

/-- The script from which `snake(k)` starts: a copy of `es[k + dir]` when that
exists, otherwise `es[k]` when that exists, otherwise the empty script. -/
theorem snakeStep_at {α : Type} (a b : List (Option α)) (cmp : Option α → Option α → Bool)
    (tInsert tDelete : Tag) (st : MyersState) (k : Int) (dir : Int) (base : List Tag)
    (hdir : dir = if fpOr st.fp (k - 1) + 1 > fpOr st.fp (k + 1) then -1 else 1)
    (hbase : st.es (k + dir) = some base ∨
      (st.es (k + dir) = none ∧ st.es k = some base) ∨
      (st.es (k + dir) = none ∧ st.es k = none ∧ base = [])) :
    ∃ c : Nat,
      (snakeStep a b cmp tInsert tDelete st k).fp k
        = some (max (fpOr st.fp (k - 1) + 1) (fpOr st.fp (k + 1)) + c) ∧
      (snakeStep a b cmp tInsert tDelete st k).es k
        = some (base ++ [if fpOr st.fp (k - 1) + 1 > fpOr st.fp (k + 1)
            then tInsert else tDelete] ++ List.replicate c Tag.equal) ∧
      SnakeRun a b cmp (max (fpOr st.fp (k - 1) + 1) (fpOr st.fp (k + 1)) - k)
        (max (fpOr st.fp (k - 1) + 1) (fpOr st.fp (k + 1))) c := by
  obtain ⟨c, h1, h2⟩ := snakeWhile_spec a b cmp
    ((b.length : Int) - max (fpOr st.fp (k - 1) + 1) (fpOr st.fp (k + 1))).toNat
    (max (fpOr st.fp (k - 1) + 1) (fpOr st.fp (k + 1)) - k)
    (max (fpOr st.fp (k - 1) + 1) (fpOr st.fp (k + 1)))
    (base ++ [if fpOr st.fp (k - 1) + 1 > fpOr st.fp (k + 1) then tInsert else tDelete])
    (le_refl _)
  refine ⟨c, ?_, ?_, h2⟩
  · simp only [snakeStep, setKey, if_true]
    rcases hbase with hb | ⟨hb1, hb2⟩ | ⟨hb1, hb2, hb3⟩
    · rw [← hdir, hb]
      simp only [setKey, if_true, h1]
    · rw [← hdir, hb1]
      simp only [hb2, h1]
    · subst hb3
      rw [← hdir, hb1]
      simp only [hb2, setKey, if_true, h1]
  · simp only [snakeStep, setKey, if_true]
    rcases hbase with hb | ⟨hb1, hb2⟩ | ⟨hb1, hb2, hb3⟩
    · rw [← hdir, hb]
      simp only [setKey, if_true, h1]
    · rw [← hdir, hb1]
      simp only [hb2, h1]
    · subst hb3
      rw [← hdir, hb1]
      simp only [hb2, setKey, if_true, h1]

theorem Diag.frame {α : Type} {a b : List (Option α)} {cmp : Option α → Option α → Bool}
    {tInsert tDelete : Tag} {st : MyersState} {j : Int} {x y d : Nat}
    (h : Diag a b cmp tInsert tDelete st j x y d) (k : Int) (hne : j ≠ k) :
    Diag a b cmp tInsert tDelete (snakeStep a b cmp tInsert tDelete st k) j x y d := by
  obtain ⟨h1, h2, h3, s, h4, h5⟩ := h
  refine ⟨?_, h2, h3, s, ?_, h5⟩
  · rw [snakeStep_fp_ne _ _ _ _ _ _ _ _ hne, h1]
  · rw [snakeStep_es_ne _ _ _ _ _ _ _ _ hne, h4]

theorem SnakeRun.le {α : Type} {a b : List (Option α)} {cmp : Option α → Option α → Bool}
    {x y : Int} {c : Nat} (h : SnakeRun a b cmp x y c) :
    c = 0 ∨ (x + c ≤ (a.length : Int) ∧ y + c ≤ (b.length : Int)) := by
  cases c with
  | zero => exact Or.inl rfl
  | succ c =>
    right
    obtain ⟨h1, h2, _⟩ := h.1 c (by omega)
    push_cast
    omega

/-- The call `snake(k)` when the step `insert` from diagonal `k - 1` wins. -/
theorem snakeStep_ins {α : Type} {a b : List (Option α)} {cmp : Option α → Option α → Bool}
    {tInsert tDelete : Tag} {st : MyersState} {k : Int} {xl yl dl : Nat}
    (hl : Diag a b cmp tInsert tDelete st (k - 1) xl yl dl)
    (hr : ∀ y : Int, st.fp (k + 1) = some y → y < (yl : Int) + 1) :
    ∃ c : Nat, Diag a b cmp tInsert tDelete (snakeStep a b cmp tInsert tDelete st k) k
        (xl + c) (yl + 1 + c) dl ∧
      (c = 0 ∨ (xl + c ≤ a.length ∧ yl + 1 + c ≤ b.length)) := by
  obtain ⟨h1, h2, _, s, h4, h5⟩ := hl
  have e1 : fpOr st.fp (k - 1) = (yl : Int) := by simp [fpOr, h1]
  have e2 : fpOr st.fp (k + 1) < (yl : Int) + 1 := by
    unfold fpOr
    cases hfp : st.fp (k + 1) with
    | none => simp only; omega
    | some y => exact hr y hfp
  have hgt : fpOr st.fp (k - 1) + 1 > fpOr st.fp (k + 1) := by omega
  have hmax : max (fpOr st.fp (k - 1) + 1) (fpOr st.fp (k + 1)) = (yl : Int) + 1 := by
    rw [e1]
    omega
  obtain ⟨c, hc1, hc2, hc3⟩ := snakeStep_at a b cmp tInsert tDelete st k (-1) (tInsert :: s)
    (by simp only [hgt, if_true]) (Or.inl (by
      have : k + -1 = k - 1 := by omega
      rw [this, h4]))
  rw [hmax] at hc1 hc3
  simp only [hgt, if_true] at hc2
  have ex : (yl : Int) + 1 - k = (xl : Int) := by omega
  rw [ex] at hc3
  refine ⟨c, ⟨?_, ?_, ?_, s ++ [tInsert] ++ List.replicate c Tag.equal, ?_, ?_⟩, ?_⟩
  · rw [hc1]
    push_cast
    rfl
  · push_cast
    omega
  · have := hc3.2
    push_cast
    exact this
  · rw [hc2]
    simp
  · refine Reach.snake (Reach.ins h5) c ?_
    intro i hi
    have := hc3.1 i hi
    push_cast
    exact this
  · rcases hc3.le with h | ⟨h, h'⟩
    · exact Or.inl h
    · right
      omega

/-- The call `snake(k)` when the step `delete` from diagonal `k + 1` wins. -/
theorem snakeStep_del {α : Type} {a b : List (Option α)} {cmp : Option α → Option α → Bool}
    {tInsert tDelete : Tag} {st : MyersState} {k : Int} {xr yr dr : Nat}
    (hr : Diag a b cmp tInsert tDelete st (k + 1) xr yr dr)
    (hl : ∀ y : Int, st.fp (k - 1) = some y → y + 1 ≤ (yr : Int)) :
    ∃ c : Nat, Diag a b cmp tInsert tDelete (snakeStep a b cmp tInsert tDelete st k) k
        (xr + 1 + c) (yr + c) (dr + 1) ∧
      (c = 0 ∨ (xr + 1 + c ≤ a.length ∧ yr + c ≤ b.length)) := by
  obtain ⟨h1, h2, _, s, h4, h5⟩ := hr
  have e1 : fpOr st.fp (k + 1) = (yr : Int) := by simp [fpOr, h1]
  have e2 : fpOr st.fp (k - 1) + 1 ≤ (yr : Int) := by
    unfold fpOr
    cases hfp : st.fp (k - 1) with
    | none => simp only; omega
    | some y => exact hl y hfp
  have hgt : ¬ (fpOr st.fp (k - 1) + 1 > fpOr st.fp (k + 1)) := by omega
  have hmax : max (fpOr st.fp (k - 1) + 1) (fpOr st.fp (k + 1)) = (yr : Int) := by
    rw [e1]
    omega
  obtain ⟨c, hc1, hc2, hc3⟩ := snakeStep_at a b cmp tInsert tDelete st k 1 (tInsert :: s)
    (by simp only [hgt, if_false]) (Or.inl h4)
  rw [hmax] at hc1 hc3
  simp only [hgt, if_false] at hc2
  have ex : (yr : Int) - k = ((xr + 1 : Nat) : Int) := by push_cast; omega
  rw [ex] at hc3
  refine ⟨c, ⟨?_, ?_, ?_, s ++ [tDelete] ++ List.replicate c Tag.equal, ?_, ?_⟩, ?_⟩
  · rw [hc1]
    push_cast
    rfl
  · push_cast
    omega
  · have := hc3.2
    push_cast at this ⊢
    exact this
  · rw [hc2]
    simp
  · refine Reach.snake (Reach.del h5) c ?_
    intro i hi
    have := hc3.1 i hi
    push_cast at this ⊢
    exact this
  · rcases hc3.le with h | ⟨h, h'⟩
    · exact Or.inl h
    · right
      push_cast at h
      omega

/-- The very first call of `snake`, on diagonal `0` with both maps empty. -/
theorem snakeStep_first {α : Type} {a b : List (Option α)} {cmp : Option α → Option α → Bool}
    {tInsert tDelete : Tag} {st : MyersState}
    (h1 : st.fp (-1) = none) (h2 : st.fp 1 = none) (h3 : st.es (-1) = none)
    (h4 : st.es 0 = none) :
    ∃ c : Nat, Diag a b cmp tInsert tDelete (snakeStep a b cmp tInsert tDelete st 0) 0 c c 0 ∧
      c ≤ a.length ∧ c ≤ b.length := by
  have e1 : fpOr st.fp (0 - 1) = -1 := by simp [fpOr, h1]
  have e2 : fpOr st.fp (0 + 1) = -1 := by simp [fpOr, h2]
  have hgt : fpOr st.fp (0 - 1) + 1 > fpOr st.fp (0 + 1) := by omega
  have hmax : max (fpOr st.fp (0 - 1) + 1) (fpOr st.fp (0 + 1)) = 0 := by
    rw [e1, e2]
    omega
  obtain ⟨c, hc1, hc2, hc3⟩ := snakeStep_at a b cmp tInsert tDelete st 0 (-1) []
    (by simp only [hgt, if_true]) (Or.inr (Or.inr ⟨by simpa using h3, h4, rfl⟩))
  rw [hmax] at hc1 hc3
  simp only [hgt, if_true] at hc2
  simp only [sub_zero, zero_add] at hc1 hc3
  refine ⟨c, ⟨?_, ?_, ?_, List.replicate c Tag.equal, ?_, ?_⟩, ?_⟩
  · rw [hc1]
  · omega
  · simpa using hc3.2
  · rw [hc2]
    simp
  · have := Reach.snake (Reach.nil : Reach a b cmp tInsert tDelete [] 0 0 0) c (by
      intro i hi
      have := hc3.1 i hi
      simpa using this)
    simpa using this
  · rcases hc3.le with h | ⟨h, h'⟩
    · omega
    · omega

theorem snakeOutcome_ins {α : Type} {a b : List (Option α)}
    {cmp : Option α → Option α → Bool} {tInsert tDelete : Tag}
    (QL QR : Nat → Nat → Nat → Prop) (st : MyersState) (k : Int) (xl yl dl : Nat)
    (hD : Diag a b cmp tInsert tDelete st (k - 1) xl yl dl) (hQ : QL xl yl dl)
    (hr : ∀ y : Int, st.fp (k + 1) = some y → y < (yl : Int) + 1) :
    SnakeOutcome a b cmp tInsert tDelete QL QR st (snakeStep a b cmp tInsert tDelete st k) k := by
  obtain ⟨c, hc1, hc2⟩ := snakeStep_ins hD hr
  refine ⟨xl + c, yl + 1 + c, dl, hc1, ?_, ?_, Or.inr (Or.inl ⟨xl, yl, hQ, hD.2.1, ?_, ?_, ?_⟩)⟩
  · intro y hy
    rw [hD.1] at hy
    injection hy with hy
    push_cast
    omega
  · intro y hy
    have := hr y hy
    push_cast
    omega
  · omega
  · omega
  · rcases hc2 with h | h
    · left
      omega
    · right
      exact h

theorem snakeOutcome_del {α : Type} {a b : List (Option α)}
    {cmp : Option α → Option α → Bool} {tInsert tDelete : Tag}
    (QL QR : Nat → Nat → Nat → Prop) (st : MyersState) (k : Int) (xr yr dr : Nat)
    (hD : Diag a b cmp tInsert tDelete st (k + 1) xr yr dr) (hQ : QR xr yr dr)
    (hl : ∀ y : Int, st.fp (k - 1) = some y → y + 1 ≤ (yr : Int)) :
    SnakeOutcome a b cmp tInsert tDelete QL QR st (snakeStep a b cmp tInsert tDelete st k) k := by
  obtain ⟨c, hc1, hc2⟩ := snakeStep_del hD hl
  refine ⟨xr + 1 + c, yr + c, dr + 1, hc1, ?_, ?_,
    Or.inr (Or.inr ⟨xr, yr, dr, hQ, hD.2.1, rfl, ?_, ?_, ?_⟩)⟩
  · intro y hy
    have := hl y hy
    push_cast
    omega
  · intro y hy
    rw [hD.1] at hy
    injection hy with hy
    push_cast
    omega
  · omega
  · omega
  · rcases hc2 with h | h
    · left
      omega
    · right
      exact h

/-- The three ways a call `snake(k)` can go, given what is known of the two
neighbouring diagonals: the very first call, a step `insert` from diagonal
`k - 1`, or a step `delete` from diagonal `k + 1`. -/
theorem snakeStep_cases {α : Type} {a b : List (Option α)} {cmp : Option α → Option α → Bool}
    {tInsert tDelete : Tag} (QL QR : Nat → Nat → Nat → Prop) (st : MyersState) (k : Int)
    (hL : (st.fp (k - 1) = none ∧ st.es (k - 1) = none) ∨
      ∃ xl yl dl : Nat, Diag a b cmp tInsert tDelete st (k - 1) xl yl dl ∧ QL xl yl dl)
    (hR : (st.fp (k + 1) = none ∧ st.es (k + 1) = none) ∨
      ∃ xr yr dr : Nat, Diag a b cmp tInsert tDelete st (k + 1) xr yr dr ∧ QR xr yr dr)
    (h0 : st.fp (k - 1) = none → st.fp (k + 1) = none → k = 0 ∧ st.es 0 = none) :
    SnakeOutcome a b cmp tInsert tDelete QL QR st (snakeStep a b cmp tInsert tDelete st k) k := by
  rcases hL with ⟨hl1, hl2⟩ | ⟨xl, yl, dl, hDl, hQl⟩
  · rcases hR with ⟨hr1, hr2⟩ | ⟨xr, yr, dr, hDr, hQr⟩
    · obtain ⟨hk, he⟩ := h0 hl1 hr1
      subst hk
      obtain ⟨c, hc1, hc2, hc3⟩ := @snakeStep_first α a b cmp tInsert tDelete st
        (by simpa using hl1) (by simpa using hr1) (by simpa using hl2) he
      refine ⟨c, c, 0, hc1, ?_, ?_, Or.inl ⟨rfl, hl1, hr1, rfl, hc2, hc3⟩⟩
      · intro y hy
        rw [hl1] at hy
        cases hy
      · intro y hy
        rw [hr1] at hy
        cases hy
    · exact snakeOutcome_del QL QR st k xr yr dr hDr hQr (by
        intro y hy
        rw [hl1] at hy
        cases hy)
  · rcases hR with ⟨hr1, hr2⟩ | ⟨xr, yr, dr, hDr, hQr⟩
    · exact snakeOutcome_ins QL QR st k xl yl dl hDl hQl (by
        intro y hy
        rw [hr1] at hy
        cases hy)
    · by_cases hcmp : (yr : Int) < (yl : Int) + 1
      · exact snakeOutcome_ins QL QR st k xl yl dl hDl hQl (by
          intro y hy
          rw [hDr.1] at hy
          injection hy with hy
          omega)
      · exact snakeOutcome_del QL QR st k xr yr dr hDr hQr (by
          intro y hy
          rw [hDl.1] at hy
          injection hy with hy
          omega)

/-! ## The optimal diff engine: one round -/

theorem Diag.transfer {α : Type} {a b : List (Option α)} {cmp : Option α → Option α → Bool}
    {tInsert tDelete : Tag} {st st' : MyersState} {k : Int} {x y d : Nat}
    (h : Diag a b cmp tInsert tDelete st k x y d) (h1 : st'.fp k = st.fp k)
    (h2 : st'.es k = st.es k) : Diag a b cmp tInsert tDelete st' k x y d := by
  obtain ⟨e1, e2, e3, s, e4, e5⟩ := h
  exact ⟨by rw [h1, e1], e2, e3, s, by rw [h2, e4], e5⟩

theorem Diag.fp_ne_none {α : Type} {a b : List (Option α)} {cmp : Option α → Option α → Bool}
    {tInsert tDelete : Tag} {st : MyersState} {k : Int} {x y d : Nat}
    (h : Diag a b cmp tInsert tDelete st k x y d) (hn : st.fp k = none) : False := by
  rw [h.1] at hn
  cases hn

/-- One iteration of the first `for` loop of a round keeps its invariant. -/
theorem mid1_step {α : Type} {a b : List (Option α)} {cmp : Option α → Option α → Bool}
    {tInsert tDelete : Tag} (p : Nat) (st0 st : MyersState) (k : Int)
    (hS : StartInv a b cmp tInsert tDelete p st0)
    (hM : Mid1 a b cmp tInsert tDelete p st0 k st)
    (hk1 : -(p : Int) ≤ k) (hk2 : k < (b.length : Int) - a.length) :
    Mid1 a b cmp tInsert tDelete p st0 (k + 1) (snakeStep a b cmp tInsert tDelete st k) := by
  obtain ⟨hS1, hS2⟩ := hS
  obtain ⟨hM1, hM2, hM3, hM4⟩ := hM
  -- what is known of the two neighbours
  have hL : (st.fp (k - 1) = none ∧ st.es (k - 1) = none) ∨
      ∃ xl yl dl : Nat, Diag a b cmp tInsert tDelete st (k - 1) xl yl dl ∧
        Bound a.length b.length (p : Int) (k - 1) xl yl dl := by
    by_cases hk : k = -(p : Int)
    · left
      have h1 := hM1 (k - 1) (Or.inl (by omega))
      have h2 := hS1 (k - 1) (by omega)
      exact ⟨by rw [h1.1, h2.1], by rw [h1.2, h2.2]⟩
    · right
      exact hM2 (k - 1) (by omega) (by omega)
  have hR : (st.fp (k + 1) = none ∧ st.es (k + 1) = none) ∨
      ∃ xr yr dr : Nat, Diag a b cmp tInsert tDelete st (k + 1) xr yr dr ∧
        (Bound a.length b.length ((p : Int) - 1) (k + 1) xr yr dr ∧
          xr < a.length ∧ yr < b.length) := by
    have h1 := hM1 (k + 1) (Or.inr (by omega))
    by_cases hp : p = 0
    · left
      have h2 := hS1 (k + 1) (by omega)
      exact ⟨by rw [h1.1, h2.1], by rw [h1.2, h2.2]⟩
    · right
      obtain ⟨x, y, d, hD, hB⟩ := hS2 (k + 1) (by omega) (by omega) (by omega)
      exact ⟨x, y, d, hD.transfer h1.1 h1.2, hB⟩
  have h0 : st.fp (k - 1) = none → st.fp (k + 1) = none → k = 0 ∧ st.es 0 = none := by
    intro hl hr
    have hp : p = 0 := by
      by_contra hp
      obtain ⟨x, y, d, hD, _⟩ := hS2 (k + 1) (by omega) (by omega) (by omega)
      have h1 := hM1 (k + 1) (Or.inr (by omega))
      exact (hD.transfer h1.1 h1.2).fp_ne_none hr
    have hk : k = 0 := by
      by_contra hk
      obtain ⟨x, y, d, hD, _⟩ := hM2 (k - 1) (by omega) (by omega)
      exact hD.fp_ne_none hl
    refine ⟨hk, ?_⟩
    have h1 := hM1 0 (Or.inr (by omega))
    have h2 := hS1 0 (by omega)
    rw [h1.2, h2.2]
  obtain ⟨x, y, d, hD, hyl, hyr, hcase⟩ := snakeStep_cases _ _ st k hL hR h0
  have hdiag := hD.2.1
  have hB : Bound a.length b.length (p : Int) k x y d := by
    unfold Bound at *
    rcases hcase with ⟨h1, _, h2, h3, h4, h5⟩ | ⟨xl, yl, hQ, h1, h2, h3, h4⟩ |
        ⟨xr, yr, dr, ⟨hQ, hx, hy⟩, h1, h2, h3, h4, h5⟩
    · have hp : p = 0 := by
        by_contra hp
        obtain ⟨x', y', d', hD', _⟩ := hS2 (k + 1) (by omega) (by omega) (by omega)
        have h1 := hM1 (k + 1) (Or.inr (by omega))
        exact (hD'.transfer h1.1 h1.2).fp_ne_none h2
      subst hp
      omega
    · omega
    · omega
  refine ⟨?_, ?_, ?_, ?_⟩
  · intro j hj
    have hne : j ≠ k := by omega
    rw [snakeStep_fp_ne _ _ _ _ _ _ _ _ hne, snakeStep_es_ne _ _ _ _ _ _ _ _ hne]
    exact hM1 j (by omega)
  · intro j hj1 hj2
    by_cases hjk : j = k
    · subst hjk
      exact ⟨x, y, d, hD, hB⟩
    · obtain ⟨x', y', d', hD', hB'⟩ := hM2 j hj1 (by omega)
      exact ⟨x', y', d', hD'.frame k hjk, hB'⟩
  · intro j y1 y2 hj h1 h2
    by_cases hjk : j + 1 = k
    · have hne : j ≠ k := by omega
      rw [snakeStep_fp_ne _ _ _ _ _ _ _ _ hne] at h1
      rw [hjk, hD.1] at h2
      injection h2 with h2
      have hj' : j = k - 1 := by omega
      rw [hj'] at h1
      have := hyl y1 h1
      omega
    · have hne : j ≠ k := by omega
      rw [snakeStep_fp_ne _ _ _ _ _ _ _ _ hne] at h1
      rw [snakeStep_fp_ne _ _ _ _ _ _ _ _ hjk] at h2
      exact hM3 j y1 y2 (by omega) h1 h2
  · intro j y0 hj1 hj2 h1
    by_cases hjk : j = k
    · subst hjk
      have h2 := hM1 (j + 1) (Or.inr (by omega))
      rw [← h2.1] at h1
      exact ⟨y, hD.1, hyr y0 h1⟩
    · rw [snakeStep_fp_ne _ _ _ _ _ _ _ _ hjk]
      exact hM4 j y0 hj1 (by omega) h1

/-- The invariant of the first `for` loop after `cnt` iterations. -/
theorem mid1_loop {α : Type} {a b : List (Option α)} {cmp : Option α → Option α → Bool}
    {tInsert tDelete : Tag} (p : Nat) (st0 : MyersState)
    (hS : StartInv a b cmp tInsert tDelete p st0) (cnt : Nat)
    (hcnt : -(p : Int) + cnt ≤ (b.length : Int) - a.length) :
    Mid1 a b cmp tInsert tDelete p st0 (-(p : Int) + cnt)
      (((List.range cnt).map (fun i : Nat => -(p : Int) + i)).foldl
        (snakeStep a b cmp tInsert tDelete) st0) := by
  induction cnt with
  | zero =>
    refine ⟨fun j _ => ⟨rfl, rfl⟩, ?_, ?_, ?_⟩
    · intro j h1 h2
      simp only [List.range_zero, List.map_nil, List.foldl_nil, Nat.cast_zero, add_zero] at *
      omega
    · intro j y y' h1 h2 _
      simp only [List.range_zero, List.map_nil, List.foldl_nil, Nat.cast_zero, add_zero] at *
      have := (hS.1 j (by omega)).1
      rw [this] at h2
      cases h2
    · intro j y h1 h2
      simp only [Nat.cast_zero, add_zero] at h2
      omega
  | succ cnt ih =>
    have ih' := ih (by push_cast at hcnt; omega)
    rw [List.range_succ, List.map_append, List.foldl_append]
    simp only [List.map_cons, List.map_nil, List.foldl_cons, List.foldl_nil]
    have := mid1_step p st0 _ (-(p : Int) + cnt) hS ih' (by omega) (by push_cast at hcnt; omega)
    have e : -(p : Int) + ((cnt + 1 : Nat) : Int) = -(p : Int) + cnt + 1 := by push_cast; omega
    rw [e]
    exact this

/-- One iteration of the second `for` loop of a round keeps its invariant. -/
theorem mid2_step {α : Type} {a b : List (Option α)} {cmp : Option α → Option α → Bool}
    {tInsert tDelete : Tag} (hmn : a.length ≤ b.length) (p : Nat) (st0 st1 st : MyersState)
    (k : Int) (hS : StartInv a b cmp tInsert tDelete p st0)
    (hM1 : Mid1 a b cmp tInsert tDelete p st0 ((b.length : Int) - a.length) st1)
    (hM : Mid2 a b cmp tInsert tDelete p st0 st1 k st)
    (hk1 : (b.length : Int) - a.length < k) (hk2 : k ≤ (b.length : Int) - a.length + p) :
    Mid2 a b cmp tInsert tDelete p st0 st1 (k - 1)
      (snakeStep a b cmp tInsert tDelete st k) := by
  obtain ⟨hS1, hS2⟩ := hS
  obtain ⟨hU1, _, _, _⟩ := hM1
  obtain ⟨hN1, hN2, hN3, hN4⟩ := hM
  have hfp0 : ∀ j : Int, (b.length : Int) - a.length ≤ j → j ≤ k →
      st.fp j = st0.fp j ∧ st.es j = st0.es j := by
    intro j h1 h2
    have e1 := hN1 j (Or.inl h2)
    have e2 := hU1 j (Or.inr h1)
    exact ⟨by rw [e1.1, e2.1], by rw [e1.2, e2.2]⟩
  have hLD : ∃ xl yl dl : Nat, Diag a b cmp tInsert tDelete st (k - 1) xl yl dl ∧
        (Bound a.length b.length ((p : Int) - 1) (k - 1) xl yl dl ∧
          xl < a.length ∧ yl < b.length) := by
    obtain ⟨x, y, d, hD, hB⟩ := hS2 (k - 1) (by omega) (by omega) (by omega)
    have e := hfp0 (k - 1) (by omega) (by omega)
    exact ⟨x, y, d, hD.transfer e.1 e.2, hB⟩
  have hR : (st.fp (k + 1) = none ∧ st.es (k + 1) = none) ∨
      ∃ xr yr dr : Nat, Diag a b cmp tInsert tDelete st (k + 1) xr yr dr ∧
        Bound a.length b.length (p : Int) (k + 1) xr yr dr := by
    by_cases hk : k = (b.length : Int) - a.length + p
    · left
      have e1 := hN1 (k + 1) (Or.inr (by omega))
      have e2 := hU1 (k + 1) (Or.inr (by omega))
      have e3 := hS1 (k + 1) (by omega)
      exact ⟨by rw [e1.1, e2.1, e3.1], by rw [e1.2, e2.2, e3.2]⟩
    · right
      exact hN2 (k + 1) (by omega) (by omega)
  have h0 : st.fp (k - 1) = none → st.fp (k + 1) = none → k = 0 ∧ st.es 0 = none := by
    intro hl _
    obtain ⟨x, y, d, hD, _⟩ := hLD
    exact (hD.fp_ne_none hl).elim
  obtain ⟨x, y, d, hD, hyl, hyr, hcase⟩ := snakeStep_cases _ _ st k (Or.inr hLD) hR h0
  have hdiag := hD.2.1
  have hB : Bound a.length b.length (p : Int) k x y d := by
    unfold Bound at *
    rcases hcase with ⟨_, h2, _⟩ | ⟨xl, yl, ⟨hQ, hx, hy⟩, h1, h2, h3, h4⟩ |
        ⟨xr, yr, dr, hQ, h1, h2, h3, h4, h5⟩
    · obtain ⟨x', y', d', hD', _⟩ := hLD
      exact (hD'.fp_ne_none h2).elim
    · omega
    · omega
  refine ⟨?_, ?_, ?_, ?_⟩
  · intro j hj
    have hne : j ≠ k := by omega
    rw [snakeStep_fp_ne _ _ _ _ _ _ _ _ hne, snakeStep_es_ne _ _ _ _ _ _ _ _ hne]
    exact hN1 j (by omega)
  · intro j hj1 hj2
    by_cases hjk : j = k
    · subst hjk
      exact ⟨x, y, d, hD, hB⟩
    · obtain ⟨x', y', d', hD', hB'⟩ := hN2 j (by omega) hj2
      exact ⟨x', y', d', hD'.frame k hjk, hB'⟩
  · intro j y1 y2 hj h1 h2
    by_cases hjk : j = k
    · subst hjk
      have hne : j + 1 ≠ j := by omega
      rw [snakeStep_fp_ne _ _ _ _ _ _ _ _ hne] at h2
      rw [hD.1] at h1
      injection h1 with h1
      have := hyr y2 h2
      omega
    · have hne : j + 1 ≠ k := by omega
      rw [snakeStep_fp_ne _ _ _ _ _ _ _ _ hjk] at h1
      rw [snakeStep_fp_ne _ _ _ _ _ _ _ _ hne] at h2
      exact hN3 j y1 y2 (by omega) h1 h2
  · intro j y0 hj1 hj2 h1
    by_cases hjk : j = k
    · subst hjk
      have h2 := hfp0 (j - 1) (by omega) (by omega)
      rw [← h2.1] at h1
      exact ⟨y, hD.1, hyl y0 h1⟩
    · rw [snakeStep_fp_ne _ _ _ _ _ _ _ _ hjk]
      exact hN4 j y0 (by omega) hj2 h1

/-- The invariant of the second `for` loop after `cnt` iterations. -/
theorem mid2_loop {α : Type} {a b : List (Option α)} {cmp : Option α → Option α → Bool}
    {tInsert tDelete : Tag} (hmn : a.length ≤ b.length) (p : Nat) (st0 st1 : MyersState)
    (hS : StartInv a b cmp tInsert tDelete p st0)
    (hM1 : Mid1 a b cmp tInsert tDelete p st0 ((b.length : Int) - a.length) st1)
    (cnt : Nat) (hcnt : cnt ≤ p) :
    Mid2 a b cmp tInsert tDelete p st0 st1 ((b.length : Int) - a.length + p - cnt)
      (((List.range cnt).map (fun i : Nat => (b.length : Int) - a.length + p - i)).foldl
        (snakeStep a b cmp tInsert tDelete) st1) := by
  induction cnt with
  | zero =>
    simp only [List.range_zero, List.map_nil, List.foldl_nil, Nat.cast_zero, sub_zero]
    refine ⟨fun j _ => ⟨rfl, rfl⟩, ?_, ?_, ?_⟩
    · intro j h1 h2
      omega
    · intro j y y' h1 h2 _
      have e1 := hM1.1 j (Or.inr (by omega))
      have e2 := hS.1 j (by omega)
      rw [e1.1, e2.1] at h2
      cases h2
    · intro j y h1 h2
      omega
  | succ cnt ih =>
    have ih' := ih (by omega)
    rw [List.range_succ, List.map_append, List.foldl_append]
    simp only [List.map_cons, List.map_nil, List.foldl_cons, List.foldl_nil]
    have := mid2_step hmn p st0 st1 _ ((b.length : Int) - a.length + p - cnt) hS hM1 ih'
      (by omega) (by omega)
    have e : (b.length : Int) - a.length + p - ((cnt + 1 : Nat) : Int)
        = (b.length : Int) - a.length + p - cnt - 1 := by push_cast; omega
    rw [e]
    exact this

/-- A full round of the `do ... while` loop: from the state at the start of
round `p` to the state at its end. -/
theorem diffRound_inv {α : Type} {a b : List (Option α)} {cmp : Option α → Option α → Bool}
    {tInsert tDelete : Tag} (hmn : a.length ≤ b.length) (p : Nat) (st0 : MyersState)
    (hS : StartInv a b cmp tInsert tDelete p st0) :
    EndInv a b cmp tInsert tDelete p (diffRound a b cmp tInsert tDelete p st0) ∧
    RoundRel ((b.length : Int) - a.length) st0 (diffRound a b cmp tInsert tDelete p st0) := by
  have hM1 := mid1_loop p st0 hS ((b.length : Int) - a.length + p).toNat (by omega)
  have e1 : -(p : Int) + (((b.length : Int) - a.length + p).toNat : Int)
      = (b.length : Int) - a.length := by omega
  rw [e1] at hM1
  have hM2 := mid2_loop hmn p st0 _ hS hM1 p (le_refl _)
  have e2 : (b.length : Int) - a.length + p - (p : Int) = (b.length : Int) - a.length := by
    omega
  rw [e2] at hM2
  unfold diffRound diagonalsBelow diagonalsAbove
  simp only
  generalize ((List.range ((b.length : Int) - a.length + p).toNat).map
    (fun i : Nat => -(p : Int) + i)).foldl (snakeStep a b cmp tInsert tDelete) st0 = st1
    at hM1 hM2 ⊢
  generalize ((List.range p).map
    (fun i : Nat => (b.length : Int) - a.length + p - i)).foldl
    (snakeStep a b cmp tInsert tDelete) st1 = st2 at hM2 ⊢
  obtain ⟨hS1, hS2⟩ := hS
  obtain ⟨hU1, hP1, hC1, hR1⟩ := hM1
  obtain ⟨hU2, hP2, hC2, hR2⟩ := hM2
  -- the state `st2` below the diagonal `delta` is `st1`, at and above `delta` outside the
  -- processed range it is `st0`
  have hlow : ∀ j : Int, j ≤ (b.length : Int) - a.length →
      st2.fp j = st1.fp j ∧ st2.es j = st1.es j := fun j hj => hU2 j (Or.inl hj)
  have hL : (st2.fp ((b.length : Int) - a.length - 1) = none ∧
        st2.es ((b.length : Int) - a.length - 1) = none) ∨
      ∃ xl yl dl : Nat, Diag a b cmp tInsert tDelete st2 ((b.length : Int) - a.length - 1)
          xl yl dl ∧
        Bound a.length b.length (p : Int) ((b.length : Int) - a.length - 1) xl yl dl := by
    have e := hlow ((b.length : Int) - a.length - 1) (by omega)
    by_cases hk : -(p : Int) ≤ (b.length : Int) - a.length - 1
    · right
      obtain ⟨x, y, d, hD, hB⟩ := hP1 _ hk (by omega)
      exact ⟨x, y, d, hD.transfer e.1 e.2, hB⟩
    · left
      have e3 := hU1 ((b.length : Int) - a.length - 1) (Or.inl (by omega))
      have e4 := hS1 ((b.length : Int) - a.length - 1) (by omega)
      exact ⟨by rw [e.1, e3.1, e4.1], by rw [e.2, e3.2, e4.2]⟩
  have hR : (st2.fp ((b.length : Int) - a.length + 1) = none ∧
        st2.es ((b.length : Int) - a.length + 1) = none) ∨
      ∃ xr yr dr : Nat, Diag a b cmp tInsert tDelete st2 ((b.length : Int) - a.length + 1)
          xr yr dr ∧
        Bound a.length b.length (p : Int) ((b.length : Int) - a.length + 1) xr yr dr := by
    by_cases hp : p = 0
    · left
      have e2 := hU2 ((b.length : Int) - a.length + 1) (Or.inr (by omega))
      have e3 := hU1 ((b.length : Int) - a.length + 1) (Or.inr (by omega))
      have e4 := hS1 ((b.length : Int) - a.length + 1) (by omega)
      exact ⟨by rw [e2.1, e3.1, e4.1], by rw [e2.2, e3.2, e4.2]⟩
    · right
      exact hP2 _ (by omega) (by omega)
  have hpz : st2.fp ((b.length : Int) - a.length - 1) = none →
      st2.fp ((b.length : Int) - a.length + 1) = none →
      p = 0 ∧ (b.length : Int) - a.length = 0 := by
    intro hl hr
    constructor
    · by_contra hp
      obtain ⟨x, y, d, hD, _⟩ := hP2 ((b.length : Int) - a.length + 1) (by omega) (by omega)
      exact hD.fp_ne_none hr
    · by_contra hd
      have hp : p = 0 := by
        by_contra hp
        obtain ⟨x, y, d, hD, _⟩ := hP2 ((b.length : Int) - a.length + 1) (by omega) (by omega)
        exact hD.fp_ne_none hr
      obtain ⟨x, y, d, hD, _⟩ := hP1 ((b.length : Int) - a.length - 1) (by omega) (by omega)
      have e := hlow ((b.length : Int) - a.length - 1) (by omega)
      exact (hD.transfer e.1 e.2).fp_ne_none hl
  have h0 : st2.fp ((b.length : Int) - a.length - 1) = none →
      st2.fp ((b.length : Int) - a.length + 1) = none →
      (b.length : Int) - a.length = 0 ∧ st2.es 0 = none := by
    intro hl hr
    obtain ⟨hp, hd⟩ := hpz hl hr
    refine ⟨hd, ?_⟩
    have e2 := hlow 0 (by omega)
    have e3 := hU1 0 (Or.inr (by omega))
    have e4 := hS1 0 (by omega)
    rw [e2.2, e3.2, e4.2]
  obtain ⟨x, y, d, hD, hyl, hyr, hcase⟩ :=
    snakeStep_cases _ _ st2 ((b.length : Int) - a.length) hL hR h0
  have hdiag := hD.2.1
  have hB : Bound a.length b.length (p : Int) ((b.length : Int) - a.length) x y d := by
    unfold Bound at *
    rcases hcase with ⟨h1, h2, h3, h4, h5, h6⟩ | ⟨xl, yl, hQ, h1, h2, h3, h4⟩ |
        ⟨xr, yr, dr, hQ, h1, h2, h3, h4, h5⟩
    · obtain ⟨hp, hd⟩ := hpz h2 h3
      omega
    · omega
    · omega
  refine ⟨⟨?_, ?_, ?_, ?_⟩, ?_, ?_⟩
  · intro k hk
    have hne : k ≠ (b.length : Int) - a.length := by omega
    rw [snakeStep_fp_ne _ _ _ _ _ _ _ _ hne, snakeStep_es_ne _ _ _ _ _ _ _ _ hne]
    have e4 := hS1 k (by omega)
    by_cases hkl : k < -(p : Int)
    · have e2 := hlow k (by omega)
      have e3 := hU1 k (Or.inl hkl)
      exact ⟨by rw [e2.1, e3.1, e4.1], by rw [e2.2, e3.2, e4.2]⟩
    · have e2 := hU2 k (Or.inr (by omega))
      have e3 := hU1 k (Or.inr (by omega))
      exact ⟨by rw [e2.1, e3.1, e4.1], by rw [e2.2, e3.2, e4.2]⟩
  · intro k hk1 hk2
    by_cases hkd : k = (b.length : Int) - a.length
    · subst hkd
      exact ⟨x, y, d, hD, hB⟩
    · by_cases hlt : k < (b.length : Int) - a.length
      · obtain ⟨x', y', d', hD', hB'⟩ := hP1 k hk1 hlt
        have e := hlow k (by omega)
        exact ⟨x', y', d', (hD'.transfer e.1 e.2).frame _ hkd, hB'⟩
      · obtain ⟨x', y', d', hD', hB'⟩ := hP2 k (by omega) hk2
        exact ⟨x', y', d', hD'.frame _ hkd, hB'⟩
  · intro k y1 y2 hk h1 h2
    have hne : k ≠ (b.length : Int) - a.length := by omega
    rw [snakeStep_fp_ne _ _ _ _ _ _ _ _ hne] at h1
    by_cases hkd : k + 1 = (b.length : Int) - a.length
    · rw [hkd, hD.1] at h2
      injection h2 with h2
      have hk' : k = (b.length : Int) - a.length - 1 := by omega
      rw [hk'] at h1
      have := hyl y1 h1
      omega
    · rw [snakeStep_fp_ne _ _ _ _ _ _ _ _ hkd] at h2
      rw [(hlow k (by omega)).1] at h1
      rw [(hlow (k + 1) (by omega)).1] at h2
      exact hC1 k y1 y2 (by omega) h1 h2
  · intro k y1 y2 hk h1 h2
    have hne : k + 1 ≠ (b.length : Int) - a.length := by omega
    rw [snakeStep_fp_ne _ _ _ _ _ _ _ _ hne] at h2
    by_cases hkd : k = (b.length : Int) - a.length
    · rw [hkd, hD.1] at h1
      injection h1 with h1
      rw [hkd] at h2
      have := hyr y2 h2
      omega
    · rw [snakeStep_fp_ne _ _ _ _ _ _ _ _ hkd] at h1
      exact hC2 k y1 y2 (by omega) h1 h2
  · intro k y0 hk h1
    have hne : k ≠ (b.length : Int) - a.length := by omega
    rw [snakeStep_fp_ne _ _ _ _ _ _ _ _ hne, (hlow k (by omega)).1]
    have hk1 : -(p : Int) ≤ k := by
      by_contra hc
      have := (hS1 (k + 1) (by omega)).1
      rw [this] at h1
      cases h1
    exact hR1 k y0 hk1 hk h1
  · intro k y0 hk h1
    have hne : k ≠ (b.length : Int) - a.length := by omega
    rw [snakeStep_fp_ne _ _ _ _ _ _ _ _ hne]
    have hk2 : k ≤ (b.length : Int) - a.length + p := by
      by_contra hc
      have := (hS1 (k - 1) (by omega)).1
      rw [this] at h1
      cases h1
    exact hR2 k y0 hk hk2 h1

/-- In a state at the end of a round, a diagonal with a furthest point lies in
the range `-p .. delta+p`. -/
theorem EndInv.mem_range {α : Type} {a b : List (Option α)}
    {cmp : Option α → Option α → Bool} {tInsert tDelete : Tag} {p : Nat} {st : MyersState}
    (h : EndInv a b cmp tInsert tDelete p st) {k y : Int} (hk : st.fp k = some y) :
    -(p : Int) ≤ k ∧ k ≤ (b.length : Int) - a.length + p := by
  by_contra hc
  have := (h.1 k hc).1
  rw [this] at hk
  cases hk

theorem EndInv.fp_some {α : Type} {a b : List (Option α)}
    {cmp : Option α → Option α → Bool} {tInsert tDelete : Tag} {p : Nat} {st : MyersState}
    (h : EndInv a b cmp tInsert tDelete p st) {k : Int}
    (hk1 : -(p : Int) ≤ k) (hk2 : k ≤ (b.length : Int) - a.length + p) :
    ∃ y : Nat, st.fp k = some (y : Int) := by
  obtain ⟨x, y, d, hD, _⟩ := h.2.1 k hk1 hk2
  exact ⟨y, hD.1⟩

/-- The furthest points at the end of round `p` dominate every walk that fits
in the budget `p`, provided those at its start dominated every walk that fits
in the budget `p - 1`. -/
theorem furthest_round {α : Type} {a b : List (Option α)} {cmp : Option α → Option α → Bool}
    {tInsert tDelete : Tag} (hmn : a.length ≤ b.length) (p : Nat) (st0 st : MyersState)
    (hF : Furthest a b cmp tInsert tDelete ((p : Int) - 1) st0)
    (hE : EndInv a b cmp tInsert tDelete p st)
    (hR : RoundRel ((b.length : Int) - a.length) st0 st) :
    Furthest a b cmp tInsert tDelete (p : Int) st := by
  intro s x y d hreach
  induction hreach with
  | nil =>
    intro _
    obtain ⟨y', hy'⟩ := hE.fp_some (k := 0) (by omega) (by omega)
    refine ⟨y', by simpa using hy', by omega⟩
  | @ins s x y d hprev ih =>
    intro hW
    unfold WithinBudget at hW ih
    by_cases hk : ((y + 1 : Nat) : Int) - x ≤ (b.length : Int) - a.length
    · obtain ⟨yl, h1, h2⟩ := ih (by push_cast at hk hW ⊢; omega)
      have hr := hE.mem_range h1
      obtain ⟨y', hy'⟩ := hE.fp_some (k := ((y + 1 : Nat) : Int) - x)
        (by push_cast; omega) (by omega)
      have e : ((y + 1 : Nat) : Int) - x = ((y : Int) - x) + 1 := by push_cast; omega
      have hc := hE.2.2.1 ((y : Int) - x) yl y' (by omega) h1 (by rw [← e]; exact hy')
      exact ⟨y', hy', by push_cast; omega⟩
    · obtain ⟨yl, h1, h2⟩ := hF s x y d hprev (by
        unfold WithinBudget
        push_cast at hk hW ⊢
        omega)
      have e : (y : Int) - x = (((y + 1 : Nat) : Int) - x) - 1 := by push_cast; omega
      rw [e] at h1
      obtain ⟨y', h3, h4⟩ := hR.2 _ yl (by omega) h1
      exact ⟨y', h3, by push_cast; omega⟩
  | @del s x y d hprev ih =>
    intro hW
    unfold WithinBudget at hW ih
    by_cases hk : (b.length : Int) - a.length ≤ (y : Int) - ((x + 1 : Nat) : Int)
    · obtain ⟨yr, h1, h2⟩ := ih (by push_cast at hk hW ⊢; omega)
      have hr := hE.mem_range h1
      obtain ⟨y', hy'⟩ := hE.fp_some (k := (y : Int) - ((x + 1 : Nat) : Int))
        (by push_cast at hk ⊢; omega) (by push_cast; omega)
      have e : (y : Int) - x = ((y : Int) - ((x + 1 : Nat) : Int)) + 1 := by push_cast; omega
      rw [e] at h1
      have hc := hE.2.2.2 _ y' yr hk hy' h1
      exact ⟨y', hy', by omega⟩
    · obtain ⟨yr, h1, h2⟩ := hF s x y d hprev (by
        unfold WithinBudget
        push_cast at hk hW ⊢
        omega)
      have e : (y : Int) - x = ((y : Int) - ((x + 1 : Nat) : Int)) + 1 := by push_cast; omega
      rw [e] at h1
      obtain ⟨y', h3, h4⟩ := hR.1 _ yr (by omega) h1
      exact ⟨y', h3, by omega⟩
  | @eq s x y d hprev hx hy hcmp ih =>
    intro hW
    have e : ((y + 1 : Nat) : Int) - ((x + 1 : Nat) : Int) = (y : Int) - x := by
      push_cast; omega
    rw [e] at hW ⊢
    obtain ⟨y', h1, h2⟩ := ih hW
    refine ⟨y', h1, ?_⟩
    by_contra hc
    have hy' : y' = (y : Int) := by push_cast at hc; omega
    have hr := hE.mem_range h1
    obtain ⟨x2, y2, d2, hD, _⟩ := hE.2.1 _ hr.1 hr.2
    have h3 := hD.1
    rw [h1, hy'] at h3
    injection h3 with h3
    have h4 : y2 = y := by omega
    subst h4
    have h5 : x2 = x := by
      have := hD.2.1
      omega
    subst h5
    exact hD.2.2.1 ⟨by omega, by omega, hcmp⟩

/-! ## The optimal diff engine: the `do ... while` loop -/

/-- Below the diagonal `delta` the furthest points grow by at least one per
diagonal. -/
theorem EndInv.chain_low {α : Type} {a b : List (Option α)}
    {cmp : Option α → Option α → Bool} {tInsert tDelete : Tag} {p : Nat} {st : MyersState}
    (h : EndInv a b cmp tInsert tDelete p st) (j : Nat) :
    ∀ y : Int, st.fp ((b.length : Int) - a.length - j) = some y →
      ∃ yd : Int, st.fp ((b.length : Int) - a.length) = some yd ∧ y + j ≤ yd := by
  induction j with
  | zero =>
    intro y hy
    exact ⟨y, by simpa using hy, by simp⟩
  | succ j ih =>
    intro y hy
    have hr := h.mem_range hy
    push_cast at hr
    obtain ⟨y1, hy1⟩ := h.fp_some (k := (b.length : Int) - a.length - j)
      (by omega) (by omega)
    obtain ⟨yd, h1, h2⟩ := ih y1 hy1
    have e : (b.length : Int) - a.length - j
        = ((b.length : Int) - a.length - ((j + 1 : Nat) : Int)) + 1 := by push_cast; omega
    rw [e] at hy1
    have := h.2.2.1 _ y y1 (by push_cast; omega) hy hy1
    exact ⟨yd, h1, by push_cast; omega⟩

/-- Above the diagonal `delta` the furthest points do not grow. -/
theorem EndInv.chain_high {α : Type} {a b : List (Option α)}
    {cmp : Option α → Option α → Bool} {tInsert tDelete : Tag} {p : Nat} {st : MyersState}
    (hmn : a.length ≤ b.length)
    (h : EndInv a b cmp tInsert tDelete p st) (j : Nat) :
    ∀ y : Int, st.fp ((b.length : Int) - a.length + j) = some y →
      ∃ yd : Int, st.fp ((b.length : Int) - a.length) = some yd ∧ y ≤ yd := by
  induction j with
  | zero =>
    intro y hy
    exact ⟨y, by simpa using hy, le_refl _⟩
  | succ j ih =>
    intro y hy
    have hr := h.mem_range hy
    push_cast at hr
    obtain ⟨y1, hy1⟩ := h.fp_some (k := (b.length : Int) - a.length + j)
      (by omega) (by omega)
    obtain ⟨yd, h1, h2⟩ := ih y1 hy1
    have e : (b.length : Int) - a.length + ((j + 1 : Nat) : Int)
        = ((b.length : Int) - a.length + j) + 1 := by push_cast; omega
    rw [e] at hy
    have := h.2.2.2 _ y1 y (by omega) hy1 hy
    exact ⟨yd, h1, by omega⟩

/-- When the loop goes on after round `p`, the state it leaves is a state at
the start of round `p + 1`. -/
theorem EndInv.toStart {α : Type} {a b : List (Option α)}
    {cmp : Option α → Option α → Bool} {tInsert tDelete : Tag} {p : Nat} {st : MyersState}
    (hmn : a.length ≤ b.length)
    (h : EndInv a b cmp tInsert tDelete p st)
    (hne : st.fp ((b.length : Int) - a.length) ≠ some (b.length : Int)) :
    StartInv a b cmp tInsert tDelete (p + 1) st := by
  obtain ⟨xd, yd, dd, hDd, hBd⟩ := h.2.1 ((b.length : Int) - a.length) (by omega) (by omega)
  have hyd : yd < b.length := by
    have h1 := hBd.2.1
    have h2 : yd ≠ b.length := by
      intro hc
      apply hne
      rw [hDd.1, hc]
    omega
  refine ⟨?_, ?_⟩
  · intro k hk
    refine h.1 k ?_
    intro hc
    apply hk
    push_cast
    omega
  · intro k _ hk1 hk2
    push_cast at hk1 hk2
    obtain ⟨x, y, d, hD, hB⟩ := h.2.1 k (by omega) (by omega)
    refine ⟨x, y, d, hD, by simpa using hB, ?_⟩
    have hdiag := hD.2.1
    by_cases hkd : k ≤ (b.length : Int) - a.length
    · obtain ⟨yd', h1, h2⟩ := h.chain_low ((b.length : Int) - a.length - k).toNat (y : Int) (by
        have e : (b.length : Int) - a.length - (((b.length : Int) - a.length - k).toNat : Int)
            = k := by omega
        rw [e]
        exact hD.1)
      rw [hDd.1] at h1
      injection h1 with h1
      omega
    · obtain ⟨yd', h1, h2⟩ := h.chain_high hmn (k - ((b.length : Int) - a.length)).toNat (y : Int)
        (by
          have e : (b.length : Int) - a.length
              + ((k - ((b.length : Int) - a.length)).toNat : Int) = k := by omega
          rw [e]
          exact hD.1)
      rw [hDd.1] at h1
      injection h1 with h1
      omega

/-- The state with both maps empty is a state at the start of round `0`. -/
theorem startInv_init {α : Type} (a b : List (Option α)) (cmp : Option α → Option α → Bool)
    (tInsert tDelete : Tag) :
    StartInv a b cmp tInsert tDelete 0 { es := fun _ => none, fp := fun _ => none } := by
  refine ⟨fun _ _ => ⟨rfl, rfl⟩, ?_⟩
  intro k h
  omega

theorem furthest_init {α : Type} (a b : List (Option α)) (cmp : Option α → Option α → Bool)
    (tInsert tDelete : Tag) (st : MyersState) :
    Furthest a b cmp tInsert tDelete (((0 : Nat) : Int) - 1) st := by
  intro s x y d _ hW
  unfold WithinBudget at hW
  exfalso
  push_cast at hW
  omega

/-- The `do ... while` loop exits: started at round `p ≤ m` with at least
`m + 1 - p` rounds allowed, it stops with the sink `(m, n)` reached on the
diagonal `delta` by the script stored there, and no walk to the sink has
fewer steps of kind `tDelete` than this script. -/
theorem diffLoop_spec {α : Type} {a b : List (Option α)} {cmp : Option α → Option α → Bool}
    {tInsert tDelete : Tag} (hmn : a.length ≤ b.length) (fuel : Nat) :
    ∀ (p : Nat) (st0 : MyersState), StartInv a b cmp tInsert tDelete p st0 →
      Furthest a b cmp tInsert tDelete ((p : Int) - 1) st0 →
      p ≤ a.length → a.length + 1 ≤ p + fuel →
      ∃ (st : MyersState) (s : List Tag) (d : Nat),
        diffLoop a b cmp tInsert tDelete fuel p st0 = some st ∧
        st.es ((b.length : Int) - a.length) = some (tInsert :: s) ∧
        Reach a b cmp tInsert tDelete s a.length b.length d ∧
        ∀ (s' : List Tag) (d' : Nat),
          Reach a b cmp tInsert tDelete s' a.length b.length d' → d ≤ d' := by
  induction fuel with
  | zero =>
    intro p st0 _ _ h1 h2
    omega
  | succ fuel ih =>
    intro p st0 hS hF hp hfuel
    obtain ⟨hE, hR⟩ := diffRound_inv hmn p st0 hS
    have hF' := furthest_round hmn p st0 _ hF hE hR
    obtain ⟨x, y, d, hD, hB⟩ := hE.2.1 ((b.length : Int) - a.length) (by omega) (by omega)
    have hdiag := hD.2.1
    unfold diffLoop
    by_cases hne : (diffRound a b cmp tInsert tDelete p st0).fp ((b.length : Int) - a.length)
        ≠ some (b.length : Int)
    · rw [if_pos hne]
      have hpm : p + 1 ≤ a.length := by
        by_contra hc
        apply hne
        rw [hD.1]
        unfold Bound at hB
        congr 1
        omega
      exact ih (p + 1) _ (hE.toStart hmn hne) (by simpa using hF') hpm (by omega)
    · rw [if_neg hne]
      have hy : y = b.length := by
        have := not_not.mp hne
        rw [hD.1] at this
        injection this with this
        omega
      have hx : x = a.length := by omega
      subst hy hx
      obtain ⟨s, hs1, hs2⟩ := hD.2.2.2
      refine ⟨_, s, d, rfl, hs1, hs2, ?_⟩
      intro s' d' hreach
      by_contra hc
      obtain ⟨y', h1, h2⟩ := hF s' _ _ d' hreach (by
        unfold WithinBudget Bound at *
        omega)
      have hp1 : 1 ≤ p := by
        by_contra hp0
        have := (hS.1 ((b.length : Int) - a.length) (by omega)).1
        rw [this] at h1
        cases h1
      obtain ⟨x0, y0, d0, hD0, _, _, hy0⟩ := hS.2 ((b.length : Int) - a.length) hp1
        (by omega) (by omega)
      rw [hD0.1] at h1
      injection h1 with h1
      omega

/-- The part of `diff` after the size test returns a script that walks from
`(0, 0)` to the sink `(m, n)`, with as few steps of kind `tDelete` as any such
walk, as soon as `m + 1` rounds are allowed. -/
theorem myersCore_spec {α : Type} {a b : List (Option α)} {cmp : Option α → Option α → Bool}
    {tInsert tDelete : Tag} (hmn : a.length ≤ b.length) (fuel : Nat)
    (hfuel : a.length + 1 ≤ fuel) :
    ∃ (s : List Tag) (d : Nat),
      myersCore fuel a b cmp tInsert tDelete = some s ∧
      Reach a b cmp tInsert tDelete s a.length b.length d ∧
      ∀ (s' : List Tag) (d' : Nat),
        Reach a b cmp tInsert tDelete s' a.length b.length d' → d ≤ d' := by
  obtain ⟨st, s, d, h1, h2, h3, h4⟩ := @diffLoop_spec α a b cmp tInsert tDelete
    hmn fuel 0 _ (startInv_init a b cmp tInsert tDelete)
    (furthest_init a b cmp tInsert tDelete _) (Nat.zero_le _) (by omega)
  refine ⟨s, d, ?_, h3, h4⟩
  unfold myersCore
  rw [h1]
  simp only [h2, List.drop_succ_cons, List.drop_zero]

/-! ## Walks in the edit graph and edit scripts -/

theorem drop_eq_jsGet_cons {α : Type} (l : List (Option α)) (i : Nat) (h : i < l.length) :
    l.drop i = jsGet l i :: l.drop (i + 1) := by
  rw [jsGet_natCast, List.getElem?_eq_getElem h]
  simp

/-- A walk with the source's tags can be completed by any valid script for
the rest of the two sequences. -/
theorem Reach.toScript {α : Type} [DecidableEq α] {old new : List (Option α)}
    {s : List Tag} {x y d : Nat}
    (h : Reach old new defaultCmp Tag.insert Tag.delete s x y d) :
    x ≤ old.length → y ≤ new.length → ∀ t : List Tag,
      isEditScript t (old.drop x) (new.drop y) = true →
      isEditScript (s ++ t) old new = true := by
  induction h with
  | nil =>
    intro _ _ t ht
    simpa using ht
  | @ins s x y d _ ih =>
    intro hx hy t ht
    rw [List.append_assoc]
    refine ih hx (by omega) _ ?_
    rw [drop_eq_jsGet_cons new y (by omega)]
    cases hold : old.drop x <;> simpa [isEditScript, hold] using ht
  | @del s x y d _ ih =>
    intro hx hy t ht
    rw [List.append_assoc]
    refine ih (by omega) hy _ ?_
    rw [drop_eq_jsGet_cons old x (by omega)]
    cases hnew : new.drop y <;> simpa [isEditScript, hnew] using ht
  | @eq s x y d _ hx' hy' hcmp ih =>
    intro hx hy t ht
    rw [List.append_assoc]
    refine ih (by omega) (by omega) _ ?_
    rw [drop_eq_jsGet_cons old x hx', drop_eq_jsGet_cons new y hy']
    simp only [List.singleton_append, isEditScript, Bool.and_eq_true, decide_eq_true_eq]
    exact ⟨(defaultCmp_eq_true _ _).mp hcmp, ht⟩

/-- A valid script for the rest of the two sequences completes a walk with the
source's tags into a walk to the sink. -/
theorem Reach.ofScript {α : Type} [DecidableEq α] {old new : List (Option α)}
    (t : List Tag) : ∀ (s : List Tag) (x y d : Nat),
      Reach old new defaultCmp Tag.insert Tag.delete s x y d →
      x ≤ old.length → y ≤ new.length →
      isEditScript t (old.drop x) (new.drop y) = true →
      Reach old new defaultCmp Tag.insert Tag.delete (s ++ t) old.length new.length
        (d + t.count Tag.delete) := by
  induction t with
  | nil =>
    intro s x y d h hx hy ht
    have h1 : old.drop x = [] := by
      cases hold : old.drop x with
      | nil => rfl
      | cons _ _ => simp [isEditScript, hold] at ht
    have h2 : new.drop y = [] := by
      cases hnew : new.drop y with
      | nil => rfl
      | cons _ _ => simp [isEditScript, hnew] at ht
    have e1 : x = old.length := by
      have := List.drop_eq_nil_iff.mp h1
      omega
    have e2 : y = new.length := by
      have := List.drop_eq_nil_iff.mp h2
      omega
    subst e1 e2
    simpa using h
  | cons tag t ih =>
    intro s x y d h hx hy ht
    have e : s ++ tag :: t = (s ++ [tag]) ++ t := by simp
    rw [e]
    cases tag with
    | equal =>
      have hx' : x < old.length := by
        by_contra hc
        rw [List.drop_eq_nil_of_le (by omega)] at ht
        simp [isEditScript] at ht
      have hy' : y < new.length := by
        by_contra hc
        rw [List.drop_eq_nil_of_le (by omega : new.length ≤ y)] at ht
        cases hold : old.drop x <;> simp [isEditScript, hold] at ht
      rw [drop_eq_jsGet_cons old x hx', drop_eq_jsGet_cons new y hy'] at ht
      simp only [isEditScript, Bool.and_eq_true, decide_eq_true_eq] at ht
      have := ih _ _ _ _ (Reach.eq h hx' hy' ((defaultCmp_eq_true _ _).mpr ht.1))
        (by omega) (by omega) ht.2
      simpa using this
    | insert =>
      have hy' : y < new.length := by
        by_contra hc
        rw [List.drop_eq_nil_of_le (by omega : new.length ≤ y)] at ht
        cases hold : old.drop x <;> simp [isEditScript, hold] at ht
      rw [drop_eq_jsGet_cons new y hy'] at ht
      have ht' : isEditScript t (old.drop x) (new.drop (y + 1)) = true := by
        cases hold : old.drop x <;> simpa [isEditScript, hold] using ht
      have := ih _ _ _ _ (Reach.ins h) hx (by omega) ht'
      simpa using this
    | delete =>
      have hx' : x < old.length := by
        by_contra hc
        rw [List.drop_eq_nil_of_le (by omega : old.length ≤ x)] at ht
        cases hnew : new.drop y <;> simp [isEditScript, hnew] at ht
      rw [drop_eq_jsGet_cons old x hx'] at ht
      have ht' : isEditScript t (old.drop (x + 1)) (new.drop y) = true := by
        cases hnew : new.drop y <;> simpa [isEditScript, hnew] using ht
      have := ih _ _ _ _ (Reach.del h) (by omega) hy ht'
      simp only [List.count_cons_self]
      have e2 : d + (List.count Tag.delete t + 1) = d + 1 + List.count Tag.delete t := by
        omega
      rw [e2]
      exact this

theorem swapTag_swapTag (t : Tag) : swapTag (swapTag t) = t := by
  cases t <;> rfl

theorem map_swapTag_map_swapTag (t : List Tag) : (t.map swapTag).map swapTag = t := by
  induction t with
  | nil => rfl
  | cons x t ih => simp [swapTag_swapTag, ih]

theorem count_insert_map_swapTag (t : List Tag) :
    (t.map swapTag).count Tag.insert = t.count Tag.delete := by
  induction t with
  | nil => rfl
  | cons x t ih => cases x <;> simp [swapTag, ih]

theorem count_delete_map_swapTag (t : List Tag) :
    (t.map swapTag).count Tag.delete = t.count Tag.insert := by
  induction t with
  | nil => rfl
  | cons x t ih => cases x <;> simp [swapTag, ih]

theorem editCount_map_swapTag (t : List Tag) : editCount (t.map swapTag) = editCount t := by
  unfold editCount
  rw [count_insert_map_swapTag, count_delete_map_swapTag]
  omega

/-- Exchanging the two tags of a walk. -/
theorem Reach.swap {α : Type} {a b : List (Option α)} {cmp : Option α → Option α → Bool}
    {tInsert tDelete : Tag} {s : List Tag} {x y d : Nat}
    (h : Reach a b cmp tInsert tDelete s x y d) :
    Reach a b cmp (swapTag tInsert) (swapTag tDelete) (s.map swapTag) x y d := by
  induction h with
  | nil => exact Reach.nil
  | ins _ ih =>
    rw [List.map_append]
    exact Reach.ins ih
  | del _ ih =>
    rw [List.map_append]
    exact Reach.del ih
  | eq _ hx hy hc ih =>
    rw [List.map_append]
    exact Reach.eq ih hx hy hc

/-- A script from `old` to `new` with the tags exchanged is a script from
`new` to `old`. -/
theorem isEditScript_swap {α : Type} [DecidableEq α] (t : List Tag) :
    ∀ old new : List (Option α),
      isEditScript (t.map swapTag) new old = isEditScript t old new := by
  induction t with
  | nil =>
    intro old new
    simp [isEditScript, Bool.and_comm]
  | cons tag t ih =>
    intro old new
    cases tag with
    | equal =>
      cases old with
      | nil => cases new <;> simp [isEditScript, swapTag]
      | cons x old =>
        cases new with
        | nil => simp [isEditScript, swapTag]
        | cons y new =>
          simp only [List.map_cons, swapTag, isEditScript, ih]
          congr 1
          exact decide_eq_decide.mpr eq_comm
    | insert =>
      cases new with
      | nil => cases old <;> simp [isEditScript, swapTag]
      | cons y new => cases old <;> simp [isEditScript, swapTag, ih]
    | delete =>
      cases old with
      | nil => cases new <;> simp [isEditScript, swapTag]
      | cons x old => cases new <;> simp [isEditScript, swapTag, ih]

/-- The tags of a valid script account for every element of both sequences. -/
theorem isEditScript_counts {α : Type} [DecidableEq α] (t : List Tag) :
    ∀ old new : List (Option α), isEditScript t old new = true →
      t.count Tag.equal + t.count Tag.delete = old.length ∧
      t.count Tag.equal + t.count Tag.insert = new.length := by
  induction t with
  | nil =>
    intro old new h
    cases old <;> cases new <;> simp [isEditScript] at h
    simp
  | cons tag t ih =>
    intro old new h
    cases tag with
    | equal =>
      cases old with
      | nil => cases new <;> simp [isEditScript] at h
      | cons x old =>
        cases new with
        | nil => simp [isEditScript] at h
        | cons y new =>
          simp only [isEditScript, Bool.and_eq_true, decide_eq_true_eq] at h
          have := ih old new h.2
          simp
          omega
    | insert =>
      cases new with
      | nil => cases old <;> simp [isEditScript] at h
      | cons y new =>
        have h' : isEditScript t old new = true := by
          cases old <;> simpa [isEditScript] using h
        have := ih old new h'
        simp
        omega
    | delete =>
      cases old with
      | nil => cases new <;> simp [isEditScript] at h
      | cons x old =>
        have h' : isEditScript t old new = true := by
          cases new <;> simpa [isEditScript] using h
        have := ih old new h'
        simp
        omega

/-- The number of `delete` tags of a walk with the source's tags. -/
theorem Reach.count_delete {α : Type} {a b : List (Option α)}
    {cmp : Option α → Option α → Bool} {s : List Tag} {x y d : Nat}
    (h : Reach a b cmp Tag.insert Tag.delete s x y d) : s.count Tag.delete = d := by
  induction h with
  | nil => rfl
  | ins _ ih => simpa using ih
  | del _ ih => simpa using ih
  | eq _ _ _ _ ih => simpa using ih

/-! ## The exact path of `diff` -/

theorem isEditScript_nil_drop {α : Type} [DecidableEq α] (old new : List (Option α)) :
    isEditScript [] (old.drop old.length) (new.drop new.length) = true := by
  simp [isEditScript]

/-- On the exact path `diff` returns a valid edit script from `old` to `new`
with as few `insert` and `delete` tags as any valid edit script, as soon as
`min(m, n) + 1` rounds are allowed. -/
theorem diffFuel_exact {α : Type} [DecidableEq α] (old new : List (Option α))
    (hsmall : useFastDiff old.length new.length = false) (fuel : Nat)
    (hfuel : min old.length new.length + 1 ≤ fuel) :
    ∃ t : List Tag, diffFuel fuel old new defaultCmp = some t ∧
      isEditScript t old new = true ∧
      ∀ t' : List Tag, isEditScript t' old new = true → editCount t ≤ editCount t' := by
  unfold diffFuel
  simp only [hsmall, Bool.false_eq_true, if_false]
  by_cases hswap : new.length < old.length
  · simp only [hswap, if_true]
    obtain ⟨s, d, h1, h2, h3⟩ := @myersCore_spec α new old defaultCmp
      Tag.delete Tag.insert (by omega) fuel (by omega)
    have h2' : Reach new old defaultCmp Tag.insert Tag.delete (s.map swapTag)
        new.length old.length d := h2.swap
    have hs : isEditScript s old new = true := by
      rw [← isEditScript_swap]
      have := h2'.toScript (le_refl _) (le_refl _) [] (isEditScript_nil_drop new old)
      simpa using this
    refine ⟨s, h1, hs, ?_⟩
    intro t' ht'
    have ht'' : isEditScript (t'.map swapTag) new old = true := by
      rw [isEditScript_swap]
      exact ht'
    have hr := @Reach.ofScript α _ new old (t'.map swapTag) [] 0 0 0 Reach.nil
      (Nat.zero_le _) (Nat.zero_le _) (by simpa using ht'')
    have hr' := hr.swap
    simp only [List.nil_append, map_swapTag_map_swapTag, swapTag, zero_add] at hr'
    have hle := h3 _ _ hr'
    rw [count_delete_map_swapTag] at hle
    have hd : s.count Tag.insert = d := by
      rw [← count_delete_map_swapTag]
      exact h2'.count_delete
    have c1 := isEditScript_counts s old new hs
    have c2 := isEditScript_counts t' old new ht'
    unfold editCount
    omega
  · simp only [hswap, if_false]
    obtain ⟨s, d, h1, h2, h3⟩ := @myersCore_spec α old new defaultCmp
      Tag.insert Tag.delete (by omega) fuel (by omega)
    have hs : isEditScript s old new = true := by
      have := h2.toScript (le_refl _) (le_refl _) [] (isEditScript_nil_drop old new)
      simpa using this
    refine ⟨s, h1, hs, ?_⟩
    intro t' ht'
    have hr := @Reach.ofScript α _ old new t' [] 0 0 0 Reach.nil
      (Nat.zero_le _) (Nat.zero_le _) (by simpa using ht')
    simp only [List.nil_append, zero_add] at hr
    have hle := h3 _ _ hr
    have hd : s.count Tag.delete = d := h2.count_delete
    have c1 := isEditScript_counts s old new hs
    have c2 := isEditScript_counts t' old new ht'
    unfold editCount
    omega

/-- On the exact path the loop of `diff` is never cut short: `diff` returns a
valid edit script of minimal size. -/
theorem diff_exact {α : Type} [DecidableEq α] (old new : List (Option α))
    (hsmall : useFastDiff old.length new.length = false) :
    ∃ t : List Tag, diff old new defaultCmp = some t ∧
      isEditScript t old new = true ∧
      ∀ t' : List Tag, isEditScript t' old new = true → editCount t ≤ editCount t' :=
  diffFuel_exact old new hsmall _ (by omega)

/-! ## The opcode grouper on runs of one tag -/

theorem foldl_groupStep_equal {α : Type} (output : List (Option α)) (c : Nat) :
    ∀ (changes : List (Change α)) (index : Int),
      (List.replicate c Tag.equal).foldl (groupStep output)
        { changes := changes, index := index, lastOperation := none }
      = { changes := changes, index := index + c, lastOperation := none } := by
  induction c with
  | zero =>
    intro changes index
    simp
  | succ c ih =>
    intro changes index
    rw [List.replicate_succ, List.foldl_cons]
    have : groupStep output { changes := changes, index := index, lastOperation := none }
        Tag.equal = { changes := changes, index := index + 1, lastOperation := none } := rfl
    rw [this, ih]
    congr 1
    push_cast
    omega

theorem foldl_groupStep_insert {α : Type} (output : List (Option α)) (c : Nat) :
    ∀ (changes : List (Change α)) (index i : Int) (vals : List (Option α)),
      (List.replicate c Tag.insert).foldl (groupStep output)
        { changes := changes, index := index,
          lastOperation := some (Change.insert i vals) }
      = { changes := changes, index := index + c,
          lastOperation := some (Change.insert i
            (vals ++ (List.range c).map (fun j : Nat => jsGet output (index + j)))) } := by
  induction c with
  | zero =>
    intro changes index i vals
    simp
  | succ c ih =>
    intro changes index i vals
    rw [List.replicate_succ, List.foldl_cons]
    have : groupStep output ⟨changes, index, some (Change.insert i vals)⟩ Tag.insert
        = ⟨changes, index + 1, some (Change.insert i (vals ++ [jsGet output index]))⟩ := by
      simp [groupStep, isContinuationOf, Change.type]
    rw [this, ih]
    congr 1
    · push_cast
      omega
    · congr 2
      rw [List.range_succ_eq_map, List.append_assoc]
      congr 1
      simp only [List.map_cons, List.map_map, Nat.cast_zero, add_zero, List.singleton_append]
      congr 1
      apply List.map_congr_left
      intro j _
      simp only [Function.comp]
      congr 1
      push_cast
      omega

theorem foldl_groupStep_delete {α : Type} (output : List (Option α)) (c : Nat) :
    ∀ (changes : List (Change α)) (index i howMany : Int),
      (List.replicate c Tag.delete).foldl (groupStep output)
        { changes := changes, index := index,
          lastOperation := some (Change.delete i howMany) }
      = { changes := changes, index := index,
          lastOperation := some (Change.delete i (howMany + c)) } := by
  induction c with
  | zero =>
    intro changes index i howMany
    simp
  | succ c ih =>
    intro changes index i howMany
    rw [List.replicate_succ, List.foldl_cons]
    have : groupStep output ⟨changes, index, some (Change.delete i howMany)⟩ Tag.delete
        = ⟨changes, index, some (Change.delete i (howMany + 1))⟩ := by
      simp [groupStep, isContinuationOf, Change.type]
    rw [this, ih]
    congr 3
    push_cast
    omega

/-- Trailing `equal` tags add nothing to the change list. -/
theorem pushLast_foldl_equal {α : Type} (output : List (Option α)) (c : Nat)
    (st : GroupState α) :
    (pushLast ((List.replicate c Tag.equal).foldl (groupStep output) st)).changes
      = (pushLast st).changes := by
  cases c with
  | zero => simp
  | succ c =>
    rw [List.replicate_succ, List.foldl_cons]
    have : groupStep output st Tag.equal
        = { changes := (pushLast st).changes, index := (pushLast st).index + 1,
            lastOperation := none } := by
      obtain ⟨changes, index, lastOp⟩ := st
      cases lastOp <;> rfl
    rw [this, foldl_groupStep_equal]
    rfl

/-- The opcode grouper applied to a run of `equal`, a run of `insert`, a run
of `delete` and a run of `equal`. -/
theorem diffToChanges_runs {α : Type} (output : List (Option α)) (f cI cD l : Nat) :
    diffToChanges (List.replicate f Tag.equal ++ List.replicate cI Tag.insert
        ++ List.replicate cD Tag.delete ++ List.replicate l Tag.equal) output
      = (if 0 < cI then
          [Change.insert (f : Int)
            ((List.range cI).map (fun j : Nat => jsGet output ((f : Int) + j)))]
         else [])
        ++ (if 0 < cD then [Change.delete ((f : Int) + cI) (cD : Int)] else []) := by
  unfold diffToChanges
  rw [List.foldl_append, pushLast_foldl_equal, List.foldl_append, List.foldl_append,
    foldl_groupStep_equal]
  simp only [zero_add]
  cases cI with
  | zero =>
    simp only [List.replicate_zero, List.foldl_nil, lt_self_iff_false, if_false,
      List.nil_append, Nat.cast_zero, add_zero]
    cases cD with
    | zero => simp [pushLast]
    | succ cD =>
      rw [List.replicate_succ, List.foldl_cons]
      have : groupStep output ⟨[], (f : Int), none⟩ Tag.delete
          = ⟨[], (f : Int), some (Change.delete (f : Int) 1)⟩ := rfl
      rw [this, foldl_groupStep_delete]
      simp only [pushLast, List.nil_append, Nat.succ_pos, if_true]
      congr 2
      push_cast
      omega
  | succ cI =>
    rw [List.replicate_succ, List.foldl_cons]
    have hfirst : groupStep output ⟨[], (f : Int), none⟩ Tag.insert
        = ⟨[], (f : Int) + 1, some (Change.insert (f : Int) [jsGet output (f : Int)])⟩ := rfl
    rw [hfirst, foldl_groupStep_insert]
    have hvals : [jsGet output (f : Int)]
        ++ (List.range cI).map (fun j : Nat => jsGet output ((f : Int) + 1 + j))
        = (List.range (cI + 1)).map (fun j : Nat => jsGet output ((f : Int) + j)) := by
      rw [List.range_succ_eq_map]
      simp only [List.map_cons, List.map_map, Nat.cast_zero, add_zero, List.singleton_append]
      congr 1
      apply List.map_congr_left
      intro j _
      simp only [Function.comp]
      congr 1
      push_cast
      omega
    rw [hvals]
    simp only [Nat.succ_pos, if_true]
    cases cD with
    | zero =>
      simp [pushLast]
    | succ cD =>
      rw [List.replicate_succ, List.foldl_cons]
      generalize (List.range (cI + 1)).map (fun j : Nat => jsGet output ((f : Int) + j)) = vs
      have : groupStep output ⟨[], (f : Int) + 1 + (cI : Int), some (Change.insert (f : Int) vs)⟩
          Tag.delete
          = ⟨[Change.insert (f : Int) vs], (f : Int) + 1 + (cI : Int),
              some (Change.delete ((f : Int) + 1 + (cI : Int)) 1)⟩ := by
        simp [groupStep, isContinuationOf, Change.type, pushLast]
      rw [this, foldl_groupStep_delete]
      simp only [pushLast, Nat.succ_pos, if_true, List.singleton_append]
      congr 3
      · push_cast
        omega
      · push_cast
        omega
/-! ## Atomic and grouped output of `fastDiff` -/

theorem map_jsGet_range {α : Type} (l : List (Option α)) (f c : Nat)
    (h : f + c ≤ l.length) :
    (List.range c).map (fun j : Nat => jsGet l ((f : Int) + j)) = (l.drop f).take c := by
  apply List.ext_getElem?
  intro i
  rw [List.getElem?_map, List.getElem?_take, List.getElem?_drop]
  by_cases hi : i < c
  · rw [List.getElem?_range hi]
    simp only [Option.map_some', hi, if_true]
    have e : (f : Int) + (i : Int) = ((f + i : Nat) : Int) := by push_cast; rfl
    rw [e, jsGet_natCast, List.getElem?_eq_getElem (by omega)]
    simp
  · rw [List.getElem?_eq_none (by simpa using hi)]
    simp [hi]

theorem jsSlice_eq {α : Type} (l : List (Option α)) (f e : Nat) (h1 : f ≤ e)
    (h2 : e ≤ l.length) : jsSlice l (f : Int) (e : Int) = (l.drop f).take (e - f) := by
  unfold jsSlice jsClamp
  have h3 : ¬ ((f : Int) < 0) := by omega
  have h4 : ¬ ((e : Int) < 0) := by omega
  simp only [h3, h4, if_false, Int.toNat_ofNat]
  rw [Nat.min_eq_left (by omega : f ≤ l.length), Nat.min_eq_left h2]

/-- The atomic output for a boundary that is not the sentinel: four runs. -/
theorem changeIndexesToAtomicChanges_runs (la lb f l : Nat) (ha : f + l ≤ la)
    (hb : f + l ≤ lb) :
    changeIndexesToAtomicChanges
      { firstIndex := (f : Int), lastIndexOld := (la : Int) - l,
        lastIndexNew := (lb : Int) - l } lb
    = List.replicate f Tag.equal ++ List.replicate (lb - l - f) Tag.insert
        ++ List.replicate (la - l - f) Tag.delete ++ List.replicate l Tag.equal := by
  unfold changeIndexesToAtomicChanges jsFill
  have h1 : ¬ ((f : Int) = -1) := by omega
  simp only [h1, if_false, List.nil_append]
  have e1 : ((f : Int)).toNat = f := by omega
  have e2 : ((lb : Int) - l - f).toNat = lb - l - f := by omega
  have e3 : ((la : Int) - l - f).toNat = la - l - f := by omega
  have e4 : ((lb : Int) - ((lb : Int) - l)).toNat = l := by omega
  rw [e1, e2, e3, e4]
  have r1 : (if (f : Int) > 0 then List.replicate f Tag.equal else [])
      = List.replicate f Tag.equal := by
    by_cases hc : (f : Int) > 0
    · simp only [hc, if_true]
    · have : f = 0 := by omega
      subst this
      simp
  have r2 : ∀ pre : List Tag,
      (if (lb : Int) - l - f > 0 then pre ++ List.replicate (lb - l - f) Tag.insert else pre)
      = pre ++ List.replicate (lb - l - f) Tag.insert := by
    intro pre
    by_cases hc : (lb : Int) - l - f > 0
    · simp only [hc, if_true]
    · have : lb - l - f = 0 := by omega
      rw [this]
      simp [hc]
  have r3 : ∀ pre : List Tag,
      (if (la : Int) - l - f > 0 then pre ++ List.replicate (la - l - f) Tag.delete else pre)
      = pre ++ List.replicate (la - l - f) Tag.delete := by
    intro pre
    by_cases hc : (la : Int) - l - f > 0
    · simp only [hc, if_true]
    · have : la - l - f = 0 := by omega
      rw [this]
      simp [hc]
  have r4 : ∀ pre : List Tag,
      (if (lb : Int) - l < (lb : Int) then pre ++ List.replicate l Tag.equal else pre)
      = pre ++ List.replicate l Tag.equal := by
    intro pre
    by_cases hc : (lb : Int) - l < (lb : Int)
    · simp only [hc, if_true]
    · have : l = 0 := by omega
      subst this
      simp
  rw [r1, r2, r3, r4]

/-- The grouped output for a boundary that is not the sentinel. -/
theorem changeIndexesToChanges_runs {α : Type} (new : List (Option α)) (la f l : Nat)
    (ha : f + l ≤ la) (hb : f + l ≤ new.length) :
    changeIndexesToChanges new
      { firstIndex := (f : Int), lastIndexOld := (la : Int) - l,
        lastIndexNew := (new.length : Int) - l }
    = (if 0 < new.length - l - f then
        [Change.insert (f : Int) ((new.drop f).take (new.length - l - f))]
       else [])
      ++ (if 0 < la - l - f then
        [Change.delete ((f : Int) + (new.length - l - f : Nat)) ((la - l - f : Nat) : Int)]
       else []) := by
  unfold changeIndexesToChanges
  simp only [List.nil_append]
  have e0 : (new.length : Int) - l = ((new.length - l : Nat) : Int) := by omega
  have hsl : jsSlice new (f : Int) ((new.length : Int) - l)
      = (new.drop f).take (new.length - l - f) := by
    rw [e0, jsSlice_eq new f (new.length - l) (by omega) (by omega)]
  rw [hsl]
  have e1 : (f : Int) + ((new.length : Int) - l - f) = (f : Int) + (new.length - l - f : Nat) := by
    omega
  have e2 : (la : Int) - l - f = ((la - l - f : Nat) : Int) := by omega
  rw [e1, e2]
  by_cases h1 : 0 < new.length - l - f <;> by_cases h2 : 0 < la - l - f
  · have h1' : (new.length : Int) - l - f > 0 := by omega
    have h2' : ((la - l - f : Nat) : Int) > 0 := by omega
    simp only [h1, h2, h1', h2', if_true]
  · have h1' : (new.length : Int) - l - f > 0 := by omega
    have h2' : ¬ (((la - l - f : Nat) : Int) > 0) := by omega
    simp only [h1, h2, h1', h2', if_true, if_false, List.append_nil]
  · have h1' : ¬ ((new.length : Int) - l - f > 0) := by omega
    have h2' : ((la - l - f : Nat) : Int) > 0 := by omega
    simp only [h1, h2, h1', h2', if_true, if_false, List.nil_append]
  · have h1' : ¬ ((new.length : Int) - l - f > 0) := by omega
    have h2' : ¬ (((la - l - f : Nat) : Int) > 0) := by omega
    simp only [h1, h2, h1', h2', if_false, List.append_nil]

/-- **C6** Atomic and grouped output of `fastDiff` agree: for every `old`, `new`
and comparator, grouping the atomic output with `diffToChanges` gives exactly
the change list returned in grouped mode. -/
theorem fastDiff_atomic_grouped {α : Type} (old new : List (Option α))
    (cmp : Option α → Option α → Bool) :
    diffToChanges (fastDiff old new cmp true) new = fastDiff old new cmp false := by
  show diffToChanges (changeIndexesToAtomicChanges
      (findChangeBoundaryIndexes old new cmp) new.length) new
    = changeIndexesToChanges new (findChangeBoundaryIndexes old new cmp)
  rcases findChangeBoundaryIndexes_cases old new cmp with
    ⟨_, hci, _, _⟩ | ⟨f, l, _, hci, hla, hlb, _⟩
  · rw [hci]
    have h1 : changeIndexesToAtomicChanges
        { firstIndex := -1, lastIndexOld := -1, lastIndexNew := -1 } new.length
        = List.replicate new.length Tag.equal ++ List.replicate 0 Tag.insert
          ++ List.replicate 0 Tag.delete ++ List.replicate 0 Tag.equal := by
      simp [changeIndexesToAtomicChanges, jsFill]
    rw [h1, diffToChanges_runs]
    simp [changeIndexesToChanges]
  · rw [hci, changeIndexesToAtomicChanges_runs old.length new.length f l hla hlb,
      diffToChanges_runs, changeIndexesToChanges_runs new old.length f l hla hlb,
      map_jsGet_range new f (new.length - l - f) (by omega)]

/-! ## The heuristic path of `diff` returns a valid edit script -/

theorem isEditScript_equal_run {α : Type} [DecidableEq α] (P : List (Option α)) :
    ∀ (t : List Tag) (a b : List (Option α)),
      isEditScript (List.replicate P.length Tag.equal ++ t) (P ++ a) (P ++ b)
        = isEditScript t a b := by
  induction P with
  | nil =>
    intro t a b
    simp
  | cons x P ih =>
    intro t a b
    simp only [List.length_cons, List.replicate_succ, List.cons_append, isEditScript,
      decide_True, Bool.true_and]
    exact ih t a b

theorem isEditScript_insert_run {α : Type} [DecidableEq α] (Y : List (Option α)) :
    ∀ (t : List Tag) (a b : List (Option α)),
      isEditScript (List.replicate Y.length Tag.insert ++ t) a (Y ++ b)
        = isEditScript t a b := by
  induction Y with
  | nil =>
    intro t a b
    simp
  | cons y Y ih =>
    intro t a b
    simp only [List.length_cons, List.replicate_succ, List.cons_append]
    cases a <;> simp only [isEditScript] <;> exact ih t _ b

theorem isEditScript_delete_run {α : Type} [DecidableEq α] (X : List (Option α)) :
    ∀ (t : List Tag) (a b : List (Option α)),
      isEditScript (List.replicate X.length Tag.delete ++ t) (X ++ a) b
        = isEditScript t a b := by
  induction X with
  | nil =>
    intro t a b
    simp
  | cons x X ih =>
    intro t a b
    simp only [List.length_cons, List.replicate_succ, List.cons_append]
    cases b <;> simp only [isEditScript] <;> exact ih t a _

/-- Under the default comparator, `findFirstDifferenceIndex` returns `-1`
only for identical arrays. -/
theorem eq_of_findFirstDifferenceIndex_neg {α : Type} [DecidableEq α]
    (old new : List (Option α)) (h : findFirstDifferenceIndex old new defaultCmp = -1) :
    old = new := by
  obtain ⟨hlen, hall⟩ := findFirstDifferenceIndex_neg old new defaultCmp h
  have ht := take_eq_of_agree old new old.length hall
  rw [List.take_of_length_le (le_refl _), List.take_of_length_le (by omega)] at ht
  exact ht

/-- With the default comparator the atomic output of `fastDiff` is a valid
edit script from `old` to `new`. -/
theorem fastDiff_atomic_isEditScript {α : Type} [DecidableEq α] (old new : List (Option α)) :
    isEditScript (fastDiff old new defaultCmp true) old new = true := by
  show isEditScript (changeIndexesToAtomicChanges
      (findChangeBoundaryIndexes old new defaultCmp) new.length) old new = true
  by_cases h : findFirstDifferenceIndex old new defaultCmp = -1
  · have heq := eq_of_findFirstDifferenceIndex_neg old new h
    subst heq
    have hci : findChangeBoundaryIndexes old old defaultCmp
        = { firstIndex := -1, lastIndexOld := -1, lastIndexNew := -1 } := by
      unfold findChangeBoundaryIndexes
      simp only [h, if_true]
    rw [hci]
    have h1 : changeIndexesToAtomicChanges
        { firstIndex := -1, lastIndexOld := -1, lastIndexNew := -1 } old.length
        = List.replicate old.length Tag.equal ++ [] := by
      simp [changeIndexesToAtomicChanges, jsFill]
    have h2 := isEditScript_equal_run old [] [] []
    rw [List.append_nil, List.append_nil] at h2
    rw [h1, List.append_nil, h2]
    rfl
  · obtain ⟨P, X, Y, S, ha, hb, hci⟩ := findChangeBoundaryIndexes_split old new h
    have hruns := changeIndexesToAtomicChanges_runs old.length new.length P.length S.length
      (by rw [ha]; simp only [List.length_append]; omega)
      (by rw [hb]; simp only [List.length_append]; omega)
    have e1 : (old.length : Int) - S.length = (P.length : Int) + X.length := by
      rw [ha]
      simp only [List.length_append]
      push_cast
      omega
    have e2 : (new.length : Int) - S.length = (P.length : Int) + Y.length := by
      rw [hb]
      simp only [List.length_append]
      push_cast
      omega
    rw [e1, e2] at hruns
    rw [hci, hruns]
    have e3 : new.length - S.length - P.length = Y.length := by
      rw [hb]
      simp only [List.length_append]
      omega
    have e4 : old.length - S.length - P.length = X.length := by
      rw [ha]
      simp only [List.length_append]
      omega
    rw [e3, e4]
    conv_lhs => rw [ha, hb]
    rw [List.append_assoc, List.append_assoc, List.append_assoc P, List.append_assoc P,
      isEditScript_equal_run, isEditScript_insert_run, isEditScript_delete_run]
    have h2 := isEditScript_equal_run S [] [] []
    rw [List.append_nil, List.append_nil] at h2
    rw [h2]
    rfl

/-! ## Patch correctness and minimality of `diff` -/

/-- **C2** Patch correctness of `diff`: for all sequences `old` and `new` of any
lengths (on both the exact and the heuristic path) and the default equality,
`diff` returns a tag list, and applying the change list obtained from it by
`diffToChanges` to `old` from left to right yields exactly `new`. -/
theorem diff_patch_correct {α : Type} [DecidableEq α] (old new : List (Option α)) :
    ∃ t : List Tag, diff old new defaultCmp = some t ∧
      applyChanges old (diffToChanges t new) = new := by
  by_cases hbig : useFastDiff old.length new.length = true
  · refine ⟨fastDiff old new defaultCmp true, ?_, ?_⟩
    · unfold diff diffFuel
      simp only [hbig, if_true]
    · exact diffToChanges_correct old new _ (fastDiff_atomic_isEditScript old new)
  · obtain ⟨t, h1, h2, _⟩ := diff_exact old new (by simpa using hbig)
    exact ⟨t, h1, diffToChanges_correct old new t h2⟩

/-- The elements kept by a valid edit script form a common subsequence. -/
theorem isEditScript_sublist {α : Type} [DecidableEq α] (t : List Tag) :
    ∀ old new : List (Option α), isEditScript t old new = true →
      ∃ c : List (Option α), c.Sublist old ∧ c.Sublist new ∧
        c.length = t.count Tag.equal := by
  induction t with
  | nil =>
    intro old new h
    exact ⟨[], List.nil_sublist _, List.nil_sublist _, rfl⟩
  | cons tag t ih =>
    intro old new h
    cases tag with
    | equal =>
      cases old with
      | nil => cases new <;> simp [isEditScript] at h
      | cons x old =>
        cases new with
        | nil => simp [isEditScript] at h
        | cons y new =>
          simp only [isEditScript, Bool.and_eq_true, decide_eq_true_eq] at h
          obtain ⟨hxy, h⟩ := h
          subst hxy
          obtain ⟨c, h1, h2, h3⟩ := ih old new h
          exact ⟨x :: c, h1.cons₂ x, h2.cons₂ x, by simp [h3]⟩
    | insert =>
      cases new with
      | nil => cases old <;> simp [isEditScript] at h
      | cons y new =>
        have h' : isEditScript t old new = true := by
          cases old <;> simpa [isEditScript] using h
        obtain ⟨c, h1, h2, h3⟩ := ih old new h'
        exact ⟨c, h1, h2.cons y, by simp [h3]⟩
    | delete =>
      cases old with
      | nil => cases new <;> simp [isEditScript] at h
      | cons x old =>
        have h' : isEditScript t old new = true := by
          cases new <;> simpa [isEditScript] using h
        obtain ⟨c, h1, h2, h3⟩ := ih old new h'
        exact ⟨c, h1.cons x, h2, by simp [h3]⟩

/-- Every common subsequence is kept by some valid edit script. -/
theorem exists_isEditScript_of_sublist {α : Type} [DecidableEq α] (old : List (Option α)) :
    ∀ c new : List (Option α), c.Sublist old → c.Sublist new →
      ∃ t : List Tag, isEditScript t old new = true ∧ t.count Tag.equal = c.length := by
  induction old with
  | nil =>
    intro c new h1 _
    have hc : c = [] := List.sublist_nil.mp h1
    subst hc
    refine ⟨List.replicate new.length Tag.insert, ?_, ?_⟩
    · have := isEditScript_insert_run new [] [] []
      rw [List.append_nil, List.append_nil] at this
      rw [this]
      rfl
    · rw [List.count_replicate]
      simp
  | cons x old ih =>
    intro c new h1 h2
    rcases List.sublist_cons_iff.mp h1 with hskip | ⟨c', hc, hc'⟩
    · obtain ⟨t, ht1, ht2⟩ := ih c new hskip h2
      refine ⟨Tag.delete :: t, ?_, by simpa using ht2⟩
      cases new <;> simpa [isEditScript] using ht1
    · subst hc
      induction new with
      | nil => simp at h2
      | cons y new ihn =>
        rcases List.sublist_cons_iff.mp h2 with hskip | ⟨c'', hc2, hc''⟩
        · obtain ⟨t, ht1, ht2⟩ := ihn hskip
          exact ⟨Tag.insert :: t, by simpa [isEditScript] using ht1, by simpa using ht2⟩
        · injection hc2 with hxy hcc
          subst hxy hcc
          obtain ⟨t, ht1, ht2⟩ := ih c' new hc' hc''
          exact ⟨Tag.equal :: t, by simpa [isEditScript] using ht1, by simp [ht2]⟩

/-- **C3** Minimality of the exact path: for `old` and `new` within the size
limits (`len(old) ≤ 200`, `len(new) ≤ 200`, `len(old) + len(new) ≤ 300`) and
the default equality, `diff` returns a valid edit script whose number of
`insert` plus `delete` tags is no larger than that of any valid edit script,
and equals `len(old) + len(new) - 2 * LCS(old, new)`, where `LCS` is the
length of a longest common subsequence. -/
theorem diff_minimal {α : Type} [DecidableEq α] (old new : List (Option α))
    (h1 : old.length ≤ 200) (h2 : new.length ≤ 200) (h3 : old.length + new.length ≤ 300) :
    ∃ t : List Tag, diff old new defaultCmp = some t ∧
      isEditScript t old new = true ∧
      (∀ t' : List Tag, isEditScript t' old new = true → editCount t ≤ editCount t') ∧
      ∃ c : List (Option α), IsLongestCommonSubsequence c old new ∧
        editCount t + 2 * c.length = old.length + new.length := by
  have hsmall : useFastDiff old.length new.length = false := by
    unfold useFastDiff
    simp only [Bool.or_eq_false_iff, decide_eq_false_iff_not]
    omega
  obtain ⟨t, ht1, ht2, ht3⟩ := diff_exact old new hsmall
  refine ⟨t, ht1, ht2, ht3, ?_⟩
  obtain ⟨c, hc1, hc2, hc3⟩ := isEditScript_sublist t old new ht2
  have hcnt := isEditScript_counts t old new ht2
  refine ⟨c, ⟨hc1, hc2, ?_⟩, ?_⟩
  · intro c' hc1' hc2'
    obtain ⟨t', ht1', ht2'⟩ := exists_isEditScript_of_sublist old c' new hc1' hc2'
    have hle := ht3 t' ht1'
    have hcnt' := isEditScript_counts t' old new ht1'
    unfold editCount at hle
    omega
  · unfold editCount
    omega

/-- Instance of **C3** at `old = "ac"`, `new = "abc"`. -/
theorem diff_minimal_witness :
    (chars "ac").length ≤ 200 ∧ (chars "abc").length ≤ 200 ∧
    (chars "ac").length + (chars "abc").length ≤ 300 ∧
    ∃ t : List Tag, diff (chars "ac") (chars "abc") defaultCmp = some t ∧
      isEditScript t (chars "ac") (chars "abc") = true ∧
      (∀ t' : List Tag, isEditScript t' (chars "ac") (chars "abc") = true →
        editCount t ≤ editCount t') ∧
      ∃ c : List (Option Char), IsLongestCommonSubsequence c (chars "ac") (chars "abc") ∧
        editCount t + 2 * c.length = (chars "ac").length + (chars "abc").length :=
  ⟨by decide, by decide, by decide,
    diff_minimal (chars "ac") (chars "abc") (by decide) (by decide) (by decide)⟩

/-! ## Identical sequences -/

/-- On an array without `undefined` slots and with a comparator that accepts
every element against itself, `findFirstDifferenceIndex(s, s)` is `-1`. -/
theorem findFirstDifferenceIndex_self {α : Type} (s : List (Option α))
    (cmp : Option α → Option α → Bool) (hdef : ∀ x ∈ s, x ≠ none)
    (hrefl : ∀ x ∈ s, cmp x x = true) : findFirstDifferenceIndex s s cmp = -1 := by
  by_contra h
  obtain ⟨q, _, _, _, hq, hnA, _⟩ := findFirstDifferenceIndex_nonneg s s cmp h
  apply hnA
  have hq' : q < s.length := by simpa using hq
  have hget : jsGet s (q : Int) = s[q] := by
    rw [jsGet_natCast, List.getElem?_eq_getElem hq']
    rfl
  have hmem : s[q] ∈ s := List.getElem_mem hq'
  unfold Agree
  rw [hget, hrefl _ hmem]
  have := hdef _ hmem
  cases hs : s[q] with
  | none => exact absurd hs this
  | some v => rfl

/-- On an array without `undefined` slots and with a comparator that accepts
every element against itself, `fastDiff(s, s)` is the empty change list and
its atomic form is `len(s)` tags `equal`. -/
theorem fastDiff_self {α : Type} (s : List (Option α))
    (cmp : Option α → Option α → Bool) (hdef : ∀ x ∈ s, x ≠ none)
    (hrefl : ∀ x ∈ s, cmp x x = true) :
    fastDiff s s cmp false = [] ∧
    fastDiff s s cmp true = List.replicate s.length Tag.equal := by
  have h := findFirstDifferenceIndex_self s cmp hdef hrefl
  have hci : findChangeBoundaryIndexes s s cmp
      = { firstIndex := -1, lastIndexOld := -1, lastIndexNew := -1 } := by
    unfold findChangeBoundaryIndexes
    simp only [h, if_true]
  constructor
  · show changeIndexesToChanges s (findChangeBoundaryIndexes s s cmp) = []
    rw [hci]
    simp [changeIndexesToChanges]
  · show changeIndexesToAtomicChanges (findChangeBoundaryIndexes s s cmp) s.length = _
    rw [hci]
    simp [changeIndexesToAtomicChanges, jsFill]

/-- With a comparator that accepts every element of `s` against itself, the
first call of `snake` in `diff(s, s)` runs down the whole diagonal: the loop
exits in round `p = 0` with the script of `len(s)` tags `equal`. -/
theorem myersCore_self {α : Type} (s : List (Option α))
    (cmp : Option α → Option α → Bool) (hrefl : ∀ x ∈ s, cmp x x = true)
    (tInsert tDelete : Tag) (fuel : Nat) :
    diffLoop s s cmp tInsert tDelete (fuel + 1) 0 { es := fun _ => none, fp := fun _ => none }
      = some (snakeStep s s cmp tInsert tDelete { es := fun _ => none, fp := fun _ => none } 0) ∧
    myersCore (fuel + 1) s s cmp tInsert tDelete = some (List.replicate s.length Tag.equal) := by
  obtain ⟨c, hc1, hc2, hc3⟩ := snakeStep_at s s cmp tInsert tDelete
    { es := fun _ => none, fp := fun _ => none } 0 (-1) []
    (by simp [fpOr]) (Or.inr (Or.inr ⟨rfl, rfl, rfl⟩))
  have e1 : fpOr (fun _ => none) ((0 : Int) - 1) = -1 := rfl
  have e2 : fpOr (fun _ => none) ((0 : Int) + 1) = -1 := rfl
  simp only at hc1 hc2 hc3
  rw [e1, e2] at hc1 hc2 hc3
  have hmax : max ((-1 : Int) + 1) (-1) = 0 := by decide
  have hgt : (-1 : Int) + 1 > -1 := by decide
  rw [hmax] at hc1 hc3
  simp only [hgt, if_true, List.nil_append, zero_add, sub_zero] at hc1 hc2 hc3
  have hcn : c = s.length := by
    obtain ⟨hrun, hstop⟩ := hc3
    have h1 : c ≤ s.length := by
      by_contra hlt
      have := (hrun s.length (by omega)).1
      omega
    have h2 : s.length ≤ c := by
      by_contra hlt
      apply hstop
      have hc' : c < s.length := by omega
      refine ⟨by simp; omega, by simp; omega, ?_⟩
      have hget : jsGet s ((0 : Int) + (c : Int)) = s[c] := by
        rw [zero_add, jsGet_natCast, List.getElem?_eq_getElem hc']
        rfl
      rw [zero_add] at hget ⊢
      rw [hget]
      exact hrefl _ (List.getElem_mem hc')
    omega
  subst hcn
  have hround : diffRound s s cmp tInsert tDelete 0 { es := fun _ => none, fp := fun _ => none }
      = snakeStep s s cmp tInsert tDelete { es := fun _ => none, fp := fun _ => none } 0 := by
    simp [diffRound, diagonalsBelow, diagonalsAbove]
  have hloop : diffLoop s s cmp tInsert tDelete (fuel + 1) 0
      { es := fun _ => none, fp := fun _ => none }
      = some (snakeStep s s cmp tInsert tDelete { es := fun _ => none, fp := fun _ => none } 0) := by
    unfold diffLoop
    simp only [hround]
    have e : (s.length : Int) - (s.length : Int) = 0 := by omega
    rw [e, hc1]
    simp
  refine ⟨hloop, ?_⟩
  unfold myersCore
  rw [hloop]
  have e : (s.length : Int) - (s.length : Int) = 0 := by omega
  simp only [e, hc2]
  simp

/-- With a comparator that accepts every element of `s` against itself (and,
for arrays so long that the heuristic path is taken, without `undefined`
slots), `diff(s, s)` is the script of `len(s)` tags `equal`, whose grouped
change list is empty. -/
theorem diff_self {α : Type} (s : List (Option α))
    (cmp : Option α → Option α → Bool) (hrefl : ∀ x ∈ s, cmp x x = true)
    (hdef : useFastDiff s.length s.length = true → ∀ x ∈ s, x ≠ none) :
    diff s s cmp = some (List.replicate s.length Tag.equal) ∧
    diffToChanges (List.replicate s.length Tag.equal) s = [] := by
  constructor
  · unfold diff diffFuel
    by_cases hbig : useFastDiff s.length s.length = true
    · simp only [hbig, if_true]
      rw [(fastDiff_self s cmp (hdef hbig) hrefl).2]
    · simp only [hbig, if_false, lt_self_iff_false]
      exact (myersCore_self s cmp hrefl Tag.insert Tag.delete _).2
  · have := diffToChanges_runs s s.length 0 0 0
    simpa using this

/-- **C4** The identity law fails on an array that holds `undefined`: for
`s = [undefined]` and the default equality, `findFirstDifferenceIndex(s, s)`
is `0` instead of `-1`, and `fastDiff(s, s)` is an insert followed by a
delete instead of the empty list, while the exact path of `diff(s, s)` returns
the single tag `equal`. -/
theorem fastDiff_self_undefined :
    findFirstDifferenceIndex ([none] : List (Option Char)) [none] defaultCmp = 0 ∧
    fastDiff ([none] : List (Option Char)) [none] defaultCmp false
      = [Change.insert 0 [none], Change.delete 1 1] ∧
    fastDiff ([none] : List (Option Char)) [none] defaultCmp true
      = [Tag.insert, Tag.delete] ∧
    diff ([none] : List (Option Char)) [none] defaultCmp = some [Tag.equal] := by
  decide

/-! ## The scenario `"ac"` → `"abc"` -/

/-- **C5** (as amended) For `old = "ac"`, `new = "abc"` and the default equality,
`diff` returns the tag list `['equal', 'insert', 'equal']`; grouping it with
`diffToChanges` gives the list with exactly one element, the operation
`{type: 'insert', index: 1, values: ['b']}`. -/
theorem diff_ac_abc :
    diff (chars "ac") (chars "abc") defaultCmp = some [Tag.equal, Tag.insert, Tag.equal] ∧
    diffToChanges [Tag.equal, Tag.insert, Tag.equal] (chars "abc")
      = [Change.insert 1 [some 'b']] := by
  decide

/-- **C5** (as stated) The value returned by `diff("ac", "abc")` is not a list
with exactly one element: it has three. -/
theorem diff_ac_abc_not_singleton :
    ¬ ∃ t : List Tag, diff (chars "ac") (chars "abc") defaultCmp = some t ∧ t.length = 1 := by
  intro ⟨t, h1, h2⟩
  have h3 : diff (chars "ac") (chars "abc") defaultCmp
      = some [Tag.equal, Tag.insert, Tag.equal] := by decide
  rw [h3] at h1
  injection h1 with h1
  subst h1
  simp at h2

/-! ## Length of the atomic output of `fastDiff` -/

/-- **C7** (as amended) For every `old`, `new` and comparator, the tag list
`fastDiff(old, new, eq, true)` has length `len(new)` plus the number of its
`delete` tags, which is `lastIndexOld - firstIndex` of the change boundary;
so it has length exactly `len(new)` when nothing is deleted. -/
theorem fastDiff_atomic_length {α : Type} (old new : List (Option α))
    (cmp : Option α → Option α → Bool) :
    (fastDiff old new cmp true).length
      = new.length + (fastDiff old new cmp true).count Tag.delete ∧
    ((fastDiff old new cmp true).count Tag.delete : Int)
      = (findChangeBoundaryIndexes old new cmp).lastIndexOld
        - (findChangeBoundaryIndexes old new cmp).firstIndex := by
  show (changeIndexesToAtomicChanges (findChangeBoundaryIndexes old new cmp) new.length).length
      = new.length + (changeIndexesToAtomicChanges
          (findChangeBoundaryIndexes old new cmp) new.length).count Tag.delete ∧
    ((changeIndexesToAtomicChanges
          (findChangeBoundaryIndexes old new cmp) new.length).count Tag.delete : Int)
      = (findChangeBoundaryIndexes old new cmp).lastIndexOld
        - (findChangeBoundaryIndexes old new cmp).firstIndex
  rcases findChangeBoundaryIndexes_cases old new cmp with
    ⟨_, hci, _, _⟩ | ⟨f, l, _, hci, hla, hlb, _⟩
  · rw [hci]
    simp [changeIndexesToAtomicChanges, jsFill, List.count_replicate]
  · rw [hci, changeIndexesToAtomicChanges_runs old.length new.length f l hla hlb]
    simp only [List.length_append, List.length_replicate, List.count_append,
      List.count_replicate]
    simp
    omega

/-- **C7** (as stated) The atomic output can be longer than `new`: for
`old = "a"` and `new = ""` it is the single tag `delete`. -/
theorem fastDiff_atomic_length_counterexample :
    (fastDiff (chars "a") (chars "") defaultCmp true).length ≠ (chars "").length := by
  decide

/-! ## Well-formed change operations -/

theorem pushLast_wellFormed {α : Type} (st : GroupState α)
    (h1 : ∀ c ∈ st.changes, c.WellFormed)
    (h2 : ∀ op, st.lastOperation = some op → op.WellFormed) :
    (∀ c ∈ (pushLast st).changes, c.WellFormed) ∧ (pushLast st).lastOperation = none := by
  obtain ⟨changes, index, lastOp⟩ := st
  cases lastOp with
  | none => exact ⟨h1, rfl⟩
  | some op =>
    refine ⟨?_, rfl⟩
    intro c hc
    simp only [pushLast, List.mem_append, List.mem_singleton] at hc
    rcases hc with hc | hc
    · exact h1 c hc
    · rw [hc]
      exact h2 op rfl

theorem groupStep_wellFormed {α : Type} (output : List (Option α)) (st : GroupState α)
    (tag : Tag) (h1 : ∀ c ∈ st.changes, c.WellFormed)
    (h2 : ∀ op, st.lastOperation = some op → op.WellFormed) :
    (∀ c ∈ (groupStep output st tag).changes, c.WellFormed) ∧
    (∀ op, (groupStep output st tag).lastOperation = some op → op.WellFormed) := by
  obtain ⟨hp1, hp2⟩ := pushLast_wellFormed st h1 h2
  obtain ⟨changes, index, lastOp⟩ := st
  cases tag with
  | equal =>
    refine ⟨hp1, ?_⟩
    intro op hop
    have : (groupStep output ⟨changes, index, lastOp⟩ Tag.equal).lastOperation
        = (pushLast ⟨changes, index, lastOp⟩).lastOperation := rfl
    rw [this, hp2] at hop
    cases hop
  | insert =>
    cases lastOp with
    | none =>
      refine ⟨h1, ?_⟩
      intro op hop
      simp [groupStep, isContinuationOf, pushLast] at hop
      rw [← hop]
      simp [Change.WellFormed]
    | some op0 =>
      cases op0 with
      | insert i vals =>
        refine ⟨h1, ?_⟩
        intro op hop
        simp [groupStep, isContinuationOf, Change.type] at hop
        rw [← hop]
        simp [Change.WellFormed]
      | delete i c =>
        refine ⟨?_, ?_⟩
        · simpa [groupStep, isContinuationOf, Change.type, pushLast] using hp1
        · intro op hop
          simp [groupStep, isContinuationOf, Change.type, pushLast] at hop
          rw [← hop]
          simp [Change.WellFormed]
  | delete =>
    cases lastOp with
    | none =>
      refine ⟨h1, ?_⟩
      intro op hop
      simp [groupStep, isContinuationOf, pushLast] at hop
      rw [← hop]
      simp [Change.WellFormed]
    | some op0 =>
      cases op0 with
      | insert i vals =>
        refine ⟨?_, ?_⟩
        · simpa [groupStep, isContinuationOf, Change.type, pushLast] using hp1
        · intro op hop
          simp [groupStep, isContinuationOf, Change.type, pushLast] at hop
          rw [← hop]
          simp [Change.WellFormed]
      | delete i c =>
        refine ⟨h1, ?_⟩
        intro op hop
        simp [groupStep, isContinuationOf, Change.type] at hop
        rw [← hop]
        have := h2 _ rfl
        simp only [Change.WellFormed] at this ⊢
        omega

theorem foldl_groupStep_wellFormed {α : Type} (output : List (Option α)) (t : List Tag) :
    ∀ st : GroupState α, (∀ c ∈ st.changes, c.WellFormed) →
      (∀ op, st.lastOperation = some op → op.WellFormed) →
      (∀ c ∈ (t.foldl (groupStep output) st).changes, c.WellFormed) ∧
      (∀ op, (t.foldl (groupStep output) st).lastOperation = some op → op.WellFormed) := by
  induction t with
  | nil =>
    intro st h1 h2
    exact ⟨h1, h2⟩
  | cons tag t ih =>
    intro st h1 h2
    obtain ⟨h3, h4⟩ := groupStep_wellFormed output st tag h1 h2
    exact ih _ h3 h4

/-- **C9** Well-formed change operations: for every `old`, `new`, comparator
and tag list `t`, every insert in `fastDiff(old, new, eq, false)` and in
`diffToChanges(t, new)` has a non-empty `values` list and every delete has
`howMany > 0`. -/
theorem changes_wellFormed {α : Type} (old new : List (Option α))
    (cmp : Option α → Option α → Bool) (t : List Tag) :
    (∀ c ∈ fastDiff old new cmp false, c.WellFormed) ∧
    (∀ c ∈ diffToChanges t new, c.WellFormed) := by
  constructor
  · show ∀ c ∈ changeIndexesToChanges new (findChangeBoundaryIndexes old new cmp),
      c.WellFormed
    rcases findChangeBoundaryIndexes_cases old new cmp with
      ⟨_, hci, _, _⟩ | ⟨f, l, _, hci, hla, hlb, _⟩
    · rw [hci]
      simp [changeIndexesToChanges]
    · rw [hci, changeIndexesToChanges_runs new old.length f l hla hlb]
      intro c hc
      simp only [List.mem_append] at hc
      rcases hc with hc | hc
      · by_cases h : 0 < new.length - l - f
        · simp only [h, if_true, List.mem_singleton] at hc
          rw [hc]
          simp only [Change.WellFormed]
          intro hnil
          have := congrArg List.length hnil
          simp only [List.length_take, List.length_drop, List.length_nil] at this
          omega
        · simp only [h, if_false, List.not_mem_nil] at hc
      · by_cases h : 0 < old.length - l - f
        · simp only [h, if_true, List.mem_singleton] at hc
          rw [hc]
          simp only [Change.WellFormed]
          omega
        · simp only [h, if_false, List.not_mem_nil] at hc
  · unfold diffToChanges
    obtain ⟨h1, h2⟩ := foldl_groupStep_wellFormed new t
      { changes := [], index := 0, lastOperation := none }
      (by intro c hc; cases hc) (by intro op hop; cases hop)
    exact (pushLast_wellFormed _ h1 h2).1

/-! ## Dispatch thresholds -/

/-- **C10** Dispatch thresholds: if `len(old) > 200` or `len(new) > 200` or
`len(old) + len(new) > 300` then `diff(old, new, eq)` is the atomic output
`fastDiff(old, new, eq, true)` of the heuristic path, and otherwise it is the
result of the exact path; in particular inputs of lengths 200 and 100 take
the exact path and inputs of lengths 200 and 101 the heuristic path. -/
theorem diff_dispatch {α : Type} (old new : List (Option α))
    (cmp : Option α → Option α → Bool) :
    ((old.length > 200 ∨ new.length > 200 ∨ old.length + new.length > 300) →
      diff old new cmp = some (fastDiff old new cmp true)) ∧
    (¬ (old.length > 200 ∨ new.length > 200 ∨ old.length + new.length > 300) →
      diff old new cmp =
        if new.length < old.length then
          myersCore (old.length + new.length + 1) new old cmp Tag.delete Tag.insert
        else
          myersCore (old.length + new.length + 1) old new cmp Tag.insert Tag.delete) ∧
    ((old.length = 200 ∧ new.length = 100) →
      diff old new cmp
        = myersCore (old.length + new.length + 1) new old cmp Tag.delete Tag.insert) ∧
    ((old.length = 200 ∧ new.length = 101) →
      diff old new cmp = some (fastDiff old new cmp true)) := by
  have hbig : (old.length > 200 ∨ new.length > 200 ∨ old.length + new.length > 300) →
      diff old new cmp = some (fastDiff old new cmp true) := by
    intro h
    have hu : useFastDiff old.length new.length = true := by
      unfold useFastDiff
      simp only [Bool.or_eq_true, decide_eq_true_eq]
      omega
    unfold diff diffFuel
    simp only [hu, if_true]
  have hsmall : ¬ (old.length > 200 ∨ new.length > 200 ∨ old.length + new.length > 300) →
      diff old new cmp =
        if new.length < old.length then
          myersCore (old.length + new.length + 1) new old cmp Tag.delete Tag.insert
        else
          myersCore (old.length + new.length + 1) old new cmp Tag.insert Tag.delete := by
    intro h
    have hu : useFastDiff old.length new.length = false := by
      unfold useFastDiff
      simp only [Bool.or_eq_false_iff, decide_eq_false_iff_not]
      omega
    unfold diff diffFuel
    simp only [hu, Bool.false_eq_true, if_false]
  refine ⟨hbig, hsmall, ?_, ?_⟩
  · intro ⟨h1, h2⟩
    rw [hsmall (by omega), if_pos (by omega)]
  · intro ⟨h1, h2⟩
    exact hbig (by omega)

/-- Instance of **C10**: an input of lengths 201 and 0 takes the heuristic
path, whose atomic output is 201 tags `delete`. -/
theorem diff_dispatch_witness :
    diff (List.replicate 201 (some 'a')) (chars "") defaultCmp
      = some (fastDiff (List.replicate 201 (some 'a')) (chars "") defaultCmp true) :=
  (diff_dispatch (List.replicate 201 (some 'a')) (chars "") defaultCmp).1
    (Or.inl (by rw [List.length_replicate]; omega))

/-! ## Shape of the grouped output of `fastDiff` -/

theorem agree_cons {α : Type} (x y : Option α) (xs ys : List (Option α))
    (cmp : Option α → Option α → Bool) (j : Nat) :
    Agree (x :: xs) (y :: ys) cmp (j + 1) ↔ Agree xs ys cmp j := by
  apply Agree.of_jsGet_eq
  · rw [jsGet_natCast, jsGet_natCast]
    simp
  · rw [jsGet_natCast, jsGet_natCast]
    simp

theorem agree_zero {α : Type} (x y : Option α) (xs ys : List (Option α))
    (cmp : Option α → Option α → Bool) (hx : x ≠ none) (hy : y ≠ none) :
    Agree (x :: xs) (y :: ys) cmp 0 ↔ cmp x y = true := by
  unfold Agree
  have e1 : jsGet (x :: xs) ((0 : Nat) : Int) = x := by
    rw [jsGet_natCast]
    simp
  have e2 : jsGet (y :: ys) ((0 : Nat) : Int) = y := by
    rw [jsGet_natCast]
    simp
  rw [e1, e2]
  cases x with
  | none => exact absurd rfl hx
  | some v =>
    cases y with
    | none => exact absurd rfl hy
    | some w => simp

/-- On arrays without `undefined` slots the arrays agree below the length of
their longest common head, and not at it. -/
theorem commonHeadLength_spec {α : Type} (cmp : Option α → Option α → Bool)
    (a : List (Option α)) : ∀ b : List (Option α),
    (∀ x ∈ a, x ≠ none) → (∀ x ∈ b, x ≠ none) →
    (∀ j, j < commonHeadLength cmp a b → Agree a b cmp j) ∧
    ¬ Agree a b cmp (commonHeadLength cmp a b) := by
  induction a with
  | nil =>
    intro b _ _
    refine ⟨?_, ?_⟩
    · intro j hj
      simp [commonHeadLength] at hj
    · intro h
      have := h.lt_left
      simp at this
  | cons x xs ih =>
    intro b ha hb
    cases b with
    | nil =>
      refine ⟨?_, ?_⟩
      · intro j hj
        simp [commonHeadLength] at hj
      · intro h
        have := h.lt_right
        simp at this
    | cons y ys =>
      have hx : x ≠ none := ha x (List.mem_cons_self _ _)
      have hy : y ≠ none := hb y (List.mem_cons_self _ _)
      obtain ⟨ih1, ih2⟩ := ih ys (fun z hz => ha z (List.mem_cons_of_mem _ hz))
        (fun z hz => hb z (List.mem_cons_of_mem _ hz))
      by_cases hc : cmp x y = true
      · simp only [commonHeadLength, hc, if_true]
        refine ⟨?_, ?_⟩
        · intro j hj
          cases j with
          | zero => exact (agree_zero x y xs ys cmp hx hy).mpr hc
          | succ j => exact (agree_cons x y xs ys cmp j).mpr (ih1 j (by omega))
        · intro h
          exact ih2 ((agree_cons x y xs ys cmp _).mp h)
      · simp only [commonHeadLength, hc, Bool.false_eq_true, if_false]
        refine ⟨?_, ?_⟩
        · intro j hj
          omega
        · intro h
          exact hc ((agree_zero x y xs ys cmp hx hy).mp h)

/-- The first position at which two arrays do not agree is unique. -/
theorem first_disagreement_unique {α : Type} {a b : List (Option α)}
    {cmp : Option α → Option α → Bool} {f p : Nat}
    (hf1 : ¬ Agree a b cmp f) (hf2 : ∀ j, j < f → Agree a b cmp j)
    (hp1 : ¬ Agree a b cmp p) (hp2 : ∀ j, j < p → Agree a b cmp j) : f = p := by
  by_contra hne
  rcases Nat.lt_or_gt_of_ne hne with h | h
  · exact hf1 (hp2 f h)
  · exact hp1 (hf2 p h)

/-- On arrays without `undefined` slots the grouped output of `fastDiff` has
the shape described by the specification, for every comparator. -/
theorem fastDiff_shape {α : Type} (old new : List (Option α))
    (cmp : Option α → Option α → Bool)
    (hold : ∀ x ∈ old, x ≠ none) (hnew : ∀ x ∈ new, x ≠ none) :
    fastDiff old new cmp false = groupedShape cmp old new := by
  show changeIndexesToChanges new (findChangeBoundaryIndexes old new cmp)
    = groupedShape cmp old new
  obtain ⟨hp2, hp1⟩ := commonHeadLength_spec cmp old new hold hnew
  rcases findChangeBoundaryIndexes_cases old new cmp with
    ⟨_, hci, hlen, hall⟩ | ⟨f, l, _, hci, hla, hlb, _, hf1, hf2, hl1, hl2⟩
  · have hp : commonHeadLength cmp old new = old.length := by
      by_contra hne
      rcases Nat.lt_or_gt_of_ne hne with h | h
      · exact hp1 (hall _ h)
      · have := (hp2 old.length h).lt_left
        omega
    rw [hci]
    unfold groupedShape commonTailLength
    simp only [hp]
    rw [List.drop_eq_nil_of_le (le_refl _), List.drop_eq_nil_of_le (by omega)]
    have h1 : ¬ (new.length - commonHeadLength cmp ([] : List (Option α)).reverse
        ([] : List (Option α)).reverse > old.length) := by
      simp [commonHeadLength]
      omega
    have h2 : ¬ (old.length - commonHeadLength cmp ([] : List (Option α)).reverse
        ([] : List (Option α)).reverse > old.length) := by
      simp [commonHeadLength]
    simp only [h1, h2, if_false]
    simp [changeIndexesToChanges]
  · have hfp : f = commonHeadLength cmp old new := first_disagreement_unique hf1 hf2 hp1 hp2
    obtain ⟨hs2, hs1⟩ := commonHeadLength_spec cmp (old.drop f).reverse (new.drop f).reverse
      (fun x hx => hold x (List.mem_of_mem_drop (List.mem_reverse.mp hx)))
      (fun x hx => hnew x (List.mem_of_mem_drop (List.mem_reverse.mp hx)))
    have hls : l = commonHeadLength cmp (old.drop f).reverse (new.drop f).reverse :=
      first_disagreement_unique hl1 hl2 hs1 hs2
    rw [hci, changeIndexesToChanges_runs new old.length f l hla hlb]
    unfold groupedShape commonTailLength
    simp only [← hfp, ← hls]
    have c1 : (0 < new.length - l - f) ↔ (new.length - l > f) := by omega
    have c2 : (0 < old.length - l - f) ↔ (old.length - l > f) := by omega
    have e1 : (f : Int) + ((new.length - l - f : Nat) : Int) = ((new.length - l : Nat) : Int) := by
      omega
    simp only [c1, c2, e1]

/-- **C8** The shape law fails on arrays that hold `undefined`: for
`old = new = [undefined]` and the default equality the two sequences are equal
(their longest common head under the equality has length 1), so the described
shape is the empty list, but `fastDiff` returns an insert at index 0 followed
by a delete at index 1.  The scenario of the specification,
`fastDiff("aba", "acca")`, has the described shape. -/
theorem fastDiff_shape_undefined :
    commonHeadLength defaultCmp ([none] : List (Option Char)) [none] = 1 ∧
    groupedShape defaultCmp ([none] : List (Option Char)) [none] = [] ∧
    fastDiff ([none] : List (Option Char)) [none] defaultCmp false
      = [Change.insert 0 [none], Change.delete 1 1] ∧
    fastDiff (chars "aba") (chars "acca") defaultCmp false
      = [Change.insert 1 [some 'c', some 'c'], Change.delete 3 1] ∧
    groupedShape defaultCmp (chars "aba") (chars "acca")
      = [Change.insert 1 [some 'c', some 'c'], Change.delete 3 1] := by
  decide

/-! ## Tag counts of the scripts of the exact path -/

theorem length_eq_counts (t : List Tag) :
    t.length = t.count Tag.equal + t.count Tag.insert + t.count Tag.delete := by
  induction t with
  | nil => rfl
  | cons x t ih =>
    cases x <;> simp [ih] <;> omega

/-- The tags of a walk count its steps: the steps `tDelete` and `equal` make
up `x`, the steps `tInsert` and `equal` make up `y`. -/
theorem Reach.counts {α : Type} {a b : List (Option α)} {cmp : Option α → Option α → Bool}
    {tInsert tDelete : Tag} {s : List Tag} {x y d : Nat}
    (h1 : tInsert ≠ tDelete) (h2 : tInsert ≠ Tag.equal) (h3 : tDelete ≠ Tag.equal)
    (h : Reach a b cmp tInsert tDelete s x y d) :
    s.count tDelete = d ∧ s.count Tag.equal + d = x ∧
      s.count Tag.equal + s.count tInsert = y := by
  induction h with
  | nil => simp
  | ins _ ih =>
    obtain ⟨i1, i2, i3⟩ := ih
    simp only [List.count_append, List.count_cons, List.count_nil, beq_iff_eq]
    simp only [h1, h2, h1.symm, h2.symm, if_false, if_true, add_zero, zero_add]
    omega
  | del _ ih =>
    obtain ⟨i1, i2, i3⟩ := ih
    simp only [List.count_append, List.count_cons, List.count_nil, beq_iff_eq]
    simp only [h1, h3, h1.symm, h3.symm, if_false, if_true, add_zero, zero_add]
    omega
  | eq _ _ _ _ ih =>
    obtain ⟨i1, i2, i3⟩ := ih
    simp only [List.count_append, List.count_cons, List.count_nil, beq_iff_eq]
    simp only [h2, h3, h2.symm, h3.symm, if_false, if_true, add_zero, zero_add]
    omega

/-- When the comparator rejects every pair of elements, a walk has no step
`equal`. -/
theorem Reach.count_equal_zero {α : Type} {a b : List (Option α)}
    {cmp : Option α → Option α → Bool} {tInsert tDelete : Tag} {s : List Tag} {x y d : Nat}
    (h2 : tInsert ≠ Tag.equal) (h3 : tDelete ≠ Tag.equal)
    (hdis : ∀ u ∈ a, ∀ v ∈ b, cmp u v = false)
    (h : Reach a b cmp tInsert tDelete s x y d) : s.count Tag.equal = 0 := by
  induction h with
  | nil => rfl
  | ins _ ih =>
    simp only [List.count_append, List.count_cons, List.count_nil, beq_iff_eq, ih]
    simp [h2, h2.symm]
  | del _ ih =>
    simp only [List.count_append, List.count_cons, List.count_nil, beq_iff_eq, ih]
    simp [h3, h3.symm]
  | @eq s x y d _ hx hy hc _ =>
    exfalso
    have e1 : jsGet a (x : Int) = a[x] := by
      rw [jsGet_natCast, List.getElem?_eq_getElem hx]
      rfl
    have e2 : jsGet b (y : Int) = b[y] := by
      rw [jsGet_natCast, List.getElem?_eq_getElem hy]
      rfl
    rw [e1, e2, hdis _ (List.getElem_mem hx) _ (List.getElem_mem hy)] at hc
    cases hc

/-- The exact path of `diff` when `new` is not shorter than `old`: the result
is a walk to the sink in the edit graph of `old` and `new`. -/
theorem diffFuel_plain {α : Type} (old new : List (Option α))
    (cmp : Option α → Option α → Bool)
    (hsmall : useFastDiff old.length new.length = false) (hle : old.length ≤ new.length)
    (fuel : Nat) (hfuel : old.length + 1 ≤ fuel) :
    ∃ (s : List Tag) (d : Nat), diffFuel fuel old new cmp = some s ∧
      Reach old new cmp Tag.insert Tag.delete s old.length new.length d := by
  obtain ⟨s, d, h1, h2, _⟩ := @myersCore_spec α old new cmp Tag.insert Tag.delete hle fuel hfuel
  refine ⟨s, d, ?_, h2⟩
  unfold diffFuel
  have hlt : ¬ (new.length < old.length) := by omega
  simp only [hsmall, Bool.false_eq_true, if_false, hlt, h1]

/-- The exact path of `diff` when `new` is shorter than `old`: the result is a
walk to the sink in the edit graph of `new` and `old`, with the tags exchanged. -/
theorem diffFuel_swapped {α : Type} (old new : List (Option α))
    (cmp : Option α → Option α → Bool)
    (hsmall : useFastDiff old.length new.length = false) (hlt : new.length < old.length)
    (fuel : Nat) (hfuel : new.length + 1 ≤ fuel) :
    ∃ (s : List Tag) (d : Nat), diffFuel fuel old new cmp = some s ∧
      Reach new old cmp Tag.delete Tag.insert s new.length old.length d := by
  obtain ⟨s, d, h1, h2, _⟩ := @myersCore_spec α new old cmp Tag.delete Tag.insert
    (by omega) fuel hfuel
  refine ⟨s, d, ?_, h2⟩
  unfold diffFuel
  simp only [hsmall, Bool.false_eq_true, if_false, hlt, if_true, h1]

theorem useFastDiff_eq_false {m n : Nat} (h1 : m ≤ 200) (h2 : n ≤ 200) (h3 : m + n ≤ 300) :
    useFastDiff m n = false := by
  unfold useFastDiff
  simp only [Bool.or_eq_false_iff, decide_eq_false_iff_not]
  omega

/-- **C11** Disjoint sequences: for `old` of length `m` and `new` of length `n`
within the limits of the exact path, when the comparator rejects every pair
made of an element of one sequence and an element of the other,
`diff(old, new, eq)` consists of exactly `m + n` tags, none of them `equal`:
exactly `n` tags `insert` and `m` tags `delete`. -/
theorem diff_disjoint {α : Type} (old new : List (Option α))
    (cmp : Option α → Option α → Bool)
    (h1 : old.length ≤ 200) (h2 : new.length ≤ 200) (h3 : old.length + new.length ≤ 300)
    (hdis : ∀ u ∈ old, ∀ v ∈ new, cmp u v = false ∧ cmp v u = false) :
    ∃ t : List Tag, diff old new cmp = some t ∧ t.length = old.length + new.length ∧
      t.count Tag.equal = 0 ∧ t.count Tag.insert = new.length ∧
      t.count Tag.delete = old.length := by
  have hsmall := useFastDiff_eq_false h1 h2 h3
  by_cases hlt : new.length < old.length
  · obtain ⟨s, d, hs, hr⟩ := diffFuel_swapped old new cmp hsmall hlt
      (old.length + new.length + 1) (by omega)
    have hz := hr.count_equal_zero (by decide) (by decide)
      (fun u hu v hv => (hdis v hv u hu).2)
    obtain ⟨c1, c2, c3⟩ := hr.counts (by decide) (by decide) (by decide)
    refine ⟨s, hs, ?_, hz, by omega, by omega⟩
    rw [length_eq_counts]
    omega
  · obtain ⟨s, d, hs, hr⟩ := diffFuel_plain old new cmp hsmall (by omega)
      (old.length + new.length + 1) (by omega)
    have hz := hr.count_equal_zero (by decide) (by decide)
      (fun u hu v hv => (hdis u hu v hv).1)
    obtain ⟨c1, c2, c3⟩ := hr.counts (by decide) (by decide) (by decide)
    refine ⟨s, hs, ?_, hz, by omega, by omega⟩
    rw [length_eq_counts]
    omega

/-- Instance of **C11** at `old = "ab"`, `new = "c"`. -/
theorem diff_disjoint_witness :
    ∃ t : List Tag, diff (chars "ab") (chars "c") defaultCmp = some t ∧
      t.length = (chars "ab").length + (chars "c").length ∧
      t.count Tag.equal = 0 ∧ t.count Tag.insert = (chars "c").length ∧
      t.count Tag.delete = (chars "ab").length :=
  diff_disjoint (chars "ab") (chars "c") defaultCmp (by decide) (by decide) (by decide)
    (by decide)

/-! ## Totality of `diff` -/

/-- When the `do ... while` loop exits, `fp[delta]` is `n`. -/
theorem diffLoop_fp {α : Type} (a b : List (Option α)) (cmp : Option α → Option α → Bool)
    (tInsert tDelete : Tag) (fuel : Nat) :
    ∀ (p : Nat) (st0 st : MyersState),
      diffLoop a b cmp tInsert tDelete fuel p st0 = some st →
      st.fp ((b.length : Int) - a.length) = some (b.length : Int) := by
  induction fuel with
  | zero =>
    intro p st0 st h
    simp [diffLoop] at h
  | succ fuel ih =>
    intro p st0 st h
    unfold diffLoop at h
    by_cases hne : (diffRound a b cmp tInsert tDelete p st0).fp ((b.length : Int) - a.length)
        ≠ some (b.length : Int)
    · rw [if_pos hne] at h
      exact ih _ _ _ h
    · rw [if_neg hne] at h
      injection h with h
      rw [← h]
      exact not_not.mp hne

/-- Allowing more rounds does not change the result of a loop that exits. -/
theorem diffLoop_mono {α : Type} (a b : List (Option α)) (cmp : Option α → Option α → Bool)
    (tInsert tDelete : Tag) (fuel : Nat) :
    ∀ (p : Nat) (st0 st : MyersState) (extra : Nat),
      diffLoop a b cmp tInsert tDelete fuel p st0 = some st →
      diffLoop a b cmp tInsert tDelete (fuel + extra) p st0 = some st := by
  induction fuel with
  | zero =>
    intro p st0 st extra h
    simp [diffLoop] at h
  | succ fuel ih =>
    intro p st0 st extra h
    have e : fuel + 1 + extra = (fuel + extra) + 1 := by omega
    rw [e]
    unfold diffLoop at h ⊢
    by_cases hne : (diffRound a b cmp tInsert tDelete p st0).fp ((b.length : Int) - a.length)
        ≠ some (b.length : Int)
    · rw [if_pos hne] at h ⊢
      exact ih _ _ _ extra h
    · rw [if_neg hne] at h ⊢
      exact h

theorem myersCore_mono {α : Type} (a b : List (Option α)) (cmp : Option α → Option α → Bool)
    (tInsert tDelete : Tag) (fuel extra : Nat) (t : List Tag)
    (h : myersCore fuel a b cmp tInsert tDelete = some t) :
    myersCore (fuel + extra) a b cmp tInsert tDelete = some t := by
  unfold myersCore at h ⊢
  cases hl : diffLoop a b cmp tInsert tDelete fuel 0 { es := fun _ => none, fp := fun _ => none } with
  | none =>
    rw [hl] at h
    cases h
  | some st =>
    rw [hl] at h
    rw [diffLoop_mono a b cmp tInsert tDelete fuel 0 _ st extra hl]
    exact h

theorem diffFuel_mono {α : Type} (old new : List (Option α))
    (cmp : Option α → Option α → Bool) (fuel extra : Nat) (t : List Tag)
    (h : diffFuel fuel old new cmp = some t) :
    diffFuel (fuel + extra) old new cmp = some t := by
  unfold diffFuel at h ⊢
  by_cases hbig : useFastDiff old.length new.length = true
  · simp only [hbig, if_true] at h ⊢
    exact h
  · simp only [hbig, if_false] at h ⊢
    by_cases hlt : new.length < old.length
    · simp only [hlt, if_true] at h ⊢
      exact myersCore_mono _ _ _ _ _ _ _ _ h
    · simp only [hlt, if_false] at h ⊢
      exact myersCore_mono _ _ _ _ _ _ _ _ h

/-- The loop of the exact path, run on sequences in order (`a` the shorter
one), exits within `m + 1` rounds with `fp[delta] = n` and `es[delta]` present. -/
theorem diffLoop_exits {α : Type} (a b : List (Option α)) (cmp : Option α → Option α → Bool)
    (tInsert tDelete : Tag) (hmn : a.length ≤ b.length) :
    ∃ (st : MyersState) (s : List Tag),
      diffLoop a b cmp tInsert tDelete (a.length + 1) 0
        { es := fun _ => none, fp := fun _ => none } = some st ∧
      st.fp ((b.length : Int) - a.length) = some (b.length : Int) ∧
      st.es ((b.length : Int) - a.length) = some s := by
  obtain ⟨st, s, d, h1, h2, _⟩ := @diffLoop_spec α a b cmp tInsert tDelete hmn
    (a.length + 1) 0 _ (startInv_init a b cmp tInsert tDelete)
    (furthest_init a b cmp tInsert tDelete _) (Nat.zero_le _) (by omega)
  exact ⟨st, tInsert :: s, h1, diffLoop_fp _ _ _ _ _ _ _ _ _ h1, h2⟩

/-- Every call of `diff` returns: within `min(m, n) + 1` rounds on the exact
path, at once on the heuristic path. -/
theorem diffFuel_total {α : Type} (old new : List (Option α))
    (cmp : Option α → Option α → Bool) :
    ∃ t : List Tag, diffFuel (min old.length new.length + 1) old new cmp = some t := by
  by_cases hbig : useFastDiff old.length new.length = true
  · refine ⟨fastDiff old new cmp true, ?_⟩
    unfold diffFuel
    simp only [hbig, if_true]
  · by_cases hlt : new.length < old.length
    · obtain ⟨s, _, hs, _⟩ := diffFuel_swapped old new cmp (by simpa using hbig) hlt
        (min old.length new.length + 1) (by omega)
      exact ⟨s, hs⟩
    · obtain ⟨s, _, hs, _⟩ := diffFuel_plain old new cmp (by simpa using hbig) (by omega)
        (min old.length new.length + 1) (by omega)
      exact ⟨s, hs⟩

/-- **C12** Totality of `diff`: for all `old`, `new` (empty ones included) and
every comparator, `diff` returns a tag list; with `m = min(len(old), len(new))`
and `n = max(len(old), len(new))`, the `do ... while` loop of the exact path,
run on the sequences as `diff` orders them, exits after at most `m + 1` rounds
(no later than round `p = m`) with `fp[delta] = n` and with `es[delta]`
present, and allowing more rounds does not change the result. -/
theorem diff_total {α : Type} (old new : List (Option α))
    (cmp : Option α → Option α → Bool) :
    (∃ t : List Tag, diff old new cmp = some t ∧
      ∀ fuel : Nat, min old.length new.length + 1 ≤ fuel →
        diffFuel fuel old new cmp = some t) ∧
    (old.length ≤ new.length →
      ∃ (st : MyersState) (s : List Tag),
        diffLoop old new cmp Tag.insert Tag.delete (old.length + 1) 0
          { es := fun _ => none, fp := fun _ => none } = some st ∧
        st.fp ((new.length : Int) - old.length) = some (new.length : Int) ∧
        st.es ((new.length : Int) - old.length) = some s) ∧
    (new.length < old.length →
      ∃ (st : MyersState) (s : List Tag),
        diffLoop new old cmp Tag.delete Tag.insert (new.length + 1) 0
          { es := fun _ => none, fp := fun _ => none } = some st ∧
        st.fp ((old.length : Int) - new.length) = some (old.length : Int) ∧
        st.es ((old.length : Int) - new.length) = some s) := by
  refine ⟨?_, ?_, ?_⟩
  · obtain ⟨t, ht⟩ := diffFuel_total old new cmp
    have hmono : ∀ fuel : Nat, min old.length new.length + 1 ≤ fuel →
        diffFuel fuel old new cmp = some t := by
      intro fuel hfuel
      have := diffFuel_mono old new cmp _ (fuel - (min old.length new.length + 1)) t ht
      have e : min old.length new.length + 1 + (fuel - (min old.length new.length + 1))
          = fuel := by omega
      rw [e] at this
      exact this
    exact ⟨t, hmono (old.length + new.length + 1) (by omega), hmono⟩
  · intro hle
    exact diffLoop_exits old new cmp Tag.insert Tag.delete hle
  · intro hlt
    exact diffLoop_exits new old cmp Tag.delete Tag.insert (by omega)

/-- Instance of **C12** at `old = "ac"`, `new = "abc"`: the loop exits within
`len(old) + 1 = 3` rounds. -/
theorem diff_total_witness :
    ∃ (st : MyersState) (s : List Tag),
      diffLoop (chars "ac") (chars "abc") defaultCmp Tag.insert Tag.delete
        ((chars "ac").length + 1) 0 { es := fun _ => none, fp := fun _ => none } = some st ∧
      st.fp (((chars "abc").length : Int) - (chars "ac").length)
        = some ((chars "abc").length : Int) ∧
      st.es (((chars "abc").length : Int) - (chars "ac").length) = some s :=
  (diff_total (chars "ac") (chars "abc") defaultCmp).2.1 (by decide)

/-! ## The change boundary -/

/-- **C13** Change-boundary invariant: for every `old`, `new` and comparator
for which `findChangeBoundaryIndexes` does not return the sentinel, the result
satisfies `0 ≤ firstIndex ≤ lastIndexOld ≤ len(old)` and
`firstIndex ≤ lastIndexNew ≤ len(new)`. -/
theorem changeBoundary_invariant {α : Type} (old new : List (Option α))
    (cmp : Option α → Option α → Bool)
    (h : (findChangeBoundaryIndexes old new cmp).firstIndex ≠ -1) :
    0 ≤ (findChangeBoundaryIndexes old new cmp).firstIndex ∧
    (findChangeBoundaryIndexes old new cmp).firstIndex
      ≤ (findChangeBoundaryIndexes old new cmp).lastIndexOld ∧
    (findChangeBoundaryIndexes old new cmp).lastIndexOld ≤ (old.length : Int) ∧
    (findChangeBoundaryIndexes old new cmp).firstIndex
      ≤ (findChangeBoundaryIndexes old new cmp).lastIndexNew ∧
    (findChangeBoundaryIndexes old new cmp).lastIndexNew ≤ (new.length : Int) := by
  rcases findChangeBoundaryIndexes_cases old new cmp with
    ⟨_, hci, _, _⟩ | ⟨f, l, _, hci, hla, hlb, _⟩
  · rw [hci] at h
    exact absurd rfl h
  · rw [hci]
    simp only
    omega

/-- Instance of **C13** at `old = "aba"`, `new = "acca"`. -/
theorem changeBoundary_invariant_witness :
    0 ≤ (findChangeBoundaryIndexes (chars "aba") (chars "acca") defaultCmp).firstIndex ∧
    (findChangeBoundaryIndexes (chars "aba") (chars "acca") defaultCmp).firstIndex
      ≤ (findChangeBoundaryIndexes (chars "aba") (chars "acca") defaultCmp).lastIndexOld ∧
    (findChangeBoundaryIndexes (chars "aba") (chars "acca") defaultCmp).lastIndexOld
      ≤ ((chars "aba").length : Int) ∧
    (findChangeBoundaryIndexes (chars "aba") (chars "acca") defaultCmp).firstIndex
      ≤ (findChangeBoundaryIndexes (chars "aba") (chars "acca") defaultCmp).lastIndexNew ∧
    (findChangeBoundaryIndexes (chars "aba") (chars "acca") defaultCmp).lastIndexNew
      ≤ ((chars "acca").length : Int) :=
  changeBoundary_invariant (chars "aba") (chars "acca") defaultCmp (by decide)

/-! ## The first difference -/

/-- On arrays without `undefined` slots, the loop of `findFirstDifferenceIndex`
goes on at a position exactly when neither sequence is exhausted there and the
comparator accepts the pair. -/
theorem agree_iff_not_differs {α : Type} (old new : List (Option α))
    (cmp : Option α → Option α → Bool) (hold : ∀ x ∈ old, x ≠ none)
    (hnew : ∀ x ∈ new, x ≠ none) (i : Nat) :
    Agree old new cmp i ↔ ¬ Differs cmp old new i := by
  unfold Differs
  constructor
  · intro h
    have h1 := h.lt_left
    have h2 := h.lt_right
    have h3 := h.cmp_eq
    rw [h3]
    simp
    omega
  · intro h
    have h1 : i < old.length := by
      by_contra hc
      exact h (Or.inl (by omega))
    have h2 : i < new.length := by
      by_contra hc
      exact h (Or.inr (Or.inl (by omega)))
    have h3 : cmp (jsGet old i) (jsGet new i) = true := by
      by_contra hc
      exact h (Or.inr (Or.inr (by simpa using hc)))
    have e1 : jsGet old (i : Int) = old[i] := by
      rw [jsGet_natCast, List.getElem?_eq_getElem h1]
      rfl
    have e2 : jsGet new (i : Int) = new[i] := by
      rw [jsGet_natCast, List.getElem?_eq_getElem h2]
      rfl
    unfold Agree
    rw [h3, e1, e2]
    have d1 := hold _ (List.getElem_mem h1)
    have d2 := hnew _ (List.getElem_mem h2)
    cases ho : old[i] with
    | none => exact absurd ho d1
    | some v =>
      cases hn : new[i] with
      | none => exact absurd hn d2
      | some w => rfl

/-- On arrays without `undefined` slots, `findFirstDifferenceIndex` returns the
least position below `max(len(old), len(new))` at which a sequence is
exhausted or the comparator rejects the pair, and `-1` exactly when there is
none; in that case `findChangeBoundaryIndexes` returns the sentinel.  The
atomic form of the sentinel for a length `L` is `L` tags `equal`. -/
theorem findFirstDifferenceIndex_least {α : Type} (old new : List (Option α))
    (cmp : Option α → Option α → Bool) (hold : ∀ x ∈ old, x ≠ none)
    (hnew : ∀ x ∈ new, x ≠ none) :
    (findFirstDifferenceIndex old new cmp = -1 ↔
      ∀ i, i < max old.length new.length → ¬ Differs cmp old new i) ∧
    (∀ q : Nat, findFirstDifferenceIndex old new cmp = (q : Int) ↔
      (q < max old.length new.length ∧ Differs cmp old new q ∧
        ∀ j, j < q → ¬ Differs cmp old new j)) ∧
    (findFirstDifferenceIndex old new cmp = -1 →
      findChangeBoundaryIndexes old new cmp
        = { firstIndex := -1, lastIndexOld := -1, lastIndexNew := -1 }) ∧
    (∀ L : Nat, changeIndexesToAtomicChanges
        { firstIndex := -1, lastIndexOld := -1, lastIndexNew := -1 } L
      = List.replicate L Tag.equal) := by
  have hA := agree_iff_not_differs old new cmp hold hnew
  refine ⟨?_, ?_, ?_, ?_⟩
  · constructor
    · intro h i hi
      obtain ⟨hlen, hall⟩ := findFirstDifferenceIndex_neg old new cmp h
      exact (hA i).mp (hall i (by omega))
    · intro h
      by_contra hne
      obtain ⟨q, _, _, _, hq, hnA, _⟩ := findFirstDifferenceIndex_nonneg old new cmp hne
      exact hnA ((hA q).mpr (h q hq))
  · intro q
    constructor
    · intro h
      have hne : findFirstDifferenceIndex old new cmp ≠ -1 := by
        rw [h]
        omega
      obtain ⟨q', hq', _, _, hq, hnA, hall⟩ := findFirstDifferenceIndex_nonneg old new cmp hne
      have e : q' = q := by
        rw [h] at hq'
        omega
      subst e
      refine ⟨hq, ?_, fun j hj => (hA j).mp (hall j hj)⟩
      by_contra hc
      exact hnA ((hA q').mpr hc)
    · intro ⟨hq, hd, hall⟩
      have hne : findFirstDifferenceIndex old new cmp ≠ -1 := by
        intro hneg
        obtain ⟨hlen, hall'⟩ := findFirstDifferenceIndex_neg old new cmp hneg
        exact (hA q).mp (hall' q (by omega)) hd
      obtain ⟨q', hq', _, _, _, hnA, hall'⟩ := findFirstDifferenceIndex_nonneg old new cmp hne
      have e : q' = q := first_disagreement_unique hnA hall'
        (fun h => (hA q).mp h hd) (fun j hj => (hA j).mpr (hall j hj))
      rw [hq', e]
  · intro h
    unfold findChangeBoundaryIndexes
    simp only [h, if_true]
  · intro L
    simp [changeIndexesToAtomicChanges, jsFill]

/-- **C14** The first-difference law fails on arrays that hold `undefined`:
for `old = new = [undefined]` and the default equality no position is
exhausted or rejected by the equality, yet `findFirstDifferenceIndex` returns
`0` instead of `-1` and `findChangeBoundaryIndexes` does not return the
sentinel. -/
theorem findFirstDifferenceIndex_undefined :
    (∀ i, i < max ([none] : List (Option Char)).length ([none] : List (Option Char)).length →
      ¬ Differs defaultCmp ([none] : List (Option Char)) [none] i) ∧
    findFirstDifferenceIndex ([none] : List (Option Char)) [none] defaultCmp = 0 ∧
    findChangeBoundaryIndexes ([none] : List (Option Char)) [none] defaultCmp
      = { firstIndex := 0, lastIndexOld := 1, lastIndexNew := 1 } := by
  refine ⟨?_, by decide, by decide⟩
  intro i hi
  have hi0 : i = 0 := by
    simp at hi
    exact hi
  subst hi0
  unfold Differs
  decide

/-! ## Ties between the two candidates of `snake` -/

/-- **C15** (as amended) Tie-breaking in `snake(k)`: when the insert candidate
`y1 = fp[k-1] + 1` equals the delete candidate `y2 = fp[k+1]`, the delete
branch is taken: the script is inherited from diagonal `k + 1` and the tag
appended is the delete tag.  Observable on `diff("a", "b")` with the default
equality, which is `['insert', 'delete']`. -/
theorem snake_tie_delete {α : Type} (a b : List (Option α))
    (cmp : Option α → Option α → Bool) (tInsert tDelete : Tag) (st : MyersState) (k : Int)
    (base : List Tag) (htie : fpOr st.fp (k - 1) + 1 = fpOr st.fp (k + 1))
    (hbase : st.es (k + 1) = some base) :
    (∃ c : Nat,
      (snakeStep a b cmp tInsert tDelete st k).es k
        = some (base ++ [tDelete] ++ List.replicate c Tag.equal) ∧
      (snakeStep a b cmp tInsert tDelete st k).fp k = some (fpOr st.fp (k + 1) + c)) ∧
    diff (chars "a") (chars "b") defaultCmp = some [Tag.insert, Tag.delete] := by
  refine ⟨?_, by decide⟩
  have hgt : ¬ (fpOr st.fp (k - 1) + 1 > fpOr st.fp (k + 1)) := by omega
  obtain ⟨c, hc1, hc2, _⟩ := snakeStep_at a b cmp tInsert tDelete st k 1 base
    (by simp only [hgt, if_false]) (Or.inl hbase)
  refine ⟨c, ?_, ?_⟩
  · rw [hc2]
    simp only [hgt, if_false]
  · rw [hc1]
    congr 2
    omega

/-- Instance of **C15** (as amended) at the last call of `snake` in
`diff("a", "b")`. -/
theorem snake_tie_delete_witness :
    (∃ c : Nat,
      (snakeStep (chars "a") (chars "b") defaultCmp Tag.insert Tag.delete tieState 0).es 0
        = some ([Tag.insert, Tag.insert] ++ [Tag.delete] ++ List.replicate c Tag.equal) ∧
      (snakeStep (chars "a") (chars "b") defaultCmp Tag.insert Tag.delete tieState 0).fp 0
        = some (fpOr tieState.fp (0 + 1) + c)) ∧
    diff (chars "a") (chars "b") defaultCmp = some [Tag.insert, Tag.delete] :=
  snake_tie_delete (chars "a") (chars "b") defaultCmp Tag.insert Tag.delete tieState 0
    [Tag.insert, Tag.insert] (by decide) (by decide)

/-- **C15** (as stated) At the last call of `snake` in `diff("a", "b")` the two
candidates are equal (`fp[-1] + 1 = fp[1] = 1`), and the script of diagonal
`0` is not the script of diagonal `-1` followed by the insert tag: it is the
script of diagonal `1` followed by the delete tag. -/
theorem snake_tie_not_insert :
    fpOr tieState.fp (0 - 1) + 1 = fpOr tieState.fp (0 + 1) ∧
    tieState.es (0 - 1) = some [Tag.insert, Tag.delete] ∧
    tieState.es (0 + 1) = some [Tag.insert, Tag.insert] ∧
    (snakeStep (chars "a") (chars "b") defaultCmp Tag.insert Tag.delete tieState 0).es 0
      = some [Tag.insert, Tag.insert, Tag.delete] ∧
    ¬ ∃ c : Nat,
      (snakeStep (chars "a") (chars "b") defaultCmp Tag.insert Tag.delete tieState 0).es 0
        = some ([Tag.insert, Tag.delete] ++ [Tag.insert] ++ List.replicate c Tag.equal) := by
  refine ⟨by decide, by decide, by decide, by decide, ?_⟩
  intro ⟨c, hc⟩
  have h : (snakeStep (chars "a") (chars "b") defaultCmp Tag.insert Tag.delete tieState 0).es 0
      = some [Tag.insert, Tag.insert, Tag.delete] := by decide
  rw [h] at hc
  simp at hc

/-! ## Exchange of the two arguments of `diff` -/

theorem SnakeRun.unique {α : Type} {a b : List (Option α)} {cmp : Option α → Option α → Bool}
    {x y : Int} {c c' : Nat} (h : SnakeRun a b cmp x y c) (h' : SnakeRun a b cmp x y c') :
    c = c' := by
  by_contra hne
  rcases Nat.lt_or_gt_of_ne hne with hlt | hgt
  · exact h.2 (h'.1 c hlt)
  · exact h'.2 (h.1 c' hgt)

theorem fpOr_congr {fp fp' : Int → Option Int} (h : ∀ k, fp' k = fp k) (k : Int) :
    fpOr fp' k = fpOr fp k := by
  unfold fpOr
  rw [h k]

/-- A call of `snake` on two states that differ by an exchange of tags, made
with the tags exchanged, gives two states that differ by an exchange of tags. -/
theorem snakeStep_swap {α : Type} (a b : List (Option α)) (cmp : Option α → Option α → Bool)
    (tInsert tDelete : Tag) (st st' : MyersState) (k : Int) (h : SwapRel st st') :
    SwapRel (snakeStep a b cmp tInsert tDelete st k)
      (snakeStep a b cmp (swapTag tInsert) (swapTag tDelete) st' k) := by
  obtain ⟨hfp, hes⟩ := h
  have e1 := fpOr_congr hfp (k - 1)
  have e2 := fpOr_congr hfp (k + 1)
  -- the script from which both calls start
  have hbase : ∃ (dir : Int) (base : List Tag),
      dir = (if fpOr st.fp (k - 1) + 1 > fpOr st.fp (k + 1) then -1 else 1) ∧
      (st.es (k + dir) = some base ∨
        (st.es (k + dir) = none ∧ st.es k = some base) ∨
        (st.es (k + dir) = none ∧ st.es k = none ∧ base = [])) := by
    cases h1 : st.es (k + (if fpOr st.fp (k - 1) + 1 > fpOr st.fp (k + 1) then -1 else 1)) with
    | some s => exact ⟨_, s, rfl, Or.inl h1⟩
    | none =>
      cases h2 : st.es k with
      | some s => exact ⟨_, s, rfl, Or.inr (Or.inl ⟨h1, rfl⟩)⟩
      | none => exact ⟨_, [], rfl, Or.inr (Or.inr ⟨h1, rfl, rfl⟩)⟩
  obtain ⟨dir, base, hdir, hb⟩ := hbase
  have hb' : st'.es (k + dir) = some (base.map swapTag) ∨
      (st'.es (k + dir) = none ∧ st'.es k = some (base.map swapTag)) ∨
      (st'.es (k + dir) = none ∧ st'.es k = none ∧ base.map swapTag = []) := by
    rcases hb with hb | ⟨hb1, hb2⟩ | ⟨hb1, hb2, hb3⟩
    · left
      rw [hes, hb]
      rfl
    · right
      left
      exact ⟨by rw [hes, hb1]; rfl, by rw [hes, hb2]; rfl⟩
    · right
      right
      exact ⟨by rw [hes, hb1]; rfl, by rw [hes, hb2]; rfl, by rw [hb3]; rfl⟩
  obtain ⟨c, hc1, hc2, hc3⟩ := snakeStep_at a b cmp tInsert tDelete st k dir base hdir hb
  obtain ⟨c', hc1', hc2', hc3'⟩ := snakeStep_at a b cmp (swapTag tInsert) (swapTag tDelete)
    st' k dir (base.map swapTag) (by rw [e1, e2]; exact hdir) hb'
  rw [e1, e2] at hc1' hc2' hc3'
  have hcc : c' = c := hc3'.unique hc3
  subst hcc
  refine ⟨?_, ?_⟩
  · intro j
    by_cases hj : j = k
    · subst hj
      rw [hc1, hc1']
    · rw [snakeStep_fp_ne _ _ _ _ _ _ _ _ hj, snakeStep_fp_ne _ _ _ _ _ _ _ _ hj]
      exact hfp j
  · intro j
    by_cases hj : j = k
    · subst hj
      rw [hc2, hc2']
      simp only [Option.map_some', List.map_append, List.map_cons, List.map_nil,
        List.map_replicate, swapTag]
      congr 3
      by_cases hgt : fpOr st.fp (j - 1) + 1 > fpOr st.fp (j + 1)
      · simp only [hgt, if_true]
      · simp only [hgt, if_false]
    · rw [snakeStep_es_ne _ _ _ _ _ _ _ _ hj, snakeStep_es_ne _ _ _ _ _ _ _ _ hj]
      exact hes j

theorem foldl_snakeStep_swap {α : Type} (a b : List (Option α))
    (cmp : Option α → Option α → Bool) (tInsert tDelete : Tag) (ks : List Int) :
    ∀ st st' : MyersState, SwapRel st st' →
      SwapRel (ks.foldl (snakeStep a b cmp tInsert tDelete) st)
        (ks.foldl (snakeStep a b cmp (swapTag tInsert) (swapTag tDelete)) st') := by
  induction ks with
  | nil =>
    intro st st' h
    exact h
  | cons k ks ih =>
    intro st st' h
    exact ih _ _ (snakeStep_swap a b cmp tInsert tDelete st st' k h)

theorem diffRound_swap {α : Type} (a b : List (Option α))
    (cmp : Option α → Option α → Bool) (tInsert tDelete : Tag) (p : Nat)
    (st st' : MyersState) (h : SwapRel st st') :
    SwapRel (diffRound a b cmp tInsert tDelete p st)
      (diffRound a b cmp (swapTag tInsert) (swapTag tDelete) p st') := by
  unfold diffRound
  exact snakeStep_swap _ _ _ _ _ _ _ _
    (foldl_snakeStep_swap _ _ _ _ _ _ _ _ (foldl_snakeStep_swap _ _ _ _ _ _ _ _ h))

theorem diffLoop_swap {α : Type} (a b : List (Option α))
    (cmp : Option α → Option α → Bool) (tInsert tDelete : Tag) (fuel : Nat) :
    ∀ (p : Nat) (st st' : MyersState), SwapRel st st' →
      (diffLoop a b cmp tInsert tDelete fuel p st = none ∧
        diffLoop a b cmp (swapTag tInsert) (swapTag tDelete) fuel p st' = none) ∨
      (∃ r r' : MyersState, diffLoop a b cmp tInsert tDelete fuel p st = some r ∧
        diffLoop a b cmp (swapTag tInsert) (swapTag tDelete) fuel p st' = some r' ∧
        SwapRel r r') := by
  induction fuel with
  | zero =>
    intro p st st' _
    left
    exact ⟨rfl, rfl⟩
  | succ fuel ih =>
    intro p st st' h
    have hr := diffRound_swap a b cmp tInsert tDelete p st st' h
    unfold diffLoop
    have hfp := hr.1 ((b.length : Int) - a.length)
    by_cases hne : (diffRound a b cmp tInsert tDelete p st).fp ((b.length : Int) - a.length)
        ≠ some (b.length : Int)
    · have hne' : (diffRound a b cmp (swapTag tInsert) (swapTag tDelete) p st').fp
          ((b.length : Int) - a.length) ≠ some (b.length : Int) := by
        rw [hfp]
        exact hne
      rw [if_pos hne, if_pos hne']
      exact ih _ _ _ hr
    · have hne' : ¬ ((diffRound a b cmp (swapTag tInsert) (swapTag tDelete) p st').fp
          ((b.length : Int) - a.length) ≠ some (b.length : Int)) := by
        rw [hfp]
        exact hne
      rw [if_neg hne, if_neg hne']
      right
      exact ⟨_, _, rfl, rfl, hr⟩

/-- Running the exact path with the two tags exchanged exchanges the tags of
the result. -/
theorem myersCore_swap {α : Type} (a b : List (Option α))
    (cmp : Option α → Option α → Bool) (tInsert tDelete : Tag) (fuel : Nat) :
    myersCore fuel a b cmp (swapTag tInsert) (swapTag tDelete)
      = (myersCore fuel a b cmp tInsert tDelete).map (List.map swapTag) := by
  unfold myersCore
  rcases diffLoop_swap a b cmp tInsert tDelete fuel 0
      { es := fun _ => none, fp := fun _ => none }
      { es := fun _ => none, fp := fun _ => none } ⟨fun _ => rfl, fun _ => rfl⟩ with
    ⟨h1, h2⟩ | ⟨r, r', h1, h2, hrel⟩
  · rw [h1, h2]
    rfl
  · rw [h1, h2]
    simp only
    rw [hrel.2]
    cases r.es ((b.length : Int) - a.length) with
    | none => rfl
    | some s => simp [List.map_drop]

/-- **C16** The exchange of arguments keeps the caller's orientation: for `old`
and `new` within the limits of the exact path with `len(new) < len(old)` and
every comparator, `diff(old, new, eq)` is `diff(new, old, eq)` with every tag
`insert` replaced by `delete` and every tag `delete` by `insert`. -/
theorem diff_swap {α : Type} (old new : List (Option α))
    (cmp : Option α → Option α → Bool)
    (h1 : old.length ≤ 200) (h2 : new.length ≤ 200) (h3 : old.length + new.length ≤ 300)
    (hlt : new.length < old.length) :
    diff old new cmp = (diff new old cmp).map (List.map swapTag) := by
  have hs1 := useFastDiff_eq_false h1 h2 h3
  have hs2 : useFastDiff new.length old.length = false :=
    useFastDiff_eq_false h2 h1 (by omega)
  have hnlt : ¬ (old.length < new.length) := by omega
  have e : new.length + old.length + 1 = old.length + new.length + 1 := by omega
  unfold diff diffFuel
  simp only [hs1, hs2, Bool.false_eq_true, if_false, hlt, if_true, hnlt, e]
  exact myersCore_swap new old cmp Tag.insert Tag.delete _

/-- Instance of **C16** at `old = "abc"`, `new = "ac"`. -/
theorem diff_swap_witness :
    diff (chars "abc") (chars "ac") defaultCmp
      = (diff (chars "ac") (chars "abc") defaultCmp).map (List.map swapTag) :=
  diff_swap (chars "abc") (chars "ac") defaultCmp (by decide) (by decide) (by decide)
    (by decide)

/-! ## Tag counts of the result of `diff` -/

theorem groupStep_index {α : Type} (output : List (Option α)) (st : GroupState α)
    (tag : Tag) :
    (groupStep output st tag).index
      = st.index + (if tag = Tag.delete then 0 else 1) := by
  obtain ⟨changes, index, lastOp⟩ := st
  cases tag with
  | equal => cases lastOp <;> rfl
  | insert =>
    cases lastOp with
    | none => rfl
    | some op => cases op <;> simp [groupStep, isContinuationOf, Change.type, pushLast]
  | delete =>
    cases lastOp with
    | none => simp [groupStep, isContinuationOf, pushLast]
    | some op => cases op <;> simp [groupStep, isContinuationOf, Change.type, pushLast]

/-- The cursor `index` of `diffToChanges` has advanced by the number of tags
`equal` and `insert` seen. -/
theorem foldl_groupStep_index {α : Type} (output : List (Option α)) (t : List Tag) :
    ∀ st : GroupState α, (t.foldl (groupStep output) st).index
      = st.index + (t.count Tag.equal : Int) + (t.count Tag.insert : Int) := by
  induction t with
  | nil =>
    intro st
    simp
  | cons tag t ih =>
    intro st
    rw [List.foldl_cons, ih, groupStep_index]
    cases tag <;> simp <;> omega

/-- The atomic output of `fastDiff` accounts for every element of both
sequences, for every comparator. -/
theorem fastDiff_atomic_counts {α : Type} (old new : List (Option α))
    (cmp : Option α → Option α → Bool) :
    (fastDiff old new cmp true).count Tag.equal + (fastDiff old new cmp true).count Tag.insert
      = new.length ∧
    (fastDiff old new cmp true).count Tag.equal + (fastDiff old new cmp true).count Tag.delete
      = old.length := by
  show (changeIndexesToAtomicChanges (findChangeBoundaryIndexes old new cmp) new.length).count
        Tag.equal
      + (changeIndexesToAtomicChanges (findChangeBoundaryIndexes old new cmp) new.length).count
        Tag.insert = new.length ∧
    (changeIndexesToAtomicChanges (findChangeBoundaryIndexes old new cmp) new.length).count
        Tag.equal
      + (changeIndexesToAtomicChanges (findChangeBoundaryIndexes old new cmp) new.length).count
        Tag.delete = old.length
  rcases findChangeBoundaryIndexes_cases old new cmp with
    ⟨_, hci, hlen, _⟩ | ⟨f, l, _, hci, hla, hlb, _⟩
  · rw [hci]
    simp [changeIndexesToAtomicChanges, jsFill, List.count_replicate, hlen]
  · rw [hci, changeIndexesToAtomicChanges_runs old.length new.length f l hla hlb]
    simp only [List.count_append, List.count_replicate]
    simp
    omega

/-- **C17** Tag-count invariant of the script of `diff`: for all `old`, `new`
of any lengths and every comparator, in `diff(old, new, eq)` the number of tags
`equal` plus the number of tags `insert` is `len(new)` and the number of tags
`equal` plus the number of tags `delete` is `len(old)`; hence, whenever
`diffToChanges(diff(old, new, eq), new)` evaluates `output[index]` (it does so
on a tag `insert`, at the current cursor), the cursor is inside `new`. -/
theorem diff_tag_counts {α : Type} (old new : List (Option α))
    (cmp : Option α → Option α → Bool) :
    ∃ t : List Tag, diff old new cmp = some t ∧
      t.count Tag.equal + t.count Tag.insert = new.length ∧
      t.count Tag.equal + t.count Tag.delete = old.length ∧
      ∀ t1 t2 : List Tag, t = t1 ++ Tag.insert :: t2 →
        0 ≤ (t1.foldl (groupStep new)
            { changes := [], index := 0, lastOperation := none }).index ∧
        (t1.foldl (groupStep new)
            { changes := [], index := 0, lastOperation := none }).index
          < (new.length : Int) := by
  have hcounts : ∃ t : List Tag, diff old new cmp = some t ∧
      t.count Tag.equal + t.count Tag.insert = new.length ∧
      t.count Tag.equal + t.count Tag.delete = old.length := by
    by_cases hbig : useFastDiff old.length new.length = true
    · refine ⟨fastDiff old new cmp true, ?_, fastDiff_atomic_counts old new cmp⟩
      unfold diff diffFuel
      simp only [hbig, if_true]
    · by_cases hlt : new.length < old.length
      · obtain ⟨s, d, hs, hr⟩ := diffFuel_swapped old new cmp (by simpa using hbig) hlt
          (old.length + new.length + 1) (by omega)
        obtain ⟨c1, c2, c3⟩ := hr.counts (by decide) (by decide) (by decide)
        exact ⟨s, hs, by omega, by omega⟩
      · obtain ⟨s, d, hs, hr⟩ := diffFuel_plain old new cmp (by simpa using hbig) (by omega)
          (old.length + new.length + 1) (by omega)
        obtain ⟨c1, c2, c3⟩ := hr.counts (by decide) (by decide) (by decide)
        exact ⟨s, hs, by omega, by omega⟩
  obtain ⟨t, ht, hc1, hc2⟩ := hcounts
  refine ⟨t, ht, hc1, hc2, ?_⟩
  intro t1 t2 hsplit
  rw [foldl_groupStep_index]
  rw [hsplit] at hc1
  simp only [List.count_append, List.count_cons_self, List.count_cons] at hc1
  simp only [zero_add]
  constructor
  · omega
  · have : (Tag.insert == Tag.equal) = false := by decide
    simp only [this, Bool.false_eq_true, if_false, add_zero] at hc1
    omega

/-! ## Patching under a custom comparator -/

theorem take_drop_middle {α : Type} (P Y S : List (Option α)) :
    ((P ++ Y ++ S).drop P.length).take Y.length = Y := by
  rw [List.append_assoc, List.drop_left, List.take_left]

/-- The grouped changes of a boundary `(f, len(old) - l, len(new) - l)` keep
the first `f` and the last `l` elements of `old` and put the middle of `new`
between them. -/
theorem applyChanges_boundary {α : Type} (old new : List (Option α)) (f l : Nat)
    (ha : f + l ≤ old.length) (hb : f + l ≤ new.length) :
    applyChanges old (changeIndexesToChanges new
      { firstIndex := (f : Int), lastIndexOld := (old.length : Int) - l,
        lastIndexNew := (new.length : Int) - l })
    = old.take f ++ (new.drop f).take (new.length - l - f) ++ old.drop (old.length - l) := by
  have hold : old = old.take f ++ (old.drop f).take (old.length - l - f)
      ++ old.drop (old.length - l) := by
    have h1 : old.drop (old.length - l) = (old.drop f).drop (old.length - l - f) := by
      rw [List.drop_drop]
      congr 1
      omega
    rw [h1, List.append_assoc, List.take_append_drop, List.take_append_drop]
  have hlenP : (old.take f).length = f := by
    rw [List.length_take]
    omega
  have hlenX : ((old.drop f).take (old.length - l - f)).length = old.length - l - f := by
    rw [List.length_take, List.length_drop]
    omega
  have hlenY : ((new.drop f).take (new.length - l - f)).length = new.length - l - f := by
    rw [List.length_take, List.length_drop]
    omega
  have key := applyChanges_changeIndexesToChanges (old.take f)
    ((old.drop f).take (old.length - l - f)) ((new.drop f).take (new.length - l - f))
    (old.drop (old.length - l))
  rw [← hold, hlenP, hlenX, hlenY] at key
  have e1 : (f : Int) + ((old.length - l - f : Nat) : Int) = (old.length : Int) - l := by omega
  have e2 : (f : Int) + ((new.length - l - f : Nat) : Int) = (new.length : Int) - l := by omega
  rw [e1, e2] at key
  rw [← key]
  congr 1
  -- both change lists take the same slice of their array
  have e0 : (new.length : Int) - l = ((new.length - l : Nat) : Int) := by omega
  have s1 : jsSlice new (f : Int) ((new.length : Int) - l)
      = (new.drop f).take (new.length - l - f) := by
    rw [e0, jsSlice_eq new f (new.length - l) (by omega) (by omega)]
  have s2 : jsSlice (old.take f ++ (new.drop f).take (new.length - l - f)
        ++ old.drop (old.length - l)) (f : Int) ((new.length : Int) - l)
      = (new.drop f).take (new.length - l - f) := by
    rw [e0, jsSlice_eq _ f (new.length - l) (by omega) (by
      simp only [List.length_append, hlenP, hlenY, List.length_drop]
      omega)]
    have hmid := take_drop_middle (old.take f) ((new.drop f).take (new.length - l - f))
      (old.drop (old.length - l))
    rw [hlenP, hlenY] at hmid
    exact hmid
  unfold changeIndexesToChanges
  simp only [s1, s2]

/-- For every comparator, `fastDiff(old, new, eq, false)` applied to `old`
keeps a head and a tail of `old` whose elements the comparator accepts against
the elements of `new` at the same places, and takes the middle from `new`. -/
theorem applyChanges_fastDiff_regions {α : Type} (old new : List (Option α))
    (cmp : Option α → Option α → Bool) :
    ∃ f l : Nat, f + l ≤ old.length ∧ f + l ≤ new.length ∧
      applyChanges old (fastDiff old new cmp false)
        = old.take f ++ (new.drop f).take (new.length - l - f)
          ++ old.drop (old.length - l) ∧
      (∀ i, i < f → cmp (jsGet old i) (jsGet new i) = true) ∧
      (∀ i, new.length - l ≤ i → i < new.length →
        cmp (jsGet old ((i + old.length - new.length : Nat) : Int)) (jsGet new i) = true) := by
  rcases findChangeBoundaryIndexes_cases old new cmp with
    ⟨_, hci, hlen, hall⟩ | ⟨f, l, _, hci, hla, hlb, _, _, hf2, _, hl2⟩
  · refine ⟨old.length, 0, by omega, by omega, ?_, fun i hi => (hall i hi).cmp_eq, ?_⟩
    · show applyChanges old (changeIndexesToChanges new
        (findChangeBoundaryIndexes old new cmp)) = _
      rw [hci]
      have : new.length - 0 - old.length = 0 := by omega
      simp [changeIndexesToChanges, applyChanges, this]
      omega
    · intro i h1 h2
      omega
  · refine ⟨f, l, hla, hlb, ?_, fun i hi => (hf2 i hi).cmp_eq, ?_⟩
    · show applyChanges old (changeIndexesToChanges new
        (findChangeBoundaryIndexes old new cmp)) = _
      rw [hci]
      exact applyChanges_boundary old new f l hla hlb
    · intro i h1 h2
      have hq := (hl2 (new.length - 1 - i) (by omega)).cmp_eq
      rw [jsGet_reverse_drop old f _ (by omega), jsGet_reverse_drop new f _ (by omega)] at hq
      have e1 : old.length - 1 - (new.length - 1 - i) = i + old.length - new.length := by omega
      have e2 : new.length - 1 - (new.length - 1 - i) = i := by omega
      rw [e1, e2] at hq
      exact hq

/-- **C18** Patching under a custom comparator: for all `old`, `new` and every
comparator (which need not imply equality), applying
`fastDiff(old, new, eq, false)` to `old` yields a sequence `r` with
`len(r) = len(new)` such that at every index `i` either `r[i]` is `new[i]` or
`r[i]` is an element of `old` that `eq` accepts against `new[i]`; `r` need not
be `new` (with a comparator that accepts every pair, `"a"` is left as it is
for `new = "b"`). -/
theorem fastDiff_patch_custom {α : Type} (old new : List (Option α))
    (cmp : Option α → Option α → Bool) :
    (applyChanges old (fastDiff old new cmp false)).length = new.length ∧
    (∀ i : Nat, i < new.length →
      jsGet (applyChanges old (fastDiff old new cmp false)) i = jsGet new i ∨
      ∃ j : Nat, j < old.length ∧
        jsGet (applyChanges old (fastDiff old new cmp false)) i = jsGet old j ∧
        cmp (jsGet old j) (jsGet new i) = true) ∧
    applyChanges (chars "a") (fastDiff (chars "a") (chars "b") (fun _ _ => true) false)
      ≠ chars "b" := by
  obtain ⟨f, l, hla, hlb, hr, hhead, htail⟩ := applyChanges_fastDiff_regions old new cmp
  refine ⟨?_, ?_, by decide⟩
  · rw [hr]
    simp only [List.length_append, List.length_take, List.length_drop]
    omega
  · intro i hi
    rw [hr]
    have hlenP : (old.take f).length = f := by
      rw [List.length_take]
      omega
    have hlenY : ((new.drop f).take (new.length - l - f)).length = new.length - l - f := by
      rw [List.length_take, List.length_drop]
      omega
    by_cases h1 : i < f
    · right
      refine ⟨i, by omega, ?_, hhead i h1⟩
      rw [jsGet_natCast, jsGet_natCast, List.append_assoc,
        List.getElem?_append_left (by omega), List.getElem?_take_of_lt h1]
    · by_cases h2 : i < new.length - l
      · left
        rw [jsGet_natCast, jsGet_natCast,
          List.getElem?_append_left (by
            simp only [List.length_append, hlenP, hlenY]
            omega),
          List.getElem?_append_right (by omega), hlenP,
          List.getElem?_take_of_lt (by omega), List.getElem?_drop]
        congr 2
        omega
      · right
        refine ⟨i + old.length - new.length, by omega, ?_, htail i (by omega) hi⟩
        rw [jsGet_natCast, jsGet_natCast,
          List.getElem?_append_right (by
            simp only [List.length_append, hlenP, hlenY]
            omega),
          List.getElem?_drop]
        simp only [List.length_append, hlenP, hlenY]
        congr 2
        omega

/-! ## The comparisons made by `snake` -/

theorem diffRound_eq_foldl {α : Type} (a b : List (Option α))
    (cmp : Option α → Option α → Bool) (tInsert tDelete : Tag) (p : Nat) (st : MyersState) :
    diffRound a b cmp tInsert tDelete p st
      = (roundDiagonals p ((b.length : Int) - a.length)).foldl
          (snakeStep a b cmp tInsert tDelete) st := by
  unfold diffRound roundDiagonals
  simp only [List.foldl_append, List.foldl_cons, List.foldl_nil]

/-- The loop of `diff` returns the state at the start of the round after the
one in which it exits, and it has not exited in any round before. -/
theorem diffLoop_eq_stateAtRound {α : Type} (a b : List (Option α))
    (cmp : Option α → Option α → Bool) (tInsert tDelete : Tag) (fuel : Nat) :
    ∀ (p : Nat) (st : MyersState),
      diffLoop a b cmp tInsert tDelete fuel p (stateAtRound a b cmp tInsert tDelete p)
        = some st →
      ∃ q : Nat, p ≤ q ∧ q < p + fuel ∧ st = stateAtRound a b cmp tInsert tDelete (q + 1) ∧
        ∀ r, p ≤ r → r < q →
          (stateAtRound a b cmp tInsert tDelete (r + 1)).fp ((b.length : Int) - a.length)
            ≠ some (b.length : Int) := by
  induction fuel with
  | zero =>
    intro p st h
    simp [diffLoop] at h
  | succ fuel ih =>
    intro p st h
    unfold diffLoop at h
    by_cases hne : (diffRound a b cmp tInsert tDelete p
        (stateAtRound a b cmp tInsert tDelete p)).fp ((b.length : Int) - a.length)
        ≠ some (b.length : Int)
    · rw [if_pos hne] at h
      obtain ⟨q, h1, h2, h3, h4⟩ := ih (p + 1) st h
      refine ⟨q, by omega, by omega, h3, ?_⟩
      intro r hr1 hr2
      by_cases hrp : r = p
      · subst hrp
        exact hne
      · exact h4 r (by omega) hr2
    · rw [if_neg hne] at h
      injection h with h
      refine ⟨p, le_refl _, by omega, h.symm, ?_⟩
      intro r hr1 hr2
      omega

/-- A round that the loop enters starts from a state that satisfies the
invariant of the start of a round. -/
theorem stateAtRound_startInv {α : Type} (a b : List (Option α))
    (cmp : Option α → Option α → Bool) (tInsert tDelete : Tag) (hmn : a.length ≤ b.length)
    (p : Nat) :
    (∀ q, q < p →
      (stateAtRound a b cmp tInsert tDelete (q + 1)).fp ((b.length : Int) - a.length)
        ≠ some (b.length : Int)) →
    StartInv a b cmp tInsert tDelete p (stateAtRound a b cmp tInsert tDelete p) := by
  induction p with
  | zero =>
    intro _
    exact startInv_init a b cmp tInsert tDelete
  | succ p ih =>
    intro h
    have hS := ih (fun q hq => h q (by omega))
    exact (diffRound_inv hmn p _ hS).1.toStart hmn (h p (by omega))

/-- All comparisons of one run of the `while` loop are made at points at or
after its start and inside both sequences. -/
theorem snakeCalls_bounds {α : Type} (a b : List (Option α))
    (cmp : Option α → Option α → Bool) (m n : Int) (fuel : Nat) :
    ∀ (x y : Int) (pt : Int × Int), pt ∈ snakeCalls a b cmp m n fuel x y →
      x ≤ pt.1 ∧ pt.1 < m ∧ y ≤ pt.2 ∧ pt.2 < n := by
  induction fuel with
  | zero =>
    intro x y pt h
    simp [snakeCalls] at h
  | succ fuel ih =>
    intro x y pt h
    unfold snakeCalls at h
    by_cases hc : (decide (x < m) && decide (y < n)) = true
    · rw [if_pos hc] at h
      simp only [Bool.and_eq_true, decide_eq_true_eq] at hc
      rcases List.mem_cons.mp h with h1 | h1
      · rw [h1]
        simp only
        omega
      · by_cases hcmp : cmp (jsGet a x) (jsGet b y) = true
        · rw [if_pos hcmp] at h1
          have := ih _ _ _ h1
          omega
        · rw [if_neg hcmp] at h1
          cases h1
    · rw [if_neg hc] at h
      cases h

/-- The start point of `snake(k)` has non-negative coordinates as soon as each
neighbouring diagonal is empty or filled, and both are empty only for the very
first call. -/
theorem snakeStart_nonneg {α : Type} {a b : List (Option α)}
    {cmp : Option α → Option α → Bool} {tInsert tDelete : Tag}
    (QL QR : Nat → Nat → Nat → Prop) (st : MyersState) (k : Int)
    (hL : (st.fp (k - 1) = none ∧ st.es (k - 1) = none) ∨
      ∃ xl yl dl : Nat, Diag a b cmp tInsert tDelete st (k - 1) xl yl dl ∧ QL xl yl dl)
    (hR : (st.fp (k + 1) = none ∧ st.es (k + 1) = none) ∨
      ∃ xr yr dr : Nat, Diag a b cmp tInsert tDelete st (k + 1) xr yr dr ∧ QR xr yr dr)
    (h0 : st.fp (k - 1) = none → st.fp (k + 1) = none → k = 0 ∧ st.es 0 = none) :
    0 ≤ (snakeStart st k).1 ∧ 0 ≤ (snakeStart st k).2 := by
  unfold snakeStart
  simp only
  rcases hL with ⟨hl1, _⟩ | ⟨xl, yl, dl, hDl, _⟩
  · have e1 : fpOr st.fp (k - 1) = -1 := by simp [fpOr, hl1]
    rcases hR with ⟨hr1, _⟩ | ⟨xr, yr, dr, hDr, _⟩
    · have e2 : fpOr st.fp (k + 1) = -1 := by simp [fpOr, hr1]
      have hk := (h0 hl1 hr1).1
      rw [e1, e2, hk]
      decide
    · have e2 : fpOr st.fp (k + 1) = (yr : Int) := by simp [fpOr, hDr.1]
      have := hDr.2.1
      rw [e1, e2]
      omega
  · have e1 : fpOr st.fp (k - 1) = (yl : Int) := by simp [fpOr, hDl.1]
    have h1 := hDl.2.1
    rcases hR with ⟨hr1, _⟩ | ⟨xr, yr, dr, hDr, _⟩
    · have e2 : fpOr st.fp (k + 1) = -1 := by simp [fpOr, hr1]
      rw [e1, e2]
      omega
    · have e2 : fpOr st.fp (k + 1) = (yr : Int) := by simp [fpOr, hDr.1]
      have h2 := hDr.2.1
      rw [e1, e2]
      omega
/-- In the first `for` loop of a round, `snake(k)` starts from a point with
non-negative coordinates. -/
theorem mid1_start_nonneg {α : Type} {a b : List (Option α)} {cmp : Option α → Option α → Bool}
    {tInsert tDelete : Tag} (p : Nat) (st0 st : MyersState) (k : Int)
    (hS : StartInv a b cmp tInsert tDelete p st0)
    (hM : Mid1 a b cmp tInsert tDelete p st0 k st)
    (hk1 : -(p : Int) ≤ k) (hk2 : k < (b.length : Int) - a.length) :
    0 ≤ (snakeStart st k).1 ∧ 0 ≤ (snakeStart st k).2 := by
  obtain ⟨hS1, hS2⟩ := hS
  obtain ⟨hM1, hM2, hM3, hM4⟩ := hM
  have hL : (st.fp (k - 1) = none ∧ st.es (k - 1) = none) ∨
      ∃ xl yl dl : Nat, Diag a b cmp tInsert tDelete st (k - 1) xl yl dl ∧
        Bound a.length b.length (p : Int) (k - 1) xl yl dl := by
    by_cases hk : k = -(p : Int)
    · left
      have h1 := hM1 (k - 1) (Or.inl (by omega))
      have h2 := hS1 (k - 1) (by omega)
      exact ⟨by rw [h1.1, h2.1], by rw [h1.2, h2.2]⟩
    · right
      exact hM2 (k - 1) (by omega) (by omega)
  have hR : (st.fp (k + 1) = none ∧ st.es (k + 1) = none) ∨
      ∃ xr yr dr : Nat, Diag a b cmp tInsert tDelete st (k + 1) xr yr dr ∧
        (Bound a.length b.length ((p : Int) - 1) (k + 1) xr yr dr ∧
          xr < a.length ∧ yr < b.length) := by
    have h1 := hM1 (k + 1) (Or.inr (by omega))
    by_cases hp : p = 0
    · left
      have h2 := hS1 (k + 1) (by omega)
      exact ⟨by rw [h1.1, h2.1], by rw [h1.2, h2.2]⟩
    · right
      obtain ⟨x, y, d, hD, hB⟩ := hS2 (k + 1) (by omega) (by omega) (by omega)
      exact ⟨x, y, d, hD.transfer h1.1 h1.2, hB⟩
  have h0 : st.fp (k - 1) = none → st.fp (k + 1) = none → k = 0 ∧ st.es 0 = none := by
    intro hl hr
    have hp : p = 0 := by
      by_contra hp
      obtain ⟨x, y, d, hD, _⟩ := hS2 (k + 1) (by omega) (by omega) (by omega)
      have h1 := hM1 (k + 1) (Or.inr (by omega))
      exact (hD.transfer h1.1 h1.2).fp_ne_none hr
    have hk : k = 0 := by
      by_contra hk
      obtain ⟨x, y, d, hD, _⟩ := hM2 (k - 1) (by omega) (by omega)
      exact hD.fp_ne_none hl
    refine ⟨hk, ?_⟩
    have h1 := hM1 0 (Or.inr (by omega))
    have h2 := hS1 0 (by omega)
    rw [h1.2, h2.2]
  exact snakeStart_nonneg _ _ st k hL hR h0

/-- In the second `for` loop of a round, `snake(k)` starts from a point with
non-negative coordinates. -/
theorem mid2_start_nonneg {α : Type} {a b : List (Option α)} {cmp : Option α → Option α → Bool}
    {tInsert tDelete : Tag} (hmn : a.length ≤ b.length) (p : Nat) (st0 st1 st : MyersState)
    (k : Int) (hS : StartInv a b cmp tInsert tDelete p st0)
    (hM1 : Mid1 a b cmp tInsert tDelete p st0 ((b.length : Int) - a.length) st1)
    (hM : Mid2 a b cmp tInsert tDelete p st0 st1 k st)
    (hk1 : (b.length : Int) - a.length < k) (hk2 : k ≤ (b.length : Int) - a.length + p) :
    0 ≤ (snakeStart st k).1 ∧ 0 ≤ (snakeStart st k).2 := by
  obtain ⟨hS1, hS2⟩ := hS
  obtain ⟨hU1, _, _, _⟩ := hM1
  obtain ⟨hN1, hN2, hN3, hN4⟩ := hM
  have hfp0 : ∀ j : Int, (b.length : Int) - a.length ≤ j → j ≤ k →
      st.fp j = st0.fp j ∧ st.es j = st0.es j := by
    intro j h1 h2
    have e1 := hN1 j (Or.inl h2)
    have e2 := hU1 j (Or.inr h1)
    exact ⟨by rw [e1.1, e2.1], by rw [e1.2, e2.2]⟩
  have hLD : ∃ xl yl dl : Nat, Diag a b cmp tInsert tDelete st (k - 1) xl yl dl ∧
        (Bound a.length b.length ((p : Int) - 1) (k - 1) xl yl dl ∧
          xl < a.length ∧ yl < b.length) := by
    obtain ⟨x, y, d, hD, hB⟩ := hS2 (k - 1) (by omega) (by omega) (by omega)
    have e := hfp0 (k - 1) (by omega) (by omega)
    exact ⟨x, y, d, hD.transfer e.1 e.2, hB⟩
  have hR : (st.fp (k + 1) = none ∧ st.es (k + 1) = none) ∨
      ∃ xr yr dr : Nat, Diag a b cmp tInsert tDelete st (k + 1) xr yr dr ∧
        Bound a.length b.length (p : Int) (k + 1) xr yr dr := by
    by_cases hk : k = (b.length : Int) - a.length + p
    · left
      have e1 := hN1 (k + 1) (Or.inr (by omega))
      have e2 := hU1 (k + 1) (Or.inr (by omega))
      have e3 := hS1 (k + 1) (by omega)
      exact ⟨by rw [e1.1, e2.1, e3.1], by rw [e1.2, e2.2, e3.2]⟩
    · right
      exact hN2 (k + 1) (by omega) (by omega)
  have h0 : st.fp (k - 1) = none → st.fp (k + 1) = none → k = 0 ∧ st.es 0 = none := by
    intro hl _
    obtain ⟨x, y, d, hD, _⟩ := hLD
    exact (hD.fp_ne_none hl).elim
  exact snakeStart_nonneg _ _ st k (Or.inr hLD) hR h0

/-- The last call of a round, `snake(delta)`, starts from a point with
non-negative coordinates. -/
theorem last_start_nonneg {α : Type} {a b : List (Option α)} {cmp : Option α → Option α → Bool}
    {tInsert tDelete : Tag} (hmn : a.length ≤ b.length) (p : Nat) (st0 st1 st2 : MyersState)
    (hS : StartInv a b cmp tInsert tDelete p st0)
    (hM1 : Mid1 a b cmp tInsert tDelete p st0 ((b.length : Int) - a.length) st1)
    (hM2 : Mid2 a b cmp tInsert tDelete p st0 st1 ((b.length : Int) - a.length) st2) :
    0 ≤ (snakeStart st2 ((b.length : Int) - a.length)).1 ∧
      0 ≤ (snakeStart st2 ((b.length : Int) - a.length)).2 := by
  obtain ⟨hS1, hS2⟩ := hS
  obtain ⟨hU1, hP1, hC1, hR1⟩ := hM1
  obtain ⟨hU2, hP2, hC2, hR2⟩ := hM2
  have hlow : ∀ j : Int, j ≤ (b.length : Int) - a.length →
      st2.fp j = st1.fp j ∧ st2.es j = st1.es j := fun j hj => hU2 j (Or.inl hj)
  have hL : (st2.fp ((b.length : Int) - a.length - 1) = none ∧
        st2.es ((b.length : Int) - a.length - 1) = none) ∨
      ∃ xl yl dl : Nat, Diag a b cmp tInsert tDelete st2 ((b.length : Int) - a.length - 1)
          xl yl dl ∧
        Bound a.length b.length (p : Int) ((b.length : Int) - a.length - 1) xl yl dl := by
    have e := hlow ((b.length : Int) - a.length - 1) (by omega)
    by_cases hk : -(p : Int) ≤ (b.length : Int) - a.length - 1
    · right
      obtain ⟨x, y, d, hD, hB⟩ := hP1 _ hk (by omega)
      exact ⟨x, y, d, hD.transfer e.1 e.2, hB⟩
    · left
      have e3 := hU1 ((b.length : Int) - a.length - 1) (Or.inl (by omega))
      have e4 := hS1 ((b.length : Int) - a.length - 1) (by omega)
      exact ⟨by rw [e.1, e3.1, e4.1], by rw [e.2, e3.2, e4.2]⟩
  have hR : (st2.fp ((b.length : Int) - a.length + 1) = none ∧
        st2.es ((b.length : Int) - a.length + 1) = none) ∨
      ∃ xr yr dr : Nat, Diag a b cmp tInsert tDelete st2 ((b.length : Int) - a.length + 1)
          xr yr dr ∧
        Bound a.length b.length (p : Int) ((b.length : Int) - a.length + 1) xr yr dr := by
    by_cases hp : p = 0
    · left
      have e2 := hU2 ((b.length : Int) - a.length + 1) (Or.inr (by omega))
      have e3 := hU1 ((b.length : Int) - a.length + 1) (Or.inr (by omega))
      have e4 := hS1 ((b.length : Int) - a.length + 1) (by omega)
      exact ⟨by rw [e2.1, e3.1, e4.1], by rw [e2.2, e3.2, e4.2]⟩
    · right
      exact hP2 _ (by omega) (by omega)
  have hpz : st2.fp ((b.length : Int) - a.length - 1) = none →
      st2.fp ((b.length : Int) - a.length + 1) = none →
      p = 0 ∧ (b.length : Int) - a.length = 0 := by
    intro hl hr
    constructor
    · by_contra hp
      obtain ⟨x, y, d, hD, _⟩ := hP2 ((b.length : Int) - a.length + 1) (by omega) (by omega)
      exact hD.fp_ne_none hr
    · by_contra hd
      have hp : p = 0 := by
        by_contra hp
        obtain ⟨x, y, d, hD, _⟩ := hP2 ((b.length : Int) - a.length + 1) (by omega) (by omega)
        exact hD.fp_ne_none hr
      obtain ⟨x, y, d, hD, _⟩ := hP1 ((b.length : Int) - a.length - 1) (by omega) (by omega)
      have e := hlow ((b.length : Int) - a.length - 1) (by omega)
      exact (hD.transfer e.1 e.2).fp_ne_none hl
  have h0 : st2.fp ((b.length : Int) - a.length - 1) = none →
      st2.fp ((b.length : Int) - a.length + 1) = none →
      (b.length : Int) - a.length = 0 ∧ st2.es 0 = none := by
    intro hl hr
    obtain ⟨hp, hd⟩ := hpz hl hr
    refine ⟨hd, ?_⟩
    have e2 := hlow 0 (by omega)
    have e3 := hU1 0 (Or.inr (by omega))
    have e4 := hS1 0 (by omega)
    rw [e2.2, e3.2, e4.2]
  exact snakeStart_nonneg _ _ st2 ((b.length : Int) - a.length) hL hR h0

/-- Every call of `snake` in a round that starts from a state satisfying the
invariant starts from a point with non-negative coordinates. -/
theorem round_start_nonneg {α : Type} {a b : List (Option α)}
    {cmp : Option α → Option α → Bool} {tInsert tDelete : Tag} (hmn : a.length ≤ b.length)
    (p : Nat) (st0 : MyersState) (hS : StartInv a b cmp tInsert tDelete p st0)
    (i : Nat) (k : Int)
    (hk : (roundDiagonals p ((b.length : Int) - a.length))[i]? = some k) :
    0 ≤ (snakeStart (((roundDiagonals p ((b.length : Int) - a.length)).take i).foldl
        (snakeStep a b cmp tInsert tDelete) st0) k).1 ∧
    0 ≤ (snakeStart (((roundDiagonals p ((b.length : Int) - a.length)).take i).foldl
        (snakeStep a b cmp tInsert tDelete) st0) k).2 := by
  have hlenB : (diagonalsBelow p ((b.length : Int) - a.length)).length
      = ((b.length : Int) - a.length + p).toNat := by
    simp [diagonalsBelow]
  have hlenA : (diagonalsAbove p ((b.length : Int) - a.length)).length = p := by
    simp [diagonalsAbove]
  have hM1full := mid1_loop p st0 hS ((b.length : Int) - a.length + p).toNat (by omega)
  have e1 : -(p : Int) + (((b.length : Int) - a.length + p).toNat : Int)
      = (b.length : Int) - a.length := by omega
  rw [e1] at hM1full
  have hfoldB : (diagonalsBelow p ((b.length : Int) - a.length)).foldl
      (snakeStep a b cmp tInsert tDelete) st0
      = ((List.range ((b.length : Int) - a.length + p).toNat).map
          (fun i : Nat => -(p : Int) + i)).foldl (snakeStep a b cmp tInsert tDelete) st0 := rfl
  unfold roundDiagonals at hk ⊢
  by_cases hi1 : i < ((b.length : Int) - a.length + p).toNat
  · -- first loop
    rw [List.append_assoc, List.getElem?_append_left (by omega)] at hk
    rw [List.append_assoc, List.take_append_of_le_length (by omega)]
    have htake : (diagonalsBelow p ((b.length : Int) - a.length)).take i
        = (List.range i).map (fun j : Nat => -(p : Int) + j) := by
      unfold diagonalsBelow
      rw [← List.map_take, List.take_range, min_eq_left (by omega)]
    have hkval : k = -(p : Int) + i := by
      unfold diagonalsBelow at hk
      rw [List.getElem?_map, List.getElem?_range hi1] at hk
      simp only [Option.map_some'] at hk
      injection hk with hk
      exact hk.symm
    rw [htake, hkval]
    exact mid1_start_nonneg p st0 _ _ hS (mid1_loop p st0 hS i (by omega)) (by omega) (by omega)
  · by_cases hi2 : i < ((b.length : Int) - a.length + p).toNat + p
    · -- second loop
      obtain ⟨j, hj⟩ : ∃ j, i = ((b.length : Int) - a.length + p).toNat + j :=
        ⟨i - ((b.length : Int) - a.length + p).toNat, by omega⟩
      have hjp : j < p := by omega
      rw [List.append_assoc, List.getElem?_append_right (by omega),
        List.getElem?_append_left (by omega)] at hk
      have hidx : i - (diagonalsBelow p ((b.length : Int) - a.length)).length = j := by omega
      rw [hidx] at hk
      have hkval : k = (b.length : Int) - a.length + p - j := by
        unfold diagonalsAbove at hk
        rw [List.getElem?_map, List.getElem?_range hjp] at hk
        simp only [Option.map_some'] at hk
        injection hk with hk
        exact hk.symm
      have htake : ((diagonalsBelow p ((b.length : Int) - a.length) ++
            diagonalsAbove p ((b.length : Int) - a.length)) ++
            [(b.length : Int) - a.length]).take i
          = diagonalsBelow p ((b.length : Int) - a.length) ++
            (List.range j).map (fun t : Nat => (b.length : Int) - a.length + p - t) := by
        rw [List.append_assoc, List.take_append_eq_append_take, List.take_of_length_le (by omega),
          hidx, List.take_append_of_le_length (by omega)]
        unfold diagonalsAbove
        rw [← List.map_take, List.take_range, min_eq_left (by omega)]
      rw [htake, List.foldl_append, hfoldB, hkval]
      exact mid2_start_nonneg hmn p st0 _ _ _ hS hM1full
        (mid2_loop hmn p st0 _ hS hM1full j (by omega)) (by omega) (by omega)
    · -- the diagonal `delta`
      have hlen : (diagonalsBelow p ((b.length : Int) - a.length) ++
            diagonalsAbove p ((b.length : Int) - a.length)).length
          = ((b.length : Int) - a.length + p).toNat + p := by
        rw [List.length_append, hlenB, hlenA]
      have hieq : i = ((b.length : Int) - a.length + p).toNat + p := by
        by_contra hne
        rw [List.getElem?_eq_none] at hk
        · cases hk
        · rw [List.length_append, hlen]
          simp only [List.length_singleton]
          omega
      rw [List.getElem?_append_right (by omega)] at hk
      have hidx : i - (diagonalsBelow p ((b.length : Int) - a.length) ++
            diagonalsAbove p ((b.length : Int) - a.length)).length = 0 := by omega
      rw [hidx] at hk
      simp only [List.getElem?_cons_zero] at hk
      injection hk with hk
      rw [List.take_append_of_le_length (by omega), List.take_of_length_le (by omega),
        List.foldl_append, hfoldB, ← hk]
      have hM2 := mid2_loop hmn p st0 _ hS hM1full p (le_refl _)
      have e2 : (b.length : Int) - a.length + p - (p : Int) = (b.length : Int) - a.length := by
        omega
      rw [e2] at hM2
      exact last_start_nonneg hmn p st0 _ _ hS hM1full hM2
/-- The list of comparisons of the `while` loop does not depend on the fuel,
as soon as the fuel covers the `n - y` iterations that `y < n` allows. -/
theorem snakeCalls_fuel {α : Type} (a b : List (Option α))
    (cmp : Option α → Option α → Bool) (m n : Int) (f1 : Nat) :
    ∀ (f2 : Nat) (x y : Int), (n - y).toNat ≤ f1 → (n - y).toNat ≤ f2 →
      snakeCalls a b cmp m n f1 x y = snakeCalls a b cmp m n f2 x y := by
  induction f1 with
  | zero =>
    intro f2 x y h1 _
    cases f2 with
    | zero => rfl
    | succ f2 =>
      have hy : ¬ (y < n) := by omega
      simp [snakeCalls, hy]
  | succ f1 ih =>
    intro f2 x y h1 h2
    cases f2 with
    | zero =>
      have hy : ¬ (y < n) := by omega
      simp [snakeCalls, hy]
    | succ f2 =>
      unfold snakeCalls
      by_cases hc : (decide (x < m) && decide (y < n)) = true
      · rw [if_pos hc, if_pos hc]
        simp only [Bool.and_eq_true, decide_eq_true_eq] at hc
        by_cases hcmp : cmp (jsGet a x) (jsGet b y) = true
        · rw [if_pos hcmp, if_pos hcmp, ih f2 (x + 1) (y + 1) (by omega) (by omega)]
        · rw [if_neg hcmp, if_neg hcmp]
      · rw [if_neg hc, if_neg hc]

/-- The `while` loop of `snake` advances by one for each comparison that
accepts, so the list of comparisons is that of the loop of `snakeWhile`. -/
theorem snakeWhile_fst_eq_calls {α : Type} (a b : List (Option α))
    (cmp : Option α → Option α → Bool) (m n : Int) (fuel : Nat) :
    ∀ (x y : Int) (s : List Tag),
      (snakeWhile a b cmp m n fuel x y s).1
        = y + (((snakeCalls a b cmp m n fuel x y).filter
            (fun pt => cmp (jsGet a pt.1) (jsGet b pt.2))).length : Int) := by
  induction fuel with
  | zero =>
    intro x y s
    simp [snakeWhile, snakeCalls]
  | succ fuel ih =>
    intro x y s
    unfold snakeWhile snakeCalls
    by_cases hc : (decide (x < m) && decide (y < n)) = true
    · by_cases hcmp : cmp (jsGet a x) (jsGet b y) = true
      · have hall : (decide (x < m) && decide (y < n) && cmp (jsGet a x) (jsGet b y)) = true := by
          rw [hc, hcmp]
          rfl
        rw [if_pos hall, if_pos hc, if_pos hcmp, ih]
        simp only [List.filter_cons, hcmp, if_true, List.length_cons]
        push_cast
        omega
      · have hall : ¬ (decide (x < m) && decide (y < n) && cmp (jsGet a x) (jsGet b y)) = true := by
          rw [hc]
          simpa using hcmp
        rw [if_neg hall, if_pos hc, if_neg hcmp]
        simp [List.filter_cons, hcmp]
    · have hall : ¬ (decide (x < m) && decide (y < n) && cmp (jsGet a x) (jsGet b y)) = true := by
        intro h
        rw [Bool.and_eq_true] at h
        exact hc h.1
      rw [if_neg hall, if_neg hc]
      simp

/-- The furthest point stored by `fp[k] = snake(k)` is the start point moved
by the number of accepting comparisons. -/
theorem snakeStep_fp_calls {α : Type} (a b : List (Option α))
    (cmp : Option α → Option α → Bool) (tInsert tDelete : Tag) (st : MyersState) (k : Int) :
    (snakeStep a b cmp tInsert tDelete st k).fp k
      = some ((snakeStart st k).2 +
          (((snakeCalls a b cmp a.length b.length
              ((b.length : Int) - (snakeStart st k).2).toNat
              (snakeStart st k).1 (snakeStart st k).2).filter
            (fun pt => cmp (jsGet a pt.1) (jsGet b pt.2))).length : Int)) := by
  unfold snakeStep snakeStart
  simp only [setKey, if_true]
  rw [snakeWhile_fst_eq_calls]

/-- The first round of `diff` starts from the empty maps `es` and `fp`. -/
theorem myersCore_eq_diffLoop {α : Type} (a b : List (Option α))
    (cmp : Option α → Option α → Bool) (tInsert tDelete : Tag) (fuel : Nat) :
    myersCore fuel a b cmp tInsert tDelete
      = (diffLoop a b cmp tInsert tDelete fuel 0
          (stateAtRound a b cmp tInsert tDelete 0)).bind
        (fun st => (st.es ((b.length : Int) - a.length)).map (fun s => s.drop 1)) := by
  unfold myersCore
  simp only [stateAtRound]
  cases diffLoop a b cmp tInsert tDelete fuel 0 ⟨fun _ => none, fun _ => none⟩ with
  | none => rfl
  | some st =>
    cases h : st.es ((b.length : Int) - a.length) <;> simp [h]

/-- **C19** In-bounds comparisons in the exact path.  `diff` runs its loop on
sequences `a`, `b` with `len(a) ≤ len(b)` (the arguments, exchanged when the
new one is shorter).  In every round `p` that the loop enters, at every call
`snake(k)` of that round, the start point `(y - k, y)` has non-negative
coordinates, and every point `(x, y)` at which the `while` loop calls
`cmp(a[x], b[y])` has `0 ≤ x < m` and `0 ≤ y < n`. -/
theorem snake_calls_in_bounds {α : Type} (a b : List (Option α))
    (cmp : Option α → Option α → Bool) (tInsert tDelete : Tag) (hmn : a.length ≤ b.length)
    (p : Nat)
    (hrun : ∀ q, q < p →
      (stateAtRound a b cmp tInsert tDelete (q + 1)).fp ((b.length : Int) - a.length)
        ≠ some (b.length : Int))
    (i : Nat) (k : Int)
    (hk : (roundDiagonals p ((b.length : Int) - a.length))[i]? = some k) :
    0 ≤ (snakeStart (stateBeforeCall a b cmp tInsert tDelete p i) k).1 ∧
    0 ≤ (snakeStart (stateBeforeCall a b cmp tInsert tDelete p i) k).2 ∧
    ∀ pt ∈ snakeCalls a b cmp a.length b.length
        ((b.length : Int) - (snakeStart (stateBeforeCall a b cmp tInsert tDelete p i) k).2).toNat
        (snakeStart (stateBeforeCall a b cmp tInsert tDelete p i) k).1
        (snakeStart (stateBeforeCall a b cmp tInsert tDelete p i) k).2,
      0 ≤ pt.1 ∧ pt.1 < (a.length : Int) ∧ 0 ≤ pt.2 ∧ pt.2 < (b.length : Int) := by
  have hS := stateAtRound_startInv a b cmp tInsert tDelete hmn p hrun
  have h : 0 ≤ (snakeStart (stateBeforeCall a b cmp tInsert tDelete p i) k).1 ∧
      0 ≤ (snakeStart (stateBeforeCall a b cmp tInsert tDelete p i) k).2 :=
    round_start_nonneg hmn p _ hS i k hk
  refine ⟨h.1, h.2, ?_⟩
  intro pt hpt
  have hb := snakeCalls_bounds a b cmp _ _ _ _ _ pt hpt
  have h1 := h.1
  have h2 := h.2
  omega

/-- Instance of **C19** at the last call `snake(0)` of round `1` for
`a = "ab"`, `b = "cb"`, which compares `a[1]` with `b[1]`. -/
theorem snake_calls_in_bounds_witness :
    0 ≤ (snakeStart (stateBeforeCall (chars "ab") (chars "cb") defaultCmp
        Tag.insert Tag.delete 1 2) 0).1 ∧
    0 ≤ (snakeStart (stateBeforeCall (chars "ab") (chars "cb") defaultCmp
        Tag.insert Tag.delete 1 2) 0).2 ∧
    ∀ pt ∈ snakeCalls (chars "ab") (chars "cb") defaultCmp (chars "ab").length
        (chars "cb").length
        (((chars "cb").length : Int) - (snakeStart (stateBeforeCall (chars "ab") (chars "cb")
          defaultCmp Tag.insert Tag.delete 1 2) 0).2).toNat
        (snakeStart (stateBeforeCall (chars "ab") (chars "cb") defaultCmp
          Tag.insert Tag.delete 1 2) 0).1
        (snakeStart (stateBeforeCall (chars "ab") (chars "cb") defaultCmp
          Tag.insert Tag.delete 1 2) 0).2,
      0 ≤ pt.1 ∧ pt.1 < ((chars "ab").length : Int) ∧ 0 ≤ pt.2 ∧
        pt.2 < ((chars "cb").length : Int) :=
  snake_calls_in_bounds (chars "ab") (chars "cb") defaultCmp Tag.insert Tag.delete
    (by decide) 1
    (fun q hq => by
      have hq0 : q = 0 := by omega
      subst hq0
      decide)
    2 0 (by decide)

/-- The call of the instance above does compare one pair of elements, at
`(1, 1)`. -/
theorem snakeCalls_example :
    snakeCalls (chars "ab") (chars "cb") defaultCmp (chars "ab").length (chars "cb").length
        (((chars "cb").length : Int) - (snakeStart (stateBeforeCall (chars "ab") (chars "cb")
          defaultCmp Tag.insert Tag.delete 1 2) 0).2).toNat
        (snakeStart (stateBeforeCall (chars "ab") (chars "cb") defaultCmp
          Tag.insert Tag.delete 1 2) 0).1
        (snakeStart (stateBeforeCall (chars "ab") (chars "cb") defaultCmp
          Tag.insert Tag.delete 1 2) 0).2
      = [(1, 1)] := by
  decide

/-! ## Slots that hold `undefined` -/

/-- When the first difference is at `f`, the boundary leaves a changed region
that is not empty in at least one of the two arrays. -/
theorem findChangeBoundaryIndexes_of_first {α : Type} (a b : List (Option α))
    (cmp : Option α → Option α → Bool) (f : Nat)
    (hf : findFirstDifferenceIndex a b cmp = (f : Int)) :
    ∃ l : Nat,
      findChangeBoundaryIndexes a b cmp
        = { firstIndex := (f : Int), lastIndexOld := (a.length : Int) - l,
            lastIndexNew := (b.length : Int) - l } ∧
      f + l ≤ a.length ∧ f + l ≤ b.length ∧ l < max (a.length - f) (b.length - f) := by
  have hne : findFirstDifferenceIndex a b cmp ≠ -1 := by
    rw [hf]
    omega
  obtain ⟨f', hf', hfa, hfb, hfm, hnA, hA⟩ := findFirstDifferenceIndex_nonneg a b cmp hne
  have hff : f' = f := by
    rw [hf] at hf'
    omega
  subst hff
  have hl : findFirstDifferenceIndex (a.drop f').reverse (b.drop f').reverse cmp ≠ -1 := by
    intro hneg
    obtain ⟨hlen, hall⟩ := findFirstDifferenceIndex_neg _ _ cmp hneg
    simp only [List.length_reverse, List.length_drop] at hlen hall
    have hfa' : f' < a.length := by omega
    have hfb' : f' < b.length := by omega
    have hAg := hall (a.length - f' - 1) (by omega)
    apply hnA
    refine (Agree.of_jsGet_eq ?_ ?_).mp hAg
    · rw [jsGet_reverse_drop a f' _ (by omega)]
      congr 2
      omega
    · rw [jsGet_reverse_drop b f' _ (by omega)]
      congr 2
      omega
  obtain ⟨l, hl1, hla, hlb, hlm, _, _⟩ := findFirstDifferenceIndex_nonneg _ _ cmp hl
  simp only [List.length_reverse, List.length_drop] at hla hlb hlm
  refine ⟨l, ?_, by omega, by omega, hlm⟩
  have hf1 : ¬ ((f' : Int) = -1) := by omega
  unfold findChangeBoundaryIndexes
  simp only [hf, cutAndReverse_eq a f' hfa, cutAndReverse_eq b f' hfb, hl1, hf1, if_false]

/-- **C20** (as amended) Slots that hold `undefined` count as differences.
When the scan of `findFirstDifferenceIndex` reaches position `i` (every
position before `i` holds a defined value in both arrays and `eq` accepts the
pair) and `old[i]` or `new[i]` is `undefined`, the function returns `i`
whatever `eq` says about that pair, also when `i` is inside both arrays and
both hold `undefined` there, and `fastDiff(old, new)` is a non-empty change
list whose first change has index `i`.  With `old = new = s` this is the case
of an array `s` whose first `undefined` element is at position `i`, for an
`eq` that accepts each earlier element against itself. -/
theorem undefined_counts_as_difference {α : Type} (old new : List (Option α))
    (cmp : Option α → Option α → Bool) (i : Nat)
    (hi : i < max old.length new.length)
    (hpre : ∀ j, j < i → jsGet old j ≠ none ∧ jsGet new j ≠ none ∧
      cmp (jsGet old j) (jsGet new j) = true)
    (hund : jsGet old i = none ∨ jsGet new i = none) :
    findFirstDifferenceIndex old new cmp = (i : Int) ∧
    ∃ (c : Change α) (rest : List (Change α)),
      fastDiff old new cmp false = c :: rest ∧ c.index = (i : Int) := by
  have hnA : ¬ Agree old new cmp i := by
    unfold Agree
    rcases hund with h | h <;> simp [h]
  have hA : ∀ j, j < i → Agree old new cmp j := by
    intro j hj
    obtain ⟨h1, h2, h3⟩ := hpre j hj
    unfold Agree
    cases h4 : jsGet old j with
    | none => exact absurd h4 h1
    | some v =>
      cases h5 : jsGet new j with
      | none => exact absurd h5 h2
      | some w =>
        rw [h4, h5] at h3
        simp [h3]
  have hfirst : findFirstDifferenceIndex old new cmp = (i : Int) := by
    have hne : findFirstDifferenceIndex old new cmp ≠ -1 := by
      intro hneg
      obtain ⟨hlen, hall⟩ := findFirstDifferenceIndex_neg old new cmp hneg
      exact hnA (hall i (by omega))
    obtain ⟨q, hq, _, _, _, hq1, hq2⟩ := findFirstDifferenceIndex_nonneg old new cmp hne
    rw [hq, first_disagreement_unique hq1 hq2 hnA hA]
  refine ⟨hfirst, ?_⟩
  obtain ⟨l, hci, hla, hlb, hlm⟩ := findChangeBoundaryIndexes_of_first old new cmp i hfirst
  show ∃ (c : Change α) (rest : List (Change α)),
    changeIndexesToChanges new (findChangeBoundaryIndexes old new cmp) = c :: rest ∧
      c.index = (i : Int)
  rw [hci]
  unfold changeIndexesToChanges
  simp only [List.nil_append]
  by_cases h1 : (new.length : Int) - l - i > 0
  · rw [if_pos h1]
    by_cases h2 : (old.length : Int) - l - i > 0
    · rw [if_pos h2]
      exact ⟨_, _, rfl, rfl⟩
    · rw [if_neg h2]
      exact ⟨_, _, rfl, rfl⟩
  · rw [if_neg h1]
    have h2 : (old.length : Int) - l - i > 0 := by omega
    rw [if_pos h2]
    refine ⟨_, _, rfl, ?_⟩
    simp only [Change.index]
    omega

/-- Instance of **C20** (as amended) at `s = ["a", undefined, "b", undefined]`,
whose first `undefined` element is at position `1`, with the default
equality. -/
theorem undefined_counts_as_difference_witness :
    findFirstDifferenceIndex [some 'a', none, some 'b', none]
        [some 'a', none, some 'b', none] defaultCmp = ((1 : Nat) : Int) ∧
    ∃ (c : Change Char) (rest : List (Change Char)),
      fastDiff [some 'a', none, some 'b', none] [some 'a', none, some 'b', none]
        defaultCmp false = c :: rest ∧ c.index = ((1 : Nat) : Int) :=
  undefined_counts_as_difference [some 'a', none, some 'b', none]
    [some 'a', none, some 'b', none] defaultCmp 1 (by decide)
    (fun j hj => by
      have hj0 : j = 0 := by omega
      subst hj0
      decide)
    (Or.inl (by decide))

/-- The change list of the instance above: the insert and the delete both
cover the positions `1 .. 3`, from the first to the last `undefined`. -/
theorem fastDiff_undefined_example :
    fastDiff [some 'a', none, some 'b', none] [some 'a', none, some 'b', none]
        defaultCmp false
      = [Change.insert 1 [none, some 'b', none], Change.delete 4 3] := by
  decide

/-- **C20** (as stated) For `s = ["a", undefined]`, whose first `undefined`
element is at position `1`, and a comparator that rejects every pair,
`findFirstDifferenceIndex(s, s, eq)` is `0`, not `1`, and the change list
`fastDiff(s, s, eq)` starts at index `0`: the comparator is consulted at
position `0`, before the scan reaches the slot holding `undefined`. -/
theorem undefined_first_not_returned :
    jsGet ([some 'a', none] : List (Option Char)) ((0 : Nat) : Int) ≠ none ∧
    jsGet ([some 'a', none] : List (Option Char)) ((1 : Nat) : Int) = none ∧
    findFirstDifferenceIndex ([some 'a', none] : List (Option Char)) [some 'a', none]
      (fun _ _ => false) = 0 ∧
    findFirstDifferenceIndex ([some 'a', none] : List (Option Char)) [some 'a', none]
      (fun _ _ => false) ≠ ((1 : Nat) : Int) ∧
    fastDiff ([some 'a', none] : List (Option Char)) [some 'a', none] (fun _ _ => false) false
      = [Change.insert 0 [some 'a', none], Change.delete 2 2] := by
  refine ⟨by decide, by decide, by decide, by decide, by decide⟩

end FastDiff
